import Mathlib

namespace Puzzle

/-! Shallow embedding of the maze-puzzle core of the repository:
cell grid and coordinate utilities (`src/js/utils.js`), the A* solver of
`MazePuzzle` (`src/js/puzzle.js`), the BFS solver and start/end placement of
`MazeGenerator` (`src/unnamed/part_000`), maze generation
(`src/js/utils.js` and `src/unnamed/part_000`), and the rules engine
(`src/js/rulesEngine.js`). -/

/-- Cell kinds of the maze grid, mirroring `CELL_TYPES` in `src/js/utils.js`
(`WALL: 0, PATH: 1, START: 2, END: 3`). -/
inductive Cell where
  | WALL
  | PATH
  | START
  | END
deriving DecidableEq, Repr

/-- Integer coordinate pair, mirroring the `{x, y}` position objects used
throughout the source. -/
structure Pos where
  x : Int
  y : Int
deriving DecidableEq, Repr

/-- A maze is a row-major matrix of cells: `maze[y][x]`. -/
abbrev Maze := List (List Cell)

/-- Reading `maze[p.y][p.x]`: `none` when an index is out of range
(JavaScript would yield `undefined`). -/
def cellAt (m : Maze) (p : Pos) : Option Cell :=
  if 0 ≤ p.y ∧ 0 ≤ p.x then (m[p.y.toNat]?).bind (fun row => row[p.x.toNat]?) else none

/-- Writing `maze[p.y][p.x] = c`; out-of-range writes leave the matrix
unchanged (every write performed by the embedded code is proved in range). -/
def setCell (m : Maze) (p : Pos) (c : Cell) : Maze :=
  if 0 ≤ p.y ∧ 0 ≤ p.x then
    match m[p.y.toNat]? with
    | some row => m.set p.y.toNat (row.set p.x.toNat c)
    | none => m
  else m

/-- Well-formedness of the maze matrix relative to the `width`/`height`
fields kept alongside it in the source: `height` rows, each of length
`width`. -/
def MazeWF (m : Maze) (W H : Int) : Prop :=
  (m.length : Int) = H ∧ ∀ row ∈ m, (row.length : Int) = W

/-- Modelled from the spec: `manhattanDistance`, called by
`MazeGenerator.placeStartAndEnd` and not present under `src/`; the spec
defines the distance of the maze variant as Manhattan distance
`|dx| + |dy|`. -/
def manhattanDistance (a b : Pos) : Int :=
  |a.x - b.x| + |a.y - b.y|

/-- Modelled from the spec: `getAdjacent4`, called by
`MazeGenerator.findSolution` and not present under `src/`; the spec defines
maze adjacency as the four axis-neighbors (Manhattan distance 1). Order
matches the up/right/down/left convention used by `getValidAdjacentCells`
in `src/js/utils.js`. -/
def getAdjacent4 (x y : Int) : List Pos :=
  [⟨x, y - 1⟩, ⟨x + 1, y⟩, ⟨x, y + 1⟩, ⟨x - 1, y⟩]

/-- Squared Euclidean distance. The source's `getDistance`
(`src/js/utils.js`) returns `Math.sqrt(dx*dx + dy*dy)` and is only ever used
in order comparisons; since the square root is strictly monotone on
nonnegative reals, comparisons of `getDistance` values coincide with
comparisons of the squared distances embedded here. -/
def getDistanceSq (a b : Pos) : Int :=
  (a.x - b.x) * (a.x - b.x) + (a.y - b.y) * (a.y - b.y)

/-- Two positions at Manhattan distance exactly 1 (4-directional
adjacency), the adjacency notion of the claims. -/
def Adjacent (a b : Pos) : Prop :=
  manhattanDistance a b = 1

/-- The neighbor filter of `getValidAdjacentCells` in `src/js/utils.js`:
in bounds of the maze matrix and of kind `PATH`, `START` or `END`. -/
def openCell (m : Maze) (p : Pos) : Prop :=
  0 ≤ p.x ∧ p.x < ((m.headD []).length : Int) ∧ 0 ≤ p.y ∧ p.y < (m.length : Int) ∧
    (cellAt m p = some Cell.PATH ∨ cellAt m p = some Cell.START ∨ cellAt m p = some Cell.END)

instance (m : Maze) (p : Pos) : Decidable (openCell m p) := by
  unfold openCell; infer_instance

/-- `getValidAdjacentCells(x, y, maze)` from `src/js/utils.js`: the four
axis-neighbors of `(x, y)`, kept when in bounds and of kind `PATH`, `START`
or `END`, in up/right/down/left order. -/
def getValidAdjacentCells (x y : Int) (m : Maze) : List Pos :=
  [Pos.mk 0 (-1), Pos.mk 1 0, Pos.mk 0 1, Pos.mk (-1) 0].foldl
    (fun acc d =>
      let n : Pos := ⟨x + d.x, y + d.y⟩
      if openCell m n then acc ++ [n] else acc) []

/-! ## Rules engine (`src/js/rulesEngine.js`) -/

/-- Validation context object passed to `RulesEngine.validate` and to the
individual rules (assembled in `validateAndComplete` of the game layer).
`path` and `requiredPoints` may be `null`. -/
structure Context where
  path : Option (List Pos)
  maze : Maze
  startPos : Pos
  endPos : Pos
  resolution : Int
  requiredPoints : Option (List Pos)

/-- Result object `{passed, message}` returned by each rule's `validate`. -/
structure RuleResult where
  passed : Bool
  message : String
deriving DecidableEq, Repr

/-- A rule as the engine sees it: a name, an enabled flag, and the
subclass's `validate` behaviour. -/
structure Rule where
  name : String
  enabled : Bool
  run : Context → RuleResult

/-- One entry of the engine's `results` array: `{rule: rule.name, ...result}`. -/
structure EngineEntry where
  rule : String
  passed : Bool
  message : String
deriving DecidableEq, Repr

/-- The object returned by `RulesEngine.validate`. -/
structure EngineResult where
  passed : Bool
  results : List EngineEntry
  message : String
deriving DecidableEq, Repr

/-- The loop body of `RulesEngine.validate`: skip disabled rules, run the
rule, append `{rule: name, ...result}` to `results`, and clear `allPassed`
when the rule failed. -/
def engineStep (ctx : Context) (acc : List EngineEntry × Bool) (rule : Rule) :
    List EngineEntry × Bool :=
  if rule.enabled = false then acc
  else
    let result := rule.run ctx
    (acc.1 ++ [⟨rule.name, result.passed, result.message⟩],
     if result.passed = false then false else acc.2)

/-- `RulesEngine.validate(context)` from `src/js/rulesEngine.js` (lines
223-248): run every enabled rule, aggregate `allPassed`, and build the
message from the first failing entry of `results` (the source's
`results.find(r => !r.passed)?.message`; the `none` branch mirrors
JavaScript's `undefined`). -/
def RulesEngine.validate (rules : List Rule) (ctx : Context) : EngineResult :=
  let pr := rules.foldl (engineStep ctx) ([], true)
  { passed := pr.2
    results := pr.1
    message :=
      if pr.2 then "✅ All rules passed!"
      else "❌ " ++ (match pr.1.find? (fun r => !r.passed) with
                    | some r => r.message
                    | none => "undefined") }

namespace PathContinuityRule

/-- The gap scan of `PathContinuityRule.validate`: walk consecutive pairs
and report a gap as soon as a pair has Manhattan distance above 2. -/
def hasGap : Pos → List Pos → Bool
  | _, [] => false
  | prev, curr :: rest =>
    if 2 < |curr.x - prev.x| + |curr.y - prev.y| then true else hasGap curr rest

/-- `PathContinuityRule.validate(context)` from `src/js/rulesEngine.js`
(lines 92-122): a null path or a path of fewer than 2 points passes;
otherwise the path passes exactly when no consecutive pair is farther than
Manhattan distance 2 apart. -/
def validate (ctx : Context) : RuleResult :=
  match ctx.path with
  | none => ⟨true, "Path is continuous"⟩
  | some path =>
    if path.length < 2 then ⟨true, "Path is continuous"⟩
    else
      match path with
      | [] => ⟨true, "Path is continuous"⟩
      | p0 :: rest =>
        if hasGap p0 rest then ⟨false, "Path has gaps"⟩
        else ⟨true, "Path is continuous"⟩

end PathContinuityRule

namespace RequiredPointsRule

/-- One round of the source's `unvisitedPoints.forEach((reqPoint, index) =>
{ if (match) unvisitedPoints.splice(index, 1) })`: JavaScript's `forEach`
advances its index over the array being spliced, so removing the element at
`i` makes the iteration skip the element that slides into slot `i`. -/
def spliceScan (g : Pos) (i : Nat) (pts : List Pos) : List Pos :=
  if h : i < pts.length then
    if pts.get ⟨i, h⟩ = g then spliceScan g (i + 1) (pts.eraseIdx i)
    else spliceScan g (i + 1) pts
  else pts
termination_by pts.length - i
decreasing_by
  · simp only [List.length_eraseIdx, h, if_true]
    omega
  · omega

/-- `RequiredPointsRule.validate(context)` from `src/js/rulesEngine.js`
(lines 330-366). Returns `none` exactly when the source would throw: a null
`path` iterated with nonempty `requiredPoints`. Path points are mapped to
grid cells by flooring the division by `resolution`. -/
def validate (ctx : Context) : Option RuleResult :=
  match ctx.requiredPoints with
  | none => some ⟨true, "No required points to check"⟩
  | some requiredPoints =>
    if requiredPoints.length = 0 then some ⟨true, "No required points to check"⟩
    else
      match ctx.path with
      | none => none
      | some path =>
        let unvisitedPoints := path.foldl
          (fun acc pathPoint =>
            spliceScan ⟨pathPoint.x.fdiv ctx.resolution, pathPoint.y.fdiv ctx.resolution⟩ 0 acc)
          requiredPoints
        if 0 < unvisitedPoints.length then
          some ⟨false, "Must pass through " ++ toString unvisitedPoints.length ++
            " more required point(s)"⟩
        else some ⟨true, "All required points visited"⟩

end RequiredPointsRule

/-! ## `MazePuzzle` serialization (`src/js/puzzle.js`) -/

/-- The fields of a `MazePuzzle` instance (`src/js/puzzle.js`); `startPoint`,
`endPoint` and `solution` are `null` until `generate()` sets them. -/
structure MazePuzzle where
  width : Int
  height : Int
  maze : Maze
  startPoint : Option Pos
  endPoint : Option Pos
  solution : Option (List Pos)
deriving DecidableEq, Repr

/-- The flat record produced by `MazePuzzle.serialize` (lines 287-296). -/
structure SerializedPuzzle where
  width : Int
  height : Int
  maze : Maze
  startPoint : Option Pos
  endPoint : Option Pos
  solution : Option (List Pos)
deriving DecidableEq, Repr

/-- `MazePuzzle.serialize()` (lines 287-296 of `src/js/puzzle.js`). -/
def MazePuzzle.serialize (p : MazePuzzle) : SerializedPuzzle :=
  ⟨p.width, p.height, p.maze, p.startPoint, p.endPoint, p.solution⟩

/-- `MazePuzzle.deserialize(data)` (lines 302-309 of `src/js/puzzle.js`):
overwrite every field of the receiver with the record's fields. -/
def MazePuzzle.deserialize (_p : MazePuzzle) (data : SerializedPuzzle) : MazePuzzle :=
  ⟨data.width, data.height, data.maze, data.startPoint, data.endPoint, data.solution⟩

/-! ## BFS solver: `MazeGenerator.findSolution` (`src/unnamed/part_000`, lines 194-232) -/

/-- The neighbor test and enqueue of the BFS loop: in bounds of the
generator's `width`/`height`, of kind `PATH` or `END`, and not yet in the
`visited` set; a passing neighbor is marked visited and enqueued with its
extended path. -/
def bfsEnqueue (m : Maze) (W H : Int) (path : List Pos)
    (qv : List (Pos × List Pos) × List Pos) (neighbor : Pos) :
    List (Pos × List Pos) × List Pos :=
  if 0 ≤ neighbor.x ∧ neighbor.x < W ∧ 0 ≤ neighbor.y ∧ neighbor.y < H ∧
      (cellAt m neighbor = some Cell.PATH ∨ cellAt m neighbor = some Cell.END) ∧
      neighbor ∉ qv.2
  then (qv.1 ++ [(neighbor, path ++ [neighbor])], neighbor :: qv.2)
  else qv

/-- The `while (queue.length > 0)` loop of `findSolution`, with fuel for the
iteration count; `none` means the fuel ran out, which
`findSolutionAux_enough` below proves never happens for the fuel passed by
`MazeGenerator.findSolution`. The queue is FIFO: dequeue at the head,
enqueue at the tail. -/
def findSolutionAux (m : Maze) (W H : Int) (endPos : Pos) :
    Nat → List (Pos × List Pos) → List Pos → Option (Option (List Pos))
  | 0, _, _ => none
  | _ + 1, [], _ => some none
  | fuel + 1, (pos, path) :: rest, visited =>
    if pos = endPos then some (some path)
    else
      let qv := (getAdjacent4 pos.x pos.y).foldl (bfsEnqueue m W H path) (rest, visited)
      findSolutionAux m W H endPos fuel qv.1 qv.2

/-- `MazeGenerator.findSolution()` (`src/unnamed/part_000`, lines 194-232):
breadth-first search from `startPos`, carrying full paths in the queue,
returning `null` when start or end is missing or the frontier empties. -/
def MazeGenerator.findSolution (m : Maze) (W H : Int)
    (startPos endPos : Option Pos) : Option (List Pos) :=
  match startPos, endPos with
  | some s, some e =>
    (findSolutionAux m W H e (W.toNat * H.toNat + 2) [(s, [s])] [s]).getD none
  | _, _ => none

/-! ## A* solver: `MazePuzzle.findPath` (`src/js/puzzle.js`, lines 68-133)

The source scores nodes with floating-point arithmetic:
`fScore = tentativeGScore + getDistance(neighbor, end)` where `getDistance`
takes a square root. The embedding abstracts this one computation as an
oracle `hsum : ℚ → Pos → ℚ` (every floating-point value is a rational, so
each concrete execution of the source is the instance of `hsum` returning
the floats the source computes); every theorem about `findPath` below is
proved for all `hsum`. All other arithmetic of `findPath` is exact integer
arithmetic. -/

/-- Mutable search state of `findPath`: the open set and the `cameFrom`,
`gScore` and `fScore` maps (JavaScript `Map.get` on a missing key yields
`undefined`, embedded as `none`). -/
structure AState where
  openSet : List Pos
  cameFrom : Pos → Option Pos
  g : Pos → Option ℚ
  f : Pos → Option ℚ

/-- Comparison `a < b` on possibly-`undefined` scores: any comparison with
`undefined` is false in JavaScript. -/
def ltF : Option ℚ → Option ℚ → Bool
  | some a, some b => decide (a < b)
  | _, _ => false

/-- Comparison `a >= b` against a possibly-`undefined` score. -/
def geF : ℚ → Option ℚ → Bool
  | a, some b => decide (b ≤ a)
  | _, none => false

/-- The `for` scan of `findPath` that locates the open-set member with the
strictly lowest `fScore` (first minimum kept), returning it with its index.
`i` is the index of the head of the remaining list. -/
def findLowest (f : Pos → Option ℚ) : Nat → Pos → Nat → List Pos → Pos × Nat
  | _, cur, curIdx, [] => (cur, curIdx)
  | i, cur, curIdx, p :: rest =>
    if ltF (f p) (f cur) then findLowest f (i + 1) p i rest
    else findLowest f (i + 1) cur curIdx rest

/-- The neighbor-loop body of `findPath`: skip closed neighbors; push an
unseen neighbor, or skip a known one whose tentative score is not an
improvement; otherwise record predecessor and scores. `tentativeGScore`
reads the current node's `gScore`, which is always present (the `getD 0`
default is never exercised). -/
def astarStepNeighbor (hsum : ℚ → Pos → ℚ) (cur : Pos) (closed : List Pos)
    (st : AState) (n : Pos) : AState :=
  if n ∈ closed then st
  else
    let tentative : ℚ := (st.g cur).getD 0 + 1
    let update : AState → AState := fun s =>
      { s with
        cameFrom := fun p => if p = n then some cur else s.cameFrom p
        g := fun p => if p = n then some tentative else s.g p
        f := fun p => if p = n then some (hsum tentative n) else s.f p }
    if n ∈ st.openSet then
      if geF tentative (st.g n) then st else update st
    else
      update { st with openSet := st.openSet ++ [n] }

/-- The path reconstruction of `findPath`: follow `cameFrom` from the goal,
prepending each node (`path.unshift(temp)`), until a node with no
predecessor. Fuel bounds the chain length; `reconstructPath_spec` below
shows the fuel passed by `findPath` always suffices. -/
def reconstructPath (cf : Pos → Option Pos) : Nat → Pos → List Pos
  | 0, p => [p]
  | fuel + 1, p =>
    match cf p with
    | none => [p]
    | some q => reconstructPath cf fuel q ++ [p]

/-- The `while (openSet.length > 0)` loop of `findPath`, with fuel;
`findPathAux_enough` below proves the fuel passed by `MazePuzzle.findPath`
never runs out. -/
def findPathAux (hsum : ℚ → Pos → ℚ) (m : Maze) (endPos : Pos) :
    Nat → AState → List Pos → Option (Option (List Pos))
  | 0, _, _ => none
  | fuel + 1, st, closed =>
    match st.openSet with
    | [] => some none
    | h :: t =>
      let sel := findLowest st.f 1 h 0 t
      let closed' := sel.1 :: closed
      if sel.1 = endPos then
        some (some (reconstructPath st.cameFrom ((m.headD []).length * m.length + 2) sel.1))
      else
        let st' := (getValidAdjacentCells sel.1.x sel.1.y m).foldl
          (astarStepNeighbor hsum sel.1 closed')
          { st with openSet := st.openSet.eraseIdx sel.2 }
        findPathAux hsum m endPos fuel st' closed'

/-- `MazePuzzle.findPath(start, end)` (`src/js/puzzle.js`, lines 68-133):
A* search over the maze; initially the open set holds `start` with
`gScore 0` and `fScore` equal to the heuristic at `start`. -/
def MazePuzzle.findPath (hsum : ℚ → Pos → ℚ) (m : Maze) (start endPos : Pos) :
    Option (List Pos) :=
  let st0 : AState :=
    { openSet := [start]
      cameFrom := fun _ => none
      g := fun p => if p = start then some 0 else none
      f := fun p => if p = start then some (hsum 0 start) else none }
  (findPathAux hsum m endPos ((m.headD []).length * m.length + 2) st0 []).getD none

/-! ## Maze generation (`src/js/utils.js`, lines 268-341) -/

/-- `getUnvisitedNeighbors(x, y, maze)` (`src/js/utils.js`, lines 316-341):
the four cells two steps away, kept when strictly inside the border and
still `WALL`. -/
def getUnvisitedNeighbors (x y : Int) (m : Maze) : List Pos :=
  let width := ((m.headD []).length : Int)
  let height := (m.length : Int)
  [Pos.mk 0 (-2), Pos.mk 2 0, Pos.mk 0 2, Pos.mk (-2) 0].foldl
    (fun acc d =>
      let n : Pos := ⟨x + d.x, y + d.y⟩
      if 0 < n.x ∧ n.x < width - 1 ∧ 0 < n.y ∧ n.y < height - 1 ∧
          cellAt m n = some Cell.WALL
      then acc ++ [n] else acc) []

/-- The `while (stack.length > 0)` loop of `generateMaze`. Randomness is an
oracle `rng : Nat → Nat`: the `t`-th call of `Math.random` picks index
`rng t % neighbors.length`, which ranges over exactly the indices the
source can pick; every theorem quantifies over all `rng`. The stack is
embedded head-first (`push` is cons, `stack[stack.length-1]` is the head).
Fuel never runs out (`generateMazeAux_enough` and `generateMaze_fuel_stable`
below). -/
def generateMazeAux (rng : Nat → Nat) : Nat → Nat → List Pos → Maze → Maze
  | 0, _, _, m => m
  | fuel + 1, t, stack, m =>
    match stack with
    | [] => m
    | current :: rest =>
      let neighbors := getUnvisitedNeighbors current.x current.y m
      if hn : 0 < neighbors.length then
        let next := neighbors.get ⟨rng t % neighbors.length, Nat.mod_lt _ hn⟩
        let wall : Pos := ⟨current.x + (next.x - current.x) / 2,
                           current.y + (next.y - current.y) / 2⟩
        generateMazeAux rng fuel (t + 1) (next :: current :: rest)
          (setCell (setCell m wall Cell.PATH) next Cell.PATH)
      else
        generateMazeAux rng fuel t rest m

/-- `generateMaze(width, height)` (`src/js/utils.js`, lines 268-307):
initialize an all-`WALL` matrix, carve `(1,1)` to `PATH`, and run recursive
backtracking from a stack holding `(1,1)`. -/
def generateMaze (rng : Nat → Nat) (W H : Int) : Maze :=
  let m0 : Maze := List.replicate H.toNat (List.replicate W.toNat Cell.WALL)
  generateMazeAux rng (2 * W.toNat * H.toNat + 4) 0 [⟨1, 1⟩] (setCell m0 ⟨1, 1⟩ Cell.PATH)

/-! ## `MazeGenerator` generation and placement (`src/unnamed/part_000`) -/

/-- `MazeGenerator.getUnvisitedNeighbors(pos, visited)` (lines 96-117):
like the `utils.js` version but keyed on the generator's `width`/`height`
fields and an explicit `visited` set instead of the cell kind. -/
def MazeGenerator.getUnvisitedNeighbors (x y : Int) (W H : Int) (visited : List Pos) :
    List Pos :=
  [Pos.mk 0 (-2), Pos.mk 2 0, Pos.mk 0 2, Pos.mk (-2) 0].foldl
    (fun acc d =>
      let n : Pos := ⟨x + d.x, y + d.y⟩
      if 0 < n.x ∧ n.x < W - 1 ∧ 0 < n.y ∧ n.y < H - 1 ∧ n ∉ visited
      then acc ++ [n] else acc) []

/-- The `while` loop of `MazeGenerator.recursiveBacktracking` (lines 55-88).
Unlike the `utils.js` variant it tracks a `current` cell separate from the
stack and a `visited` set; backtracking pops the stack top into `current`.
Stack embedded head-first as above. -/
def recursiveBacktrackingAux (rng : Nat → Nat) (W H : Int) :
    Nat → Nat → Pos → List Pos → List Pos → Maze → Maze
  | 0, _, _, _, _, m => m
  | fuel + 1, t, current, stack, visited, m =>
    match stack with
    | [] => m
    | top :: rest =>
      let neighbors := MazeGenerator.getUnvisitedNeighbors current.x current.y W H visited
      if hn : 0 < neighbors.length then
        let next := neighbors.get ⟨rng t % neighbors.length, Nat.mod_lt _ hn⟩
        let wall : Pos := ⟨current.x + (next.x - current.x) / 2,
                           current.y + (next.y - current.y) / 2⟩
        recursiveBacktrackingAux rng W H fuel (t + 1) next (next :: top :: rest)
          (next :: visited)
          (setCell (setCell m wall Cell.PATH) next Cell.PATH)
      else
        recursiveBacktrackingAux rng W H fuel t top rest visited m

/-- `MazeGenerator.recursiveBacktracking()` (lines 55-88): start at `(1,1)`,
marked `PATH` and visited, with `(1,1)` on the stack. -/
def MazeGenerator.recursiveBacktracking (rng : Nat → Nat) (W H : Int) (m : Maze) : Maze :=
  recursiveBacktrackingAux rng W H (2 * W.toNat * H.toNat + 4) 0 ⟨1, 1⟩ [⟨1, 1⟩] [⟨1, 1⟩]
    (setCell m ⟨1, 1⟩ Cell.PATH)

/-! ## Start/end placement -/

/-- The row-major scan collecting all `PATH` cells (`for y ... for x ... if
maze[y][x] === CELL_TYPES.PATH`), shared by both placement variants; the
list order is the source's scan order. -/
def pathCellsOf (m : Maze) : List Pos :=
  (m.enum.map (fun ry =>
    ry.2.enum.filterMap (fun xc =>
      if xc.2 = Cell.PATH then some (⟨(xc.1 : Int), (ry.1 : Int)⟩ : Pos) else none))).flatten

/-- `placeStartAndEnd(maze)` (`src/js/utils.js`, lines 348-379): random
start among the path cells, end the first farthest path cell by (squared)
Euclidean distance under a strict `>` against a running maximum starting at
0. Returns `none` where the source would throw: no path cells at all
(`pathCells[NaN]` is `undefined`), or `end` never assigned because every
distance is 0. -/
def placeStartAndEnd (rng : Nat → Nat) (t : Nat) (m : Maze) : Option (Pos × Pos × Maze) :=
  let pathCells := pathCellsOf m
  if hne : 0 < pathCells.length then
    let start := pathCells.get ⟨rng t % pathCells.length, Nat.mod_lt _ hne⟩
    let res := pathCells.foldl
      (fun (acc : Int × Option Pos) cell =>
        if getDistanceSq start cell > acc.1 then (getDistanceSq start cell, some cell)
        else acc)
      (0, none)
    match res.2 with
    | none => none
    | some e => some (start, e, setCell (setCell m start Cell.START) e Cell.END)
  else none

/-- The relevant fields of a `MazeGenerator` instance. -/
structure MGState where
  maze : Maze
  width : Int
  height : Int
  startPos : Option Pos
  endPos : Option Pos
deriving DecidableEq, Repr

/-- `MazeGenerator.placeStartAndEnd()` (`src/unnamed/part_000`, lines
122-163): with fewer than 2 path cells it logs `console.error` and returns
with the state untouched; otherwise the start is a random corner-area path
cell (falling back to the first path cell), the end is the first path cell
of maximal Manhattan distance from the start (running maximum starting at
0, initial candidate `pathCells[0]`), and both are marked in the maze. -/
def MazeGenerator.placeStartAndEnd (rng : Nat → Nat) (t : Nat) (st : MGState) : MGState :=
  let pathCells := pathCellsOf st.maze
  if hlen : pathCells.length < 2 then st
  else
    let corners := pathCells.filter
      (fun c => (c.x < 3 ∨ c.x > st.width - 4) ∧ (c.y < 3 ∨ c.y > st.height - 4))
    let startPos :=
      if hc : 0 < corners.length then corners.get ⟨rng t % corners.length, Nat.mod_lt _ hc⟩
      else pathCells.get ⟨0, by omega⟩
    let endPos := (pathCells.foldl
      (fun (acc : Int × Pos) cell =>
        if manhattanDistance cell startPos > acc.1 then (manhattanDistance cell startPos, cell)
        else acc)
      (0, pathCells.get ⟨0, by omega⟩)).2
    { st with
      maze := setCell (setCell st.maze startPos Cell.START) endPos Cell.END
      startPos := some startPos
      endPos := some endPos }

/-- The passability predicate of the BFS solver's enqueue test
(`MazeGenerator.findSolution`): in bounds of the generator's
`width`/`height` and of kind `PATH` or `END`. -/
def PassB (m : Maze) (W H : Int) (p : Pos) : Prop :=
  0 ≤ p.x ∧ p.x < W ∧ 0 ≤ p.y ∧ p.y < H ∧
    (cellAt m p = some Cell.PATH ∨ cellAt m p = some Cell.END)

instance (m : Maze) (W H : Int) (p : Pos) : Decidable (PassB m W H p) := by
  unfold PassB; infer_instance

/-- One move of the graph the BFS solver explores. -/
def StepB (m : Maze) (W H : Int) (a b : Pos) : Prop :=
  Adjacent a b ∧ PassB m W H b

/-- One move of the graph the A* solver explores (its neighbor filter is
`getValidAdjacentCells`, which also passes `START` cells). -/
def StepA (m : Maze) (a b : Pos) : Prop :=
  Adjacent a b ∧ openCell m b

/-- A path as the claims describe one: starts at `s`, ends at `e`, every
consecutive pair Manhattan-adjacent, and every position lands on a cell of
the grid that is not a `Wall`. -/
def NonWallWalk (m : Maze) (s e : Pos) (q : List Pos) : Prop :=
  q.head? = some s ∧ q.getLast? = some e ∧ List.Chain' Adjacent q ∧
    ∀ x ∈ q, ∃ c, cellAt m x = some c ∧ c ≠ Cell.WALL

/-- A walk through the BFS solver's graph: starts at `s`, ends at `e`, and
every move is an enqueueable step (the start cell itself carries no
condition, matching the solver). -/
def BWalk (m : Maze) (W H : Int) (s e : Pos) (q : List Pos) : Prop :=
  q.head? = some s ∧ q.getLast? = some e ∧ List.Chain' (StepB m W H) q

/-- The invariant of the BFS loop state. `queue` entries carry a partial
walk from the start to their key; keys are visited and pairwise distinct;
every visited node either still waits in the queue or has had all its
enqueueable neighbors visited; a visited `e` is still queued (the loop
returns the moment `e` is dequeued); queue path lengths are nondecreasing
and spread over at most two consecutive values (FIFO levels). -/
structure BfsInv (m : Maze) (W H : Int) (s e : Pos)
    (queue : List (Pos × List Pos)) (visited : List Pos) : Prop where
  qpath : ∀ it ∈ queue, it.2.head? = some s ∧ it.2.getLast? = some it.1 ∧
      List.Chain' (StepB m W H) it.2
  qkeys_visited : ∀ it ∈ queue, it.1 ∈ visited
  qkeys_nodup : (queue.map Prod.fst).Nodup
  start_visited : s ∈ visited
  visited_closed : ∀ v ∈ visited, (∃ it ∈ queue, it.1 = v) ∨
      (∀ b, StepB m W H v b → b ∈ visited)
  end_in_queue : e ∈ visited → ∃ it ∈ queue, it.1 = e
  lens_sorted : List.Pairwise
      (fun a b => a.2.length ≤ b.2.length ∧ b.2.length ≤ a.2.length + 1) queue

/-- The in-bounds positions of a `W`-by-`H` grid, as a finite set (used
only to bound the number of loop iterations). -/
def boundsSet (W H : Int) : Finset Pos :=
  (Finset.Ico 0 W ×ˢ Finset.Ico 0 H).image (fun q => ⟨q.1, q.2⟩)

/-- The number of in-bounds `WALL` cells, the decreasing measure of the
`generateMaze` loop (used only to bound the number of iterations). -/
def wallCard (W H : Int) (m : Maze) : Nat :=
  ((boundsSet W H).filter (fun p => cellAt m p = some Cell.WALL)).card

/-- The number of in-bounds unvisited positions, the decreasing measure of
the `recursiveBacktracking` loop (used only to bound iterations). -/
def freeCard (W H : Int) (visited : List Pos) : Nat :=
  ((boundsSet W H).filter (fun p => p ∉ visited)).card

/-- A concrete 1-by-3 grid used to instantiate solver theorems. -/
def demoMaze : Maze := [[Cell.START, Cell.PATH, Cell.END]]

/-- The invariant of the A* loop state between iterations. The open set
holds pairwise-distinct never-closed nodes, each the start or a valid cell,
each carrying a `gScore` and (except the start) a predecessor; the
`cameFrom` edges point from valid cells back to adjacent closed cells and
are acyclic (witnessed by a rank function); the start's `gScore` stays 0
and it never acquires a predecessor; closed nodes are pairwise distinct,
have all valid neighbors closed-or-open, and never include `e` (the loop
returns the moment `e` is selected). -/
structure AInv (m : Maze) (s e : Pos) (st : AState) (closed : List Pos) : Prop where
  open_nodup : st.openSet.Nodup
  open_closed : ∀ p ∈ st.openSet, p ∉ closed
  open_bounds : ∀ p ∈ st.openSet, p = s ∨ openCell m p
  open_origin : ∀ p ∈ st.openSet, p = s ∨ st.cameFrom p ≠ none
  open_g : ∀ p ∈ st.openSet, ∃ v, st.g p = some v ∧ 0 ≤ v
  cf_props : ∀ n q, st.cameFrom n = some q →
      Adjacent q n ∧ openCell m n ∧ (q = s ∨ st.cameFrom q ≠ none) ∧ q ∈ closed
  cf_rank : ∃ rk : Pos → Nat, (∀ p, rk p ≤ closed.length) ∧
      ∀ n q, st.cameFrom n = some q → rk q < rk n
  g_start : st.g s = some 0
  cf_start : st.cameFrom s = none
  start_somewhere : s ∈ closed ∨ s ∈ st.openSet
  closed_nodup : closed.Nodup
  closed_bounds : ∀ p ∈ closed, p = s ∨ openCell m p
  closed_e : e ∉ closed
  closure : ∀ v ∈ closed, ∀ b, StepA m v b → b ∈ closed ∨ b ∈ st.openSet

/-- The invariant maintained across the neighbor loop of one A* iteration
(`cur` is the just-closed current node, `closed` already includes it). -/
structure AMid (m : Maze) (s cur : Pos) (closed : List Pos) (st : AState) : Prop where
  open_nodup : st.openSet.Nodup
  open_closed : ∀ p ∈ st.openSet, p ∉ closed
  open_bounds : ∀ p ∈ st.openSet, p = s ∨ openCell m p
  open_origin : ∀ p ∈ st.openSet, p = s ∨ st.cameFrom p ≠ none
  open_g : ∀ p ∈ st.openSet, ∃ v, st.g p = some v ∧ 0 ≤ v
  cf_props : ∀ n q, st.cameFrom n = some q →
      Adjacent q n ∧ openCell m n ∧ (q = s ∨ st.cameFrom q ≠ none) ∧ q ∈ closed
  cf_rank : ∃ rk : Pos → Nat, (∀ p, rk p ≤ closed.length) ∧
      (∀ p ∈ closed, rk p < closed.length) ∧
      ∀ n q, st.cameFrom n = some q → rk q < rk n
  g_start : st.g s = some 0
  cf_start : st.cameFrom s = none
  start_somewhere : s ∈ closed ∨ s ∈ st.openSet
  g_cur : ∃ v, st.g cur = some v ∧ 0 ≤ v
  cf_cur : cur = s ∨ st.cameFrom cur ≠ none

/-- Strictly inside the border of a `W`-by-`H` grid. -/
def interiorP (W H : Int) (p : Pos) : Prop :=
  0 < p.x ∧ p.x < W - 1 ∧ 0 < p.y ∧ p.y < H - 1

/-- The invariant of both maze-generation loops: the matrix keeps its
`W`-by-`H` shape, holds only `WALL` and `PATH` cells, and every border
cell is `WALL` (generation only ever carves strictly interior cells). -/
def GenInv (W H : Int) (m : Maze) : Prop :=
  MazeWF m W H ∧
  (∀ p c, cellAt m p = some c → c = Cell.WALL ∨ c = Cell.PATH) ∧
  (∀ p c, cellAt m p = some c →
    (p.x = 0 ∨ p.x = W - 1 ∨ p.y = 0 ∨ p.y = H - 1) → c = Cell.WALL)

/-- Odd-by-odd coordinates: the lattice of cells the recursive-backtracking
carvers visit (their moves have stride two from the odd start `(1,1)`). -/
def oddCell (p : Pos) : Prop :=
  p.x % 2 = 1 ∧ p.y % 2 = 1

/-- One stride-two move of the carving loops: the relation between a cell
and the candidate cells its unvisited-neighbor scan considers. -/
def step2 (p q : Pos) : Prop :=
  (q.x = p.x ∧ (q.y = p.y - 2 ∨ q.y = p.y + 2)) ∨
  (q.y = p.y ∧ (q.x = p.x - 2 ∨ q.x = p.x + 2))

/-! ## Helper lemmas and theorems -/

lemma engineStep_foldl (ctx : Context) (rules : List Rule) :
    ∀ acc : List EngineEntry × Bool,
      rules.foldl (engineStep ctx) acc
        = (acc.1 ++ (rules.filter (fun r => r.enabled)).map
            (fun r => ⟨r.name, (r.run ctx).passed, (r.run ctx).message⟩),
           acc.2 && (rules.filter (fun r => r.enabled)).all (fun r => (r.run ctx).passed)) := by
  induction rules with
  | nil => intro acc; simp
  | cons r rs ih =>
    intro acc
    by_cases h : r.enabled
    · have hstep : engineStep ctx acc r
          = (acc.1 ++ [⟨r.name, (r.run ctx).passed, (r.run ctx).message⟩],
             acc.2 && (r.run ctx).passed) := by
        unfold engineStep
        simp only [h]
        cases hp : (r.run ctx).passed <;> simp [hp]
      simp only [List.foldl_cons, hstep, ih, List.filter_cons, h]
      simp [Bool.and_assoc]
    · have hstep : engineStep ctx acc r = acc := by
        unfold engineStep
        simp [h]
      simp only [List.foldl_cons, hstep, ih, List.filter_cons]
      simp [h]

/-- C5: `RulesEngine.validate` evaluates every enabled rule even after an
earlier failure (one `results` entry per enabled rule, in order), its
overall `passed` is the conjunction of all evaluated rules' `passed` flags,
and its `message` is the success message when all pass and otherwise the
first failing rule's message. -/
theorem C5_engine_full_evaluation (rules : List Rule) (ctx : Context) :
    (RulesEngine.validate rules ctx).results
      = (rules.filter (fun r => r.enabled)).map
          (fun r => ⟨r.name, (r.run ctx).passed, (r.run ctx).message⟩) ∧
    (RulesEngine.validate rules ctx).passed
      = (rules.filter (fun r => r.enabled)).all (fun r => (r.run ctx).passed) ∧
    (RulesEngine.validate rules ctx).message
      = (if (rules.filter (fun r => r.enabled)).all (fun r => (r.run ctx).passed)
         then "✅ All rules passed!"
         else "❌ " ++
           (match (rules.filter (fun r => r.enabled)).find?
               (fun r => !(r.run ctx).passed) with
            | some r => (r.run ctx).message
            | none => "undefined")) := by
  unfold RulesEngine.validate
  rw [engineStep_foldl]
  refine ⟨rfl, by simp, ?_⟩
  simp only [Bool.true_and]
  by_cases hall : (rules.filter (fun r => r.enabled)).all (fun r => (r.run ctx).passed)
  · simp [hall]
  · simp only [hall, if_false, Bool.false_eq_true, List.nil_append]
    have hfind :
        ((rules.filter (fun r => r.enabled)).map
            (fun r => (⟨r.name, (r.run ctx).passed, (r.run ctx).message⟩ : EngineEntry))).find?
            (fun e => !e.passed)
          = ((rules.filter (fun r => r.enabled)).find? (fun r => !(r.run ctx).passed)).map
              (fun r => (⟨r.name, (r.run ctx).passed, (r.run ctx).message⟩ : EngineEntry)) := by
      rw [List.find?_map]
      rfl
    rw [hfind]
    cases hf : (rules.filter (fun r => r.enabled)).find? (fun r => !(r.run ctx).passed) with
    | none =>
      exfalso
      apply hall
      rw [List.all_eq_true]
      intro r hr
      have := List.find?_eq_none.mp hf r hr
      simpa using this
    | some r => simp

/-- C7: round trip of `MazePuzzle.serialize`/`deserialize`: deserializing
the serialized record into any puzzle reproduces the original puzzle, in
particular an identical cell matrix, start point and end point (a
`MazePuzzle` carries no required-point field, so the required-point data of
the claim is trivially preserved). -/
theorem C7_serialize_roundtrip (p q : MazePuzzle) :
    q.deserialize p.serialize = p ∧
    (q.deserialize p.serialize).maze = p.maze ∧
    (q.deserialize p.serialize).startPoint = p.startPoint ∧
    (q.deserialize p.serialize).endPoint = p.endPoint := ⟨rfl, rfl, rfl, rfl⟩

lemma hasGap_eq_false_iff (rest : List Pos) : ∀ prev : Pos,
    PathContinuityRule.hasGap prev rest = false ↔
      List.Chain' (fun a b => manhattanDistance a b ≤ 2) (prev :: rest) := by
  induction rest with
  | nil => intro prev; simp [PathContinuityRule.hasGap]
  | cons curr rest ih =>
    intro prev
    unfold PathContinuityRule.hasGap
    by_cases h : 2 < |curr.x - prev.x| + |curr.y - prev.y|
    · simp only [h, if_true]
      constructor
      · intro hfalse; exact absurd hfalse (by simp)
      · intro hchain
        exfalso
        have hle := (List.chain'_cons.mp hchain).1
        unfold manhattanDistance at hle
        rw [abs_sub_comm prev.x curr.x, abs_sub_comm prev.y curr.y] at hle
        exact absurd hle (not_le.mpr h)
    · simp only [h, if_false]
      rw [ih curr, List.chain'_cons]
      have hd : manhattanDistance prev curr ≤ 2 := by
        unfold manhattanDistance
        rw [abs_sub_comm prev.x curr.x, abs_sub_comm prev.y curr.y]
        exact le_of_not_lt h
      tauto

/-- C10: `PathContinuityRule.validate` passes on a null path or one of
fewer than 2 points, and otherwise passes exactly when every consecutive
pair of path points is at Manhattan distance at most 2 (so a two-cell
orthogonal jump is accepted as continuous). -/
theorem C10_path_continuity (ctx : Context) :
    (ctx.path = none → PathContinuityRule.validate ctx = ⟨true, "Path is continuous"⟩) ∧
    (∀ p, ctx.path = some p → p.length < 2 →
      PathContinuityRule.validate ctx = ⟨true, "Path is continuous"⟩) ∧
    (∀ p, ctx.path = some p → 2 ≤ p.length →
      ((PathContinuityRule.validate ctx).passed = true ↔
        List.Chain' (fun a b => manhattanDistance a b ≤ 2) p)) := by
  refine ⟨?_, ?_, ?_⟩
  · intro h
    unfold PathContinuityRule.validate
    rw [h]
  · intro p hp hlen
    unfold PathContinuityRule.validate
    rw [hp]
    simp [hlen]
  · intro p hp hlen
    unfold PathContinuityRule.validate
    rw [hp]
    have hnotlt : ¬ p.length < 2 := by omega
    simp only [hnotlt, if_false]
    match p, hlen with
    | p0 :: rest, _ =>
      by_cases hg : PathContinuityRule.hasGap p0 rest
      · simp only [hg, if_true]
        rw [← hasGap_eq_false_iff]
        simp [hg]
      · simp only [Bool.not_eq_true] at hg
        simp only [hg]
        rw [← hasGap_eq_false_iff rest p0]
        simp [hg]

/-- C10 witness: on the concrete context whose path makes a two-cell
orthogonal jump from (0,0) to (2,0), the continuity rule passes. -/
theorem C10_path_continuity_witness :
    (PathContinuityRule.validate
        ⟨some [⟨0, 0⟩, ⟨2, 0⟩], [[Cell.PATH]], ⟨0, 0⟩, ⟨2, 0⟩, 1, none⟩).passed = true ∧
      manhattanDistance ⟨0, 0⟩ ⟨2, 0⟩ = 2 := by
  constructor
  · exact ((C10_path_continuity
      ⟨some [⟨0, 0⟩, ⟨2, 0⟩], [[Cell.PATH]], ⟨0, 0⟩, ⟨2, 0⟩, 1, none⟩).2.2
      [⟨0, 0⟩, ⟨2, 0⟩] rfl (by decide)).mpr (by rw [List.chain'_pair]; decide)
  · decide

lemma spliceScan_of_not_mem (g : Pos) (pts : List Pos) (hg : g ∉ pts) :
    ∀ i, RequiredPointsRule.spliceScan g i pts = pts := by
  have key : ∀ k i, pts.length - i ≤ k → RequiredPointsRule.spliceScan g i pts = pts := by
    intro k
    induction k with
    | zero =>
      intro i hk
      unfold RequiredPointsRule.spliceScan
      have hni : ¬ i < pts.length := by omega
      simp [hni]
    | succ k ih =>
      intro i hk
      unfold RequiredPointsRule.spliceScan
      by_cases hi : i < pts.length
      · have hne : pts.get ⟨i, hi⟩ ≠ g := fun he => hg (he ▸ List.get_mem pts i hi)
        simp only [hi, dif_pos, hne, if_false]
        exact ih (i + 1) (by omega)
      · simp [hi]
  exact fun i => key pts.length i (by omega)

lemma spliceScan_nodup (g : Pos) (pts : List Pos) (hnd : pts.Nodup) :
    ∀ i, (∀ j (hj : j < pts.length), j < i → pts.get ⟨j, hj⟩ ≠ g) →
      RequiredPointsRule.spliceScan g i pts
        = pts.take i ++ (pts.drop i).filter (fun q => q ≠ g) := by
  have key : ∀ k i, pts.length - i ≤ k →
      (∀ j (hj : j < pts.length), j < i → pts.get ⟨j, hj⟩ ≠ g) →
      RequiredPointsRule.spliceScan g i pts
        = pts.take i ++ (pts.drop i).filter (fun q => q ≠ g) := by
    intro k
    induction k with
    | zero =>
      intro i hk _
      unfold RequiredPointsRule.spliceScan
      have hni : ¬ i < pts.length := by omega
      rw [dif_neg hni, List.take_of_length_le (by omega), List.drop_eq_nil_of_le (by omega)]
      simp
    | succ k ih =>
      intro i hk hpre
      unfold RequiredPointsRule.spliceScan
      by_cases hi : i < pts.length
      · rw [dif_pos hi]
        have hdropi : pts.drop i = pts[i] :: pts.drop (i + 1) :=
          List.drop_eq_getElem_cons hi
        by_cases he : pts.get ⟨i, hi⟩ = g
        · rw [if_pos he]
          have heE : pts[i] = g := he
          have huniq : ∀ j (hj : j < pts.length), j ≠ i → pts[j] ≠ g := by
            intro j hj hji hcon
            have hgets : pts.get ⟨j, hj⟩ = pts.get ⟨i, hi⟩ := by
              show pts[j] = pts[i]
              rw [hcon, heE]
            have hfin := (List.Nodup.get_inj_iff hnd).mp hgets
            exact hji (Fin.mk_eq_mk.mp hfin)
          have herase : pts.eraseIdx i = pts.take i ++ pts.drop (i + 1) :=
            List.eraseIdx_eq_take_drop_succ pts i
          have hnotin : g ∉ pts.eraseIdx i := by
            rw [herase]
            intro hmem
            rcases List.mem_append.mp hmem with hmem | hmem
            · obtain ⟨j, hj, hjget⟩ := List.mem_take_iff_getElem.mp hmem
              exact huniq j (by omega) (by omega) hjget
            · obtain ⟨j, hj, hjget⟩ := List.mem_drop_iff_getElem.mp hmem
              exact huniq (i + 1 + j) (by omega) (by omega) hjget
          rw [spliceScan_of_not_mem g _ hnotin, herase, hdropi]
          have hfd : (pts.drop (i + 1)).filter (fun q => q ≠ g) = pts.drop (i + 1) := by
            apply List.filter_eq_self.mpr
            intro a ha
            obtain ⟨j, hj, hjget⟩ := List.mem_drop_iff_getElem.mp ha
            have hne := huniq (i + 1 + j) (by omega) (by omega)
            rw [← hjget]
            simpa using hne
          rw [List.filter_cons]
          have hpred : (decide (pts[i] ≠ g)) = false := by simp [heE]
          rw [hpred]
          simp only [Bool.false_eq_true, if_false]
          rw [hfd]
        · rw [if_neg he]
          have hrec := ih (i + 1) (by omega) (by
            intro j hj hji
            rcases Nat.lt_succ_iff_lt_or_eq.mp hji with hlt | heq
            · exact hpre j hj hlt
            · subst heq
              exact he)
          rw [hrec]
          have htake : pts.take (i + 1) = pts.take i ++ [pts[i]] := by
            rw [List.take_succ]
            simp [List.getElem?_eq_getElem hi]
          have hpred : (decide (pts[i] ≠ g)) = true := by simpa using he
          rw [htake, hdropi, List.filter_cons, hpred]
          simp only [eq_self_iff_true, if_true, List.append_assoc, List.singleton_append]
      · rw [dif_neg hi, List.take_of_length_le (by omega), List.drop_eq_nil_of_le (by omega)]
        simp
  exact fun i => key pts.length i (by omega)

lemma spliceScan_zero (g : Pos) (pts : List Pos) (hnd : pts.Nodup) :
    RequiredPointsRule.spliceScan g 0 pts = pts.filter (fun q => q ≠ g) := by
  have := spliceScan_nodup g pts hnd 0 (by omega)
  simpa using this

lemma foldl_spliceScan (p : List Pos) : ∀ acc : List Pos, acc.Nodup →
    p.foldl (fun acc pt => RequiredPointsRule.spliceScan pt 0 acc) acc
      = acc.filter (fun q => q ∉ p) := by
  induction p with
  | nil =>
    intro acc _
    simp
  | cons pt p ih =>
    intro acc h
    simp only [List.foldl_cons]
    rw [spliceScan_zero pt acc h, ih _ (h.filter _), List.filter_filter]
    apply List.filter_congr
    intro a _
    by_cases h1 : a = pt <;> by_cases h2 : a ∈ p <;> simp [h1, h2]

/-- C8: at grid resolution 1, `RequiredPointsRule.validate` fails exactly
when some configured required point is missing from the path's positions,
and on failure its message reports the number of points still missing; an
absent or empty required-point set passes. The required points form a set
(no duplicates). -/
theorem C8_required_points (ctx : Context) :
    ((ctx.requiredPoints = none ∨ ctx.requiredPoints = some []) →
      RequiredPointsRule.validate ctx = some ⟨true, "No required points to check"⟩) ∧
    (∀ p rps, ctx.resolution = 1 → ctx.path = some p → ctx.requiredPoints = some rps →
      rps.Nodup →
      ∃ r, RequiredPointsRule.validate ctx = some r ∧
        (r.passed = false ↔ ∃ q ∈ rps, q ∉ p) ∧
        (r.passed = false →
          r.message = "Must pass through " ++
            toString (rps.filter (fun q => q ∉ p)).length ++ " more required point(s)")) := by
  obtain ⟨cpath, cmaze, cs, ce, cres, crp⟩ := ctx
  constructor
  · intro h
    unfold RequiredPointsRule.validate
    dsimp only at h ⊢
    rcases h with h | h <;> simp [h]
  · intro p rps hres hpath hrps hnd
    dsimp only at hres hpath hrps
    subst hres hpath hrps
    unfold RequiredPointsRule.validate
    dsimp only
    by_cases hlen : rps.length = 0
    · rw [if_pos hlen]
      refine ⟨⟨true, "No required points to check"⟩, rfl, ?_, by simp⟩
      have : rps = [] := List.length_eq_zero.mp hlen
      subst this
      simp
    · rw [if_neg hlen]
      have hfun : (fun (acc : List Pos) (pathPoint : Pos) =>
            RequiredPointsRule.spliceScan
              ⟨pathPoint.x.fdiv 1, pathPoint.y.fdiv 1⟩ 0 acc)
          = fun acc pt => RequiredPointsRule.spliceScan pt 0 acc := by
        funext acc pt
        have hpt : (⟨pt.x.fdiv 1, pt.y.fdiv 1⟩ : Pos) = pt := by
          simp [Int.fdiv_one]
        rw [hpt]
      rw [hfun, foldl_spliceScan p rps hnd]
      by_cases hpos : 0 < (rps.filter (fun q => q ∉ p)).length
      · rw [if_pos hpos]
        refine ⟨_, rfl, ?_, fun _ => rfl⟩
        simp only [true_iff, eq_self_iff_true]
        obtain ⟨q, hq⟩ := List.exists_mem_of_length_pos hpos
        have hq' := List.mem_filter.mp hq
        exact ⟨q, hq'.1, by simpa using hq'.2⟩
      · rw [if_neg hpos]
        refine ⟨_, rfl, ?_, by simp⟩
        simp only [Bool.true_eq_false, false_iff]
        rintro ⟨q, hqmem, hqnot⟩
        apply hpos
        apply List.length_pos.mpr
        intro hnil
        have : q ∈ rps.filter (fun q => q ∉ p) :=
          List.mem_filter.mpr ⟨hqmem, by simpa using hqnot⟩
        rw [hnil] at this
        exact absurd this (List.not_mem_nil q)

/-- C8 witness: concrete context at resolution 1 with required point (3,3)
missing from the path (1,1)-(1,2)-(1,3): the rule fails and the message
cites 1 missing required point. -/
theorem C8_required_points_witness :
    ∃ r, RequiredPointsRule.validate
        ⟨some [⟨1, 1⟩, ⟨1, 2⟩, ⟨1, 3⟩], [[Cell.PATH]], ⟨1, 1⟩, ⟨1, 3⟩, 1,
          some [⟨3, 3⟩]⟩ = some r ∧
      r.passed = false ∧ r.message = "Must pass through 1 more required point(s)" := by
  obtain ⟨r, hr, hiff, hmsg⟩ :=
    (C8_required_points
      ⟨some [⟨1, 1⟩, ⟨1, 2⟩, ⟨1, 3⟩], [[Cell.PATH]], ⟨1, 1⟩, ⟨1, 3⟩, 1,
        some [⟨3, 3⟩]⟩).2
      [⟨1, 1⟩, ⟨1, 2⟩, ⟨1, 3⟩] [⟨3, 3⟩] rfl rfl rfl (by decide)
  have hfail : r.passed = false := hiff.mpr ⟨⟨3, 3⟩, by decide, by decide⟩
  refine ⟨r, hr, hfail, ?_⟩
  rw [hmsg hfail]
  decide

lemma foldMaxOpt_spec (d : Pos → Int) (cells : List Pos) : ∀ (b : Int) (o : Option Pos),
    (cells.foldl (fun acc c => if d c > acc.1 then (d c, some c) else acc) (b, o) = (b, o)
      ∧ ∀ c ∈ cells, d c ≤ b)
    ∨ (∃ pre e suf, cells = pre ++ e :: suf
        ∧ cells.foldl (fun acc c => if d c > acc.1 then (d c, some c) else acc) (b, o)
            = (d e, some e)
        ∧ b < d e ∧ (∀ c ∈ pre, d c < d e) ∧ (∀ c ∈ cells, d c ≤ d e)) := by
  induction cells with
  | nil =>
    intro b o
    left
    exact ⟨rfl, by simp⟩
  | cons c cs ih =>
    intro b o
    simp only [List.foldl_cons]
    by_cases hc : d c > b
    · rw [if_pos hc]
      rcases ih (d c) (some c) with ⟨heq, hle⟩ | ⟨pre, e, suf, hsplit, heq, hlt, hpre, hall⟩
      · right
        refine ⟨[], c, cs, by simp, heq, hc, by simp, ?_⟩
        intro x hx
        rcases List.mem_cons.mp hx with h | h
        · exact h ▸ le_refl _
        · exact hle x h
      · right
        refine ⟨c :: pre, e, suf, by rw [hsplit, List.cons_append], heq, lt_trans hc hlt, ?_, ?_⟩
        · intro x hx
          rcases List.mem_cons.mp hx with h | h
          · exact h ▸ hlt
          · exact hpre x h
        · intro x hx
          rcases List.mem_cons.mp hx with h | h
          · exact h ▸ le_of_lt hlt
          · exact hall x h
    · rw [if_neg hc]
      rcases ih b o with ⟨heq, hle⟩ | ⟨pre, e, suf, hsplit, heq, hlt, hpre, hall⟩
      · left
        refine ⟨heq, ?_⟩
        intro x hx
        rcases List.mem_cons.mp hx with h | h
        · exact h ▸ le_of_not_lt hc
        · exact hle x h
      · right
        refine ⟨c :: pre, e, suf, by rw [hsplit, List.cons_append], heq, hlt, ?_, ?_⟩
        · intro x hx
          rcases List.mem_cons.mp hx with h | h
          · exact h ▸ lt_of_le_of_lt (le_of_not_lt hc) hlt
          · exact hpre x h
        · intro x hx
          rcases List.mem_cons.mp hx with h | h
          · exact h ▸ le_of_lt (lt_of_le_of_lt (le_of_not_lt hc) hlt)
          · exact hall x h

lemma foldMaxPos_spec (d : Pos → Int) (cells : List Pos) : ∀ (b : Int) (e0 : Pos),
    (cells.foldl (fun acc c => if d c > acc.1 then (d c, c) else acc) (b, e0) = (b, e0)
      ∧ ∀ c ∈ cells, d c ≤ b)
    ∨ (∃ pre e suf, cells = pre ++ e :: suf
        ∧ cells.foldl (fun acc c => if d c > acc.1 then (d c, c) else acc) (b, e0)
            = (d e, e)
        ∧ b < d e ∧ (∀ c ∈ pre, d c < d e) ∧ (∀ c ∈ cells, d c ≤ d e)) := by
  induction cells with
  | nil =>
    intro b e0
    left
    exact ⟨rfl, by simp⟩
  | cons c cs ih =>
    intro b e0
    simp only [List.foldl_cons]
    by_cases hc : d c > b
    · rw [if_pos hc]
      rcases ih (d c) c with ⟨heq, hle⟩ | ⟨pre, e, suf, hsplit, heq, hlt, hpre, hall⟩
      · right
        refine ⟨[], c, cs, by simp, heq, hc, by simp, ?_⟩
        intro x hx
        rcases List.mem_cons.mp hx with h | h
        · exact h ▸ le_refl _
        · exact hle x h
      · right
        refine ⟨c :: pre, e, suf, by rw [hsplit, List.cons_append], heq, lt_trans hc hlt, ?_, ?_⟩
        · intro x hx
          rcases List.mem_cons.mp hx with h | h
          · exact h ▸ hlt
          · exact hpre x h
        · intro x hx
          rcases List.mem_cons.mp hx with h | h
          · exact h ▸ le_of_lt hlt
          · exact hall x h
    · rw [if_neg hc]
      rcases ih b e0 with ⟨heq, hle⟩ | ⟨pre, e, suf, hsplit, heq, hlt, hpre, hall⟩
      · left
        refine ⟨heq, ?_⟩
        intro x hx
        rcases List.mem_cons.mp hx with h | h
        · exact h ▸ le_of_not_lt hc
        · exact hle x h
      · right
        refine ⟨c :: pre, e, suf, by rw [hsplit, List.cons_append], heq, hlt, ?_, ?_⟩
        · intro x hx
          rcases List.mem_cons.mp hx with h | h
          · exact h ▸ lt_of_le_of_lt (le_of_not_lt hc) hlt
          · exact hpre x h
        · intro x hx
          rcases List.mem_cons.mp hx with h | h
          · exact h ▸ le_of_lt (lt_of_le_of_lt (le_of_not_lt hc) hlt)
          · exact hall x h

/-- Manhattan distance is nonnegative. -/
lemma manhattanDistance_nonneg (a b : Pos) : 0 ≤ manhattanDistance a b := by
  unfold manhattanDistance
  positivity

lemma eq_get_zero_cons_tail {α : Type} (l : List α) (h : 0 < l.length) :
    l = l.get ⟨0, h⟩ :: l.tail := by
  cases l with
  | nil => simp at h
  | cons a l => rfl

/-- What `MazeGenerator.placeStartAndEnd` does when at least 2 path cells
exist: it marks a start drawn from the path cells and the first path cell
of maximal Manhattan distance from it. -/
lemma mgPlace_spec (rng : Nat → Nat) (t : Nat) (st : MGState)
    (hlen : ¬ (pathCellsOf st.maze).length < 2) :
    ∃ s e, MazeGenerator.placeStartAndEnd rng t st
        = { st with
            maze := setCell (setCell st.maze s Cell.START) e Cell.END
            startPos := some s
            endPos := some e }
      ∧ s ∈ pathCellsOf st.maze ∧ e ∈ pathCellsOf st.maze
      ∧ ∃ pre suf, pathCellsOf st.maze = pre ++ e :: suf
          ∧ (∀ c ∈ pre, manhattanDistance c s < manhattanDistance e s)
          ∧ (∀ c ∈ pathCellsOf st.maze, manhattanDistance c s ≤ manhattanDistance e s) := by
  have h0 : 0 < (pathCellsOf st.maze).length := by omega
  unfold MazeGenerator.placeStartAndEnd
  rw [dif_neg hlen]
  refine ⟨_, _, rfl, ?_, ?_, ?_⟩
  · by_cases hc : 0 < ((pathCellsOf st.maze).filter
        (fun c => (c.x < 3 ∨ c.x > st.width - 4) ∧ (c.y < 3 ∨ c.y > st.height - 4))).length
    · rw [dif_pos hc]
      exact List.mem_of_mem_filter (List.get_mem _ _ _)
    · rw [dif_neg hc]
      exact List.get_mem _ _ _
  · rcases foldMaxPos_spec
        (fun c => manhattanDistance c
          (if hc : 0 < ((pathCellsOf st.maze).filter (fun c =>
              (c.x < 3 ∨ c.x > st.width - 4) ∧ (c.y < 3 ∨ c.y > st.height - 4))).length
           then ((pathCellsOf st.maze).filter (fun c =>
              (c.x < 3 ∨ c.x > st.width - 4) ∧ (c.y < 3 ∨ c.y > st.height - 4))).get
             ⟨rng t % _, Nat.mod_lt _ hc⟩
           else (pathCellsOf st.maze).get ⟨0, by omega⟩))
        (pathCellsOf st.maze) 0 ((pathCellsOf st.maze).get ⟨0, by omega⟩)
      with ⟨heq, hle⟩ | ⟨pre, e', suf, hsplit, heq, _, hpre, hall⟩
    · rw [heq]
      exact List.get_mem _ _ _
    · rw [heq]
      have hmem : e' ∈ pre ++ e' :: suf := List.mem_append.mpr (Or.inr (List.mem_cons_self _ _))
      rw [← hsplit] at hmem
      exact hmem
  · rcases foldMaxPos_spec
        (fun c => manhattanDistance c
          (if hc : 0 < ((pathCellsOf st.maze).filter (fun c =>
              (c.x < 3 ∨ c.x > st.width - 4) ∧ (c.y < 3 ∨ c.y > st.height - 4))).length
           then ((pathCellsOf st.maze).filter (fun c =>
              (c.x < 3 ∨ c.x > st.width - 4) ∧ (c.y < 3 ∨ c.y > st.height - 4))).get
             ⟨rng t % _, Nat.mod_lt _ hc⟩
           else (pathCellsOf st.maze).get ⟨0, by omega⟩))
        (pathCellsOf st.maze) 0 ((pathCellsOf st.maze).get ⟨0, by omega⟩)
      with ⟨heq, hle⟩ | ⟨pre, e', suf, hsplit, heq, _, hpre, hall⟩
    · rw [heq]
      refine ⟨[], (pathCellsOf st.maze).tail,
        eq_get_zero_cons_tail (pathCellsOf st.maze) h0, by simp, ?_⟩
      intro c hmem
      exact le_trans (hle c hmem) (manhattanDistance_nonneg _ _)
    · rw [heq]
      exact ⟨pre, suf, hsplit, hpre, hall⟩

/-- What `placeStartAndEnd` of `utils.js` does when some path cell lies at
positive distance from the chosen start: it succeeds, marking the chosen
start and the first path cell of maximal (squared) Euclidean distance. -/
lemma place_spec (rng : Nat → Nat) (t : Nat) (m : Maze) (s : Pos)
    (hne : 0 < (pathCellsOf m).length)
    (hs : s = (pathCellsOf m).get ⟨rng t % (pathCellsOf m).length, Nat.mod_lt _ hne⟩)
    (hex : ∃ c ∈ pathCellsOf m, 0 < getDistanceSq s c) :
    ∃ e, placeStartAndEnd rng t m = some (s, e, setCell (setCell m s Cell.START) e Cell.END)
      ∧ e ∈ pathCellsOf m ∧ 0 < getDistanceSq s e
      ∧ ∃ pre suf, pathCellsOf m = pre ++ e :: suf
          ∧ (∀ c ∈ pre, getDistanceSq s c < getDistanceSq s e)
          ∧ (∀ c ∈ pathCellsOf m, getDistanceSq s c ≤ getDistanceSq s e) := by
  subst hs
  unfold placeStartAndEnd
  rw [dif_pos hne]
  dsimp only
  rcases foldMaxOpt_spec
      (getDistanceSq ((pathCellsOf m).get ⟨rng t % (pathCellsOf m).length, Nat.mod_lt _ hne⟩))
      (pathCellsOf m) 0 none
    with ⟨heq, hle⟩ | ⟨pre, e', suf, hsplit, heq, hpos, hpre, hall⟩
  · exfalso
    obtain ⟨c, hc, hdc⟩ := hex
    exact absurd (hle c hc) (not_le.mpr hdc)
  · rw [heq]
    refine ⟨e', rfl, ?_, hpos, pre, suf, hsplit, hpre, hall⟩
    have hmem : e' ∈ pre ++ e' :: suf := List.mem_append.mpr (Or.inr (List.mem_cons_self _ _))
    rw [← hsplit] at hmem
    exact hmem

/-- Whenever `placeStartAndEnd` succeeds it returns the randomly chosen
start (a path cell) and, as end, the first path cell in row-major scan
order attaining the maximal (squared) Euclidean distance from the start
(running maximum under a strict comparison). -/
lemma place_some_spec (rng : Nat → Nat) (t : Nat) (m : Maze) (s e : Pos) (m2 : Maze)
    (h : placeStartAndEnd rng t m = some (s, e, m2)) :
    s ∈ pathCellsOf m ∧
    ∃ pre suf, pathCellsOf m = pre ++ e :: suf
      ∧ (∀ c ∈ pre, getDistanceSq s c < getDistanceSq s e)
      ∧ (∀ c ∈ pathCellsOf m, getDistanceSq s c ≤ getDistanceSq s e) := by
  unfold placeStartAndEnd at h
  by_cases hne : 0 < (pathCellsOf m).length
  · rw [dif_pos hne] at h
    dsimp only at h
    rcases foldMaxOpt_spec
        (getDistanceSq ((pathCellsOf m).get ⟨rng t % (pathCellsOf m).length,
          Nat.mod_lt _ hne⟩))
        (pathCellsOf m) 0 none with ⟨heq, _⟩ | ⟨pre, e2, suf, hsplit, heq, _, hpre, hall⟩
    · rw [heq] at h
      simp at h
    · rw [heq] at h
      simp only [Option.some.injEq, Prod.mk.injEq] at h
      obtain ⟨hsx, hex, _⟩ := h
      subst hsx
      subst hex
      exact ⟨List.get_mem _ _ _, pre, suf, hsplit, hpre, hall⟩
  · rw [dif_neg hne] at h
    exact absurd h (by simp)

/-- C9 counterexample: on a degenerate maze with no path cells,
`MazeGenerator.placeStartAndEnd` returns with the generator state exactly
as it was (no start, no end, no failure indication of any kind in the
result) — the error is only logged to the console, not signalled to the
caller as a result value. -/
theorem C9_counterexample :
    MazeGenerator.placeStartAndEnd (fun _ => 0) 0 ⟨[[Cell.WALL]], 1, 1, none, none⟩
        = ⟨[[Cell.WALL]], 1, 1, none, none⟩ ∧
    (MazeGenerator.placeStartAndEnd (fun _ => 0) 0
        ⟨[[Cell.WALL]], 1, 1, none, none⟩).startPos = none := by
  constructor <;> decide

/-- C9 amended: when fewer than 2 path cells exist,
`MazeGenerator.placeStartAndEnd` logs to the console and returns leaving
the generator state unchanged — `startPos`/`endPos` keep their previous
(null) values and no explicit error value reaches the caller. -/
theorem C9_amended (rng : Nat → Nat) (t : Nat) (st : MGState)
    (h : (pathCellsOf st.maze).length < 2) :
    MazeGenerator.placeStartAndEnd rng t st = st := by
  unfold MazeGenerator.placeStartAndEnd
  rw [dif_pos h]

/-- C9 amended witness: the degenerate all-wall maze satisfies the
hypothesis and the placement leaves its state untouched. -/
theorem C9_amended_witness :
    MazeGenerator.placeStartAndEnd (fun _ => 0) 0 ⟨[[Cell.WALL]], 1, 1, none, none⟩
      = ⟨[[Cell.WALL]], 1, 1, none, none⟩ :=
  C9_amended (fun _ => 0) 0 ⟨[[Cell.WALL]], 1, 1, none, none⟩ (by decide)

lemma mem_getAdjacent4_iff (a b : Pos) : b ∈ getAdjacent4 a.x a.y ↔ Adjacent a b := by
  obtain ⟨ax, ay⟩ := a
  obtain ⟨bx, byy⟩ := b
  unfold getAdjacent4 Adjacent manhattanDistance
  simp only [List.mem_cons, Pos.mk.injEq, List.not_mem_nil, or_false]
  rw [Int.abs_eq_natAbs, Int.abs_eq_natAbs]
  omega

lemma mem_condAppend {c : Prop} [Decidable c] (acc : List Pos) (n x : Pos) :
    (x ∈ if c then acc ++ [n] else acc) ↔ x ∈ acc ∨ (c ∧ x = n) := by
  by_cases h : c <;> simp [h]

lemma mem_getValidAdjacentCells_iff (x y : Int) (m : Maze) (b : Pos) :
    b ∈ getValidAdjacentCells x y m ↔ StepA m ⟨x, y⟩ b := by
  unfold getValidAdjacentCells
  simp only [List.foldl_cons, List.foldl_nil]
  rw [mem_condAppend, mem_condAppend, mem_condAppend, mem_condAppend]
  simp only [List.not_mem_nil, false_or]
  unfold StepA
  constructor
  · rintro (((⟨hc, hb⟩ | ⟨hc, hb⟩) | ⟨hc, hb⟩) | ⟨hc, hb⟩) <;> subst hb <;>
      refine ⟨?_, hc⟩ <;>
      (unfold Adjacent manhattanDistance
       simp only
       rw [Int.abs_eq_natAbs, Int.abs_eq_natAbs]
       omega)
  · rintro ⟨hadj, hcell⟩
    have hb : b ∈ getAdjacent4 x y := (mem_getAdjacent4_iff ⟨x, y⟩ b).mpr hadj
    unfold getAdjacent4 at hb
    simp only [List.mem_cons, List.not_mem_nil, or_false] at hb
    rcases hb with hb | hb | hb | hb <;> subst hb
    · refine Or.inl (Or.inl (Or.inl ⟨?_, ?_⟩)) <;> simp_all [sub_eq_add_neg]
    · refine Or.inl (Or.inl (Or.inr ⟨?_, ?_⟩)) <;> simp_all [sub_eq_add_neg]
    · refine Or.inl (Or.inr ⟨?_, ?_⟩) <;> simp_all [sub_eq_add_neg]
    · refine Or.inr ⟨?_, ?_⟩ <;> simp_all [sub_eq_add_neg]

lemma chain'_head_cases {R : Pos → Pos → Prop} :
    ∀ (l : List Pos) (h x : Pos), List.Chain' R l → l.head? = some h → x ∈ l →
      x = h ∨ ∃ a, R a x := by
  intro l
  induction l with
  | nil => intro h x _ _ hx; exact absurd hx (List.not_mem_nil x)
  | cons a l ih =>
    intro h x hchain hhead hx
    have ha : a = h := by simpa using hhead
    subst ha
    rcases List.mem_cons.mp hx with hx | hx
    · exact Or.inl hx
    · cases l with
      | nil => exact absurd hx (List.not_mem_nil x)
      | cons b l' =>
        have hchain' := List.chain'_cons.mp hchain
        rcases ih b x hchain'.2 rfl hx with hx' | hx'
        · exact Or.inr ⟨a, hx' ▸ hchain'.1⟩
        · exact Or.inr hx'

lemma walk_to_reach {R : Pos → Pos → Prop} :
    ∀ (l : List Pos) (s e : Pos), l.head? = some s → l.getLast? = some e →
      List.Chain' R l → Relation.ReflTransGen R s e := by
  intro l
  induction l with
  | nil => intro s e hs _ _; simp at hs
  | cons a l ih =>
    intro s e hs he hchain
    have ha : a = s := by simpa using hs
    subst ha
    cases l with
    | nil =>
      have : a = e := by simpa using he
      subst this
      exact Relation.ReflTransGen.refl
    | cons b l' =>
      have hchain' := List.chain'_cons.mp hchain
      have hlast : (b :: l').getLast? = some e := by
        rw [List.getLast?_cons_cons] at he
        exact he
      exact Relation.ReflTransGen.head hchain'.1 (ih b e rfl hlast hchain'.2)

lemma reach_to_walk {R : Pos → Pos → Prop} (s e : Pos)
    (h : Relation.ReflTransGen R s e) :
    ∃ l : List Pos, l.head? = some s ∧ l.getLast? = some e ∧ List.Chain' R l := by
  induction h with
  | refl => exact ⟨[s], rfl, rfl, List.chain'_singleton s⟩
  | tail _ hstep ih =>
    obtain ⟨l, hh, hl, hc⟩ := ih
    rename_i b c _
    refine ⟨l ++ [c], ?_, ?_, ?_⟩
    · cases l with
      | nil => simp at hh
      | cons a l' => simpa using hh
    · simp
    · rw [List.chain'_append]
      refine ⟨hc, List.chain'_singleton c, ?_⟩
      intro p hp q hq
      have hq' : c = q := by simpa using hq
      have hp' : b = p := by
        rw [hl] at hp
        simpa using hp
      subst hq'
      subst hp'
      exact hstep

lemma bfsEnqueue_spec (m : Maze) (W H : Int) (path : List Pos) :
    ∀ (ns : List Pos) (q0 : List (Pos × List Pos)) (v0 : List Pos),
      ∃ new : List Pos,
        (ns.foldl (bfsEnqueue m W H path) (q0, v0)).1
            = q0 ++ new.map (fun n => (n, path ++ [n])) ∧
        (ns.foldl (bfsEnqueue m W H path) (q0, v0)).2 = new.reverse ++ v0 ∧
        (∀ n ∈ new, n ∈ ns ∧ PassB m W H n ∧ n ∉ v0) ∧
        new.Nodup ∧
        (∀ n ∈ ns, PassB m W H n → (n ∈ new ∨ n ∈ v0)) := by
  intro ns
  induction ns with
  | nil =>
    intro q0 v0
    exact ⟨[], by simp, by simp, by simp, by simp, by simp⟩
  | cons n ns ih =>
    intro q0 v0
    simp only [List.foldl_cons]
    by_cases hcond : PassB m W H n ∧ n ∉ v0
    · have hstep : bfsEnqueue m W H path (q0, v0) n
          = (q0 ++ [(n, path ++ [n])], n :: v0) := by
        unfold bfsEnqueue
        dsimp only
        rw [if_pos ⟨hcond.1.1, hcond.1.2.1, hcond.1.2.2.1, hcond.1.2.2.2.1,
          hcond.1.2.2.2.2, hcond.2⟩]
      rw [hstep]
      obtain ⟨new, h1, h2, h3, h4, h5⟩ := ih (q0 ++ [(n, path ++ [n])]) (n :: v0)
      refine ⟨n :: new, ?_, ?_, ?_, ?_, ?_⟩
      · rw [h1]
        simp
      · rw [h2]
        simp
      · intro x hx
        rcases List.mem_cons.mp hx with hx | hx
        · subst hx
          exact ⟨List.mem_cons_self _ _, hcond.1, hcond.2⟩
        · obtain ⟨hmem, hpass, hnv⟩ := h3 x hx
          exact ⟨List.mem_cons_of_mem _ hmem, hpass,
            fun hc => hnv (List.mem_cons_of_mem _ hc)⟩
      · refine List.nodup_cons.mpr ⟨?_, h4⟩
        intro hc
        exact (h3 n hc).2.2 (List.mem_cons_self _ _)
      · intro x hx hpass
        rcases List.mem_cons.mp hx with hx | hx
        · subst hx
          exact Or.inl (List.mem_cons_self _ _)
        · rcases h5 x hx hpass with h | h
          · exact Or.inl (List.mem_cons_of_mem _ h)
          · rcases List.mem_cons.mp h with h | h
            · exact Or.inl (h ▸ List.mem_cons_self _ _)
            · exact Or.inr h
    · have hstep : bfsEnqueue m W H path (q0, v0) n = (q0, v0) := by
        unfold bfsEnqueue
        dsimp only
        rw [if_neg]
        intro hfull
        exact hcond ⟨⟨hfull.1, hfull.2.1, hfull.2.2.1, hfull.2.2.2.1,
          hfull.2.2.2.2.1⟩, hfull.2.2.2.2.2⟩
      rw [hstep]
      obtain ⟨new, h1, h2, h3, h4, h5⟩ := ih q0 v0
      refine ⟨new, h1, h2, ?_, h4, ?_⟩
      · intro x hx
        obtain ⟨hmem, hpass, hnv⟩ := h3 x hx
        exact ⟨List.mem_cons_of_mem _ hmem, hpass, hnv⟩
      intro x hx hpass
      rcases List.mem_cons.mp hx with hx | hx
      · subst hx
        rcases Classical.em (x ∈ v0) with h | h
        · exact Or.inr h
        · exact absurd ⟨hpass, h⟩ hcond
      · exact h5 x hx hpass

lemma head?_append_left {l : List Pos} {s : Pos} (h : l.head? = some s) (l' : List Pos) :
    (l ++ l').head? = some s := by
  cases l with
  | nil => simp at h
  | cons a t => simpa using h

lemma map_fst_pair {α β : Type} (l : List α) (g : α → β) :
    (l.map (fun n => (n, g n))).map Prod.fst = l := by
  induction l with
  | nil => rfl
  | cons a t ih => simp only [List.map_cons, ih]

lemma bfs_step_inv {m : Maze} {W H : Int} {s e pos : Pos} {path : List Pos}
    {rest : List (Pos × List Pos)} {visited : List Pos}
    (hinv : BfsInv m W H s e ((pos, path) :: rest) visited) (hne : pos ≠ e) :
    BfsInv m W H s e
      ((getAdjacent4 pos.x pos.y).foldl (bfsEnqueue m W H path) (rest, visited)).1
      ((getAdjacent4 pos.x pos.y).foldl (bfsEnqueue m W H path) (rest, visited)).2
    ∧ (∀ it ∈ ((getAdjacent4 pos.x pos.y).foldl (bfsEnqueue m W H path) (rest, visited)).1,
        it.2.length ≤ path.length + 1)
    ∧ (∀ n, StepB m W H pos n →
        n ∈ ((getAdjacent4 pos.x pos.y).foldl (bfsEnqueue m W H path) (rest, visited)).2)
    ∧ (∀ v ∈ visited,
        v ∈ ((getAdjacent4 pos.x pos.y).foldl (bfsEnqueue m W H path) (rest, visited)).2)
    ∧ (∀ it ∈ rest,
        it ∈ ((getAdjacent4 pos.x pos.y).foldl (bfsEnqueue m W H path) (rest, visited)).1) := by
  obtain ⟨new, h1, h2, h3, h4, h5⟩ :=
    bfsEnqueue_spec m W H path (getAdjacent4 pos.x pos.y) rest visited
  obtain ⟨hph, hpl, hpc⟩ := hinv.qpath (pos, path) (List.mem_cons_self _ _)
  have hpathne : path ≠ [] := by
    intro hnil
    rw [hnil] at hph
    simp at hph
  have hnew_step : ∀ n ∈ new, StepB m W H pos n := by
    intro n hn
    exact ⟨(mem_getAdjacent4_iff pos n).mp (h3 n hn).1, (h3 n hn).2.1⟩
  have hvsub : ∀ v ∈ visited,
      v ∈ ((getAdjacent4 pos.x pos.y).foldl (bfsEnqueue m W H path) (rest, visited)).2 := by
    intro v hv
    rw [h2]
    exact List.mem_append.mpr (Or.inr hv)
  have hnewv : ∀ n ∈ new,
      n ∈ ((getAdjacent4 pos.x pos.y).foldl (bfsEnqueue m W H path) (rest, visited)).2 := by
    intro n hn
    rw [h2]
    exact List.mem_append.mpr (Or.inl (List.mem_reverse.mpr hn))
  have hstepv : ∀ n, StepB m W H pos n →
      n ∈ ((getAdjacent4 pos.x pos.y).foldl (bfsEnqueue m W H path) (rest, visited)).2 := by
    intro n hstep
    rcases h5 n ((mem_getAdjacent4_iff pos n).mpr hstep.1) hstep.2 with h | h
    · exact hnewv n h
    · exact hvsub n h
  have hrest_pair : ∀ it ∈ rest,
      path.length ≤ it.2.length ∧ it.2.length ≤ path.length + 1 :=
    (List.pairwise_cons.mp hinv.lens_sorted).1
  have hrest_sorted := (List.pairwise_cons.mp hinv.lens_sorted).2
  have hrestkeys : (((pos, path) :: rest).map Prod.fst).Nodup := hinv.qkeys_nodup
  have hrestkeys' : (rest.map Prod.fst).Nodup := (List.nodup_cons.mp hrestkeys).2
  have hlenbound : ∀ it ∈ ((getAdjacent4 pos.x pos.y).foldl
      (bfsEnqueue m W H path) (rest, visited)).1, it.2.length ≤ path.length + 1 := by
    intro it hit
    rw [h1] at hit
    rcases List.mem_append.mp hit with hit | hit
    · exact (hrest_pair it hit).2
    · obtain ⟨n, _, hn⟩ := List.mem_map.mp hit
      rw [← hn]
      simp
  have hrestsub : ∀ it ∈ rest,
      it ∈ ((getAdjacent4 pos.x pos.y).foldl (bfsEnqueue m W H path) (rest, visited)).1 := by
    intro it hit
    rw [h1]
    exact List.mem_append.mpr (Or.inl hit)
  refine ⟨?_, hlenbound, hstepv, hvsub, hrestsub⟩
  constructor
  · -- qpath
    intro it hit
    rw [h1] at hit
    rcases List.mem_append.mp hit with hit | hit
    · exact hinv.qpath it (List.mem_cons_of_mem _ hit)
    · obtain ⟨n, hn, hfn⟩ := List.mem_map.mp hit
      rw [← hfn]
      refine ⟨head?_append_left hph [n], List.getLast?_concat _, ?_⟩
      rw [List.chain'_append]
      refine ⟨hpc, List.chain'_singleton n, ?_⟩
      intro p hp q hq
      have hp' : pos = p := by
        rw [hpl] at hp
        simpa using hp
      have hq' : n = q := by simpa using hq
      subst hp'
      subst hq'
      exact hnew_step n hn
  · -- qkeys_visited
    intro it hit
    rw [h1] at hit
    rcases List.mem_append.mp hit with hit | hit
    · exact hvsub it.1 (hinv.qkeys_visited it (List.mem_cons_of_mem _ hit))
    · obtain ⟨n, hn, hfn⟩ := List.mem_map.mp hit
      rw [← hfn]
      exact hnewv n hn
  · -- qkeys_nodup
    rw [h1, List.map_append]
    have hmapnew : (new.map (fun n => (n, path ++ [n]))).map Prod.fst = new :=
      map_fst_pair new (fun n => path ++ [n])
    rw [hmapnew]
    refine List.Nodup.append hrestkeys' h4 ?_
    intro a ha hanew
    have havis : a ∈ visited := by
      obtain ⟨it, hit, hkey⟩ := List.mem_map.mp ha
      rw [← hkey]
      exact hinv.qkeys_visited it (List.mem_cons_of_mem _ hit)
    exact (h3 a hanew).2.2 havis
  · -- start_visited
    exact hvsub s hinv.start_visited
  · -- visited_closed
    intro v hv
    rw [h2] at hv
    rcases List.mem_append.mp hv with hv | hv
    · rw [List.mem_reverse] at hv
      refine Or.inl ⟨(v, path ++ [v]), ?_, rfl⟩
      rw [h1]
      exact List.mem_append.mpr (Or.inr (List.mem_map.mpr ⟨v, hv, rfl⟩))
    · rcases hinv.visited_closed v hv with ⟨it, hit, hkey⟩ | hclosed
      · rcases List.mem_cons.mp hit with hit | hit
        · subst hit
          simp only at hkey
          subst hkey
          exact Or.inr hstepv
        · refine Or.inl ⟨it, ?_, hkey⟩
          rw [h1]
          exact List.mem_append.mpr (Or.inl hit)
      · exact Or.inr fun b hb => hvsub b (hclosed b hb)
  · -- end_in_queue
    intro hev
    rw [h2] at hev
    rcases List.mem_append.mp hev with hev | hev
    · rw [List.mem_reverse] at hev
      refine ⟨(e, path ++ [e]), ?_, rfl⟩
      rw [h1]
      exact List.mem_append.mpr (Or.inr (List.mem_map.mpr ⟨e, hev, rfl⟩))
    · obtain ⟨it, hit, hkey⟩ := hinv.end_in_queue hev
      rcases List.mem_cons.mp hit with hit | hit
      · subst hit
        simp only at hkey
        exact absurd hkey hne
      · refine ⟨it, ?_, hkey⟩
        rw [h1]
        exact List.mem_append.mpr (Or.inl hit)
  · -- lens_sorted
    rw [h1, List.pairwise_append]
    refine ⟨hrest_sorted, ?_, ?_⟩
    · apply List.pairwise_of_forall_mem_list
      intro a ha b hb
      obtain ⟨n1, _, hn1⟩ := List.mem_map.mp ha
      obtain ⟨n2, _, hn2⟩ := List.mem_map.mp hb
      rw [← hn1, ← hn2]
      simp
    · intro a ha b hb
      obtain ⟨n, _, hn⟩ := List.mem_map.mp hb
      rw [← hn]
      have := hrest_pair a ha
      simp only [List.length_append, List.length_singleton]
      omega

lemma findSolutionAux_some_props {m : Maze} {W H : Int} {s e : Pos} :
    ∀ (fuel : Nat) (queue : List (Pos × List Pos)) (visited : List Pos) (p : List Pos),
      BfsInv m W H s e queue visited →
      findSolutionAux m W H e fuel queue visited = some (some p) →
      p.head? = some s ∧ p.getLast? = some e ∧ List.Chain' (StepB m W H) p := by
  intro fuel
  induction fuel with
  | zero =>
    intro q v p _ h
    exact absurd h (by simp [findSolutionAux])
  | succ fuel ih =>
    intro q v p hinv h
    rcases q with _ | ⟨⟨pos, path⟩, rest⟩
    · rw [findSolutionAux] at h
      simp at h
    · rw [findSolutionAux] at h
      by_cases hpe : pos = e
      · rw [if_pos hpe] at h
        have hp : path = p := by simpa using h
        subst hp
        obtain ⟨h1, h2, h3⟩ := hinv.qpath (pos, path) (List.mem_cons_self _ _)
        exact ⟨h1, hpe ▸ h2, h3⟩
      · rw [if_neg hpe] at h
        exact ih _ _ p (bfs_step_inv hinv hpe).1 h

lemma findSolutionAux_none_unreach {m : Maze} {W H : Int} {s e : Pos} :
    ∀ (fuel : Nat) (queue : List (Pos × List Pos)) (visited : List Pos),
      BfsInv m W H s e queue visited →
      findSolutionAux m W H e fuel queue visited = some none →
      ¬ Relation.ReflTransGen (StepB m W H) s e := by
  intro fuel
  induction fuel with
  | zero =>
    intro q v _ h
    exact absurd h (by simp [findSolutionAux])
  | succ fuel ih =>
    intro q v hinv h
    rcases q with _ | ⟨⟨pos, path⟩, rest⟩
    · intro hreach
      have hsub : ∀ u, Relation.ReflTransGen (StepB m W H) s u → u ∈ v := by
        intro u hu
        induction hu with
        | refl => exact hinv.start_visited
        | tail _ hstep ihu =>
          rcases hinv.visited_closed _ ihu with ⟨it, hit, _⟩ | hcl
          · exact absurd hit (List.not_mem_nil it)
          · exact hcl _ hstep
      obtain ⟨it, hit, _⟩ := hinv.end_in_queue (hsub e hreach)
      exact absurd hit (List.not_mem_nil it)
    · rw [findSolutionAux] at h
      by_cases hpe : pos = e
      · rw [if_pos hpe] at h
        simp at h
      · rw [if_neg hpe] at h
        exact ih _ _ (bfs_step_inv hinv hpe).1 h

lemma findSolutionAux_min {m : Maze} {W H : Int} {s e : Pos} (w : List Pos)
    (hwl : w.getLast? = some e)
    (hwc : List.Chain' (StepB m W H) w) :
    ∀ (fuel : Nat) (queue : List (Pos × List Pos)) (visited : List Pos) (p : List Pos),
      BfsInv m W H s e queue visited →
      (∃ i, ∃ hi : i < w.length, ∃ it ∈ queue, it.1 = w.get ⟨i, hi⟩ ∧ it.2.length ≤ i + 1) →
      findSolutionAux m W H e fuel queue visited = some (some p) →
      p.length ≤ w.length := by
  have hwlast : ∀ j (hj : j < w.length), w.get ⟨j, hj⟩ ≠ e → j + 1 < w.length := by
    intro j hj hje
    rcases Nat.lt_or_ge (j + 1) w.length with h | h
    · exact h
    · exfalso
      apply hje
      have hjeq : j = w.length - 1 := by omega
      have : w.getLast? = some (w.get ⟨j, hj⟩) := by
        rw [List.getLast?_eq_getElem?]
        subst hjeq
        simp [List.getElem?_eq_getElem hj]
      rw [hwl] at this
      simpa using this.symm
  have hwstep : ∀ j (hj : j + 1 < w.length),
      StepB m W H (w.get ⟨j, by omega⟩) (w.get ⟨j + 1, hj⟩) := by
    intro j hj
    exact List.chain'_iff_get.mp hwc j (by omega)
  intro fuel
  induction fuel with
  | zero =>
    intro q v p _ _ h
    exact absurd h (by simp [findSolutionAux])
  | succ fuel ih =>
    intro q v p hinv hminv h
    rcases q with _ | ⟨⟨pos, path⟩, rest⟩
    · rw [findSolutionAux] at h
      simp at h
    · obtain ⟨i, hi, it, hitmem, hitkey, hitlen⟩ := hminv
      rw [findSolutionAux] at h
      by_cases hpe : pos = e
      · rw [if_pos hpe] at h
        have hp : path = p := by simpa using h
        subst hp
        rcases List.mem_cons.mp hitmem with hit | hit
        · subst hit
          dsimp only at hitlen
          omega
        · have hpair := (List.pairwise_cons.mp hinv.lens_sorted).1 it hit
          dsimp only at hpair
          omega
      · rw [if_neg hpe] at h
        obtain ⟨hinv', hlenb, hstepv, _, hrestsub⟩ := bfs_step_inv hinv hpe
        rcases List.mem_cons.mp hitmem with hit | hit
        · -- the dequeued entry was the min-invariant witness
          subst hit
          simp only at hitkey hitlen
          have hie : i + 1 < w.length := by
            apply hwlast i hi
            rw [← hitkey]
            exact hpe
          have hnext : w.get ⟨i + 1, hie⟩ ∈
              ((getAdjacent4 pos.x pos.y).foldl (bfsEnqueue m W H path) (rest, v)).2 := by
            apply hstepv
            have := hwstep i hie
            rw [← hitkey] at this
            exact this
          -- search forward along the walk for a node still in the queue
          have hsearch : ∀ (d j : Nat) (hj : j < w.length), w.length - j ≤ d →
              i + 1 ≤ j →
              w.get ⟨j, hj⟩ ∈
                ((getAdjacent4 pos.x pos.y).foldl (bfsEnqueue m W H path) (rest, v)).2 →
              ∃ j', ∃ hj' : j' < w.length, i + 1 ≤ j' ∧
                ∃ it' ∈ ((getAdjacent4 pos.x pos.y).foldl
                    (bfsEnqueue m W H path) (rest, v)).1,
                  it'.1 = w.get ⟨j', hj'⟩ := by
            intro d
            induction d with
            | zero =>
              intro j hj hd _ _
              omega
            | succ d ihd =>
              intro j hj hd hij hmem
              rcases hinv'.visited_closed _ hmem with ⟨it', hit', hkey'⟩ | hclosed
              · exact ⟨j, hj, hij, it', hit', hkey'⟩
              · by_cases hje : w.get ⟨j, hj⟩ = e
                · obtain ⟨it', hit', hkey'⟩ := hinv'.end_in_queue (hje ▸ hmem)
                  exact ⟨j, hj, hij, it', hit', by rw [hkey', hje]⟩
                · have hj1 : j + 1 < w.length := hwlast j hj hje
                  have hstep := hwstep j hj1
                  exact ihd (j + 1) hj1 (by omega) (by omega)
                    (hclosed _ hstep)
          obtain ⟨j', hj', hij', it', hit', hkey'⟩ :=
            hsearch (w.length - (i + 1)) (i + 1) hie (by omega) (by omega) hnext
          refine ih _ _ p hinv' ⟨j', hj', it', hit', hkey', ?_⟩ h
          have := hlenb it' hit'
          omega
        · refine ih _ _ p hinv' ⟨i, hi, it, hrestsub it hit, hitkey, hitlen⟩ h

lemma mem_boundsSet_iff (W H : Int) (p : Pos) :
    p ∈ boundsSet W H ↔ 0 ≤ p.x ∧ p.x < W ∧ 0 ≤ p.y ∧ p.y < H := by
  obtain ⟨px, py⟩ := p
  unfold boundsSet
  simp only [Finset.mem_image, Finset.mem_product, Finset.mem_Ico, Prod.exists, Pos.mk.injEq]
  constructor
  · rintro ⟨a, b, ⟨⟨h1, h2⟩, h3, h4⟩, ha, hb⟩
    subst ha
    subst hb
    exact ⟨h1, h2, h3, h4⟩
  · rintro ⟨h1, h2, h3, h4⟩
    exact ⟨px, py, ⟨⟨h1, h2⟩, h3, h4⟩, rfl, rfl⟩

lemma boundsSet_card_le (W H : Int) : (boundsSet W H).card ≤ W.toNat * H.toNat := by
  unfold boundsSet
  calc ((Finset.Ico (0 : Int) W ×ˢ Finset.Ico (0 : Int) H).image
        (fun q => (⟨q.1, q.2⟩ : Pos))).card
      ≤ (Finset.Ico (0 : Int) W ×ˢ Finset.Ico (0 : Int) H).card :=
        Finset.card_image_le
    _ = (Finset.Ico (0 : Int) W).card * (Finset.Ico (0 : Int) H).card :=
        Finset.card_product _ _
    _ = W.toNat * H.toNat := by
        rw [Int.card_Ico, Int.card_Ico]
        simp

lemma findSolutionAux_enough {m : Maze} {W H : Int} {e : Pos} :
    ∀ (fuel : Nat) (queue : List (Pos × List Pos)) (visited : List Pos),
      queue.length + ((boundsSet W H).filter (fun p => p ∉ visited)).card < fuel →
      findSolutionAux m W H e fuel queue visited ≠ none := by
  intro fuel
  induction fuel with
  | zero =>
    intro q v h
    omega
  | succ fuel ih =>
    intro q v hcard
    rcases q with _ | ⟨⟨pos, path⟩, rest⟩
    · rw [findSolutionAux]
      simp
    · rw [findSolutionAux]
      by_cases hpe : pos = e
      · rw [if_pos hpe]
        simp
      · rw [if_neg hpe]
        obtain ⟨new, h1, h2, h3, h4, _⟩ :=
          bfsEnqueue_spec m W H path (getAdjacent4 pos.x pos.y) rest v
        apply ih
        rw [h1, h2]
        have hsub : new.toFinset ⊆ (boundsSet W H).filter (fun p => p ∉ v) := by
          intro n hn
          rw [List.mem_toFinset] at hn
          obtain ⟨_, hpass, hnv⟩ := h3 n hn
          rw [Finset.mem_filter, mem_boundsSet_iff]
          exact ⟨⟨hpass.1, hpass.2.1, hpass.2.2.1, hpass.2.2.2.1⟩, hnv⟩
        have hcardnew : new.toFinset.card = new.length := List.toFinset_card_of_nodup h4
        have hfeq : (boundsSet W H).filter (fun p => p ∉ new.reverse ++ v)
            = ((boundsSet W H).filter (fun p => p ∉ v)) \ new.toFinset := by
          ext p
          simp only [Finset.mem_filter, Finset.mem_sdiff, List.mem_toFinset,
            List.mem_append, List.mem_reverse]
          tauto
        rw [hfeq, Finset.card_sdiff hsub, hcardnew]
        have hle := Finset.card_le_card hsub
        rw [hcardnew] at hle
        have hsplit : ((boundsSet W H).filter (fun p => p ∉ v)).card - new.length
            + new.length = ((boundsSet W H).filter (fun p => p ∉ v)).card :=
          Nat.sub_add_cancel hle
        simp only [List.length_append, List.length_map, List.length_cons] at hcard ⊢
        omega

lemma bfsInit_inv (m : Maze) (W H : Int) (s e : Pos) :
    BfsInv m W H s e [(s, [s])] [s] := by
  refine ⟨?_, ?_, ?_, ?_, ?_, ?_, ?_⟩
  · intro it hit
    have : it = (s, [s]) := by simpa using hit
    subst this
    exact ⟨rfl, rfl, List.chain'_singleton s⟩
  · intro it hit
    have : it = (s, [s]) := by simpa using hit
    subst this
    simp
  · simp
  · simp
  · intro u hu
    have hus : u = s := by simpa using hu
    exact Or.inl ⟨(s, [s]), List.mem_singleton_self _, hus.symm⟩
  · intro he
    have : e = s := by simpa using he
    exact ⟨(s, [s]), List.mem_singleton_self _, this.symm⟩
  · simp

lemma findSolution_top_ne_none (m : Maze) (W H : Int) (s e : Pos) :
    findSolutionAux m W H e (W.toNat * H.toNat + 2) [(s, [s])] [s] ≠ none := by
  apply findSolutionAux_enough
  have h1 : ((boundsSet W H).filter (fun p => p ∉ [s])).card ≤ W.toNat * H.toNat :=
    le_trans (Finset.card_filter_le _ _) (boundsSet_card_le W H)
  simp only [List.length_singleton]
  omega

lemma findSolution_eq (m : Maze) (W H : Int) (s e : Pos) :
    MazeGenerator.findSolution m W H (some s) (some e)
      = (findSolutionAux m W H e (W.toNat * H.toNat + 2) [(s, [s])] [s]).getD none := rfl

lemma findSolution_some_iff (m : Maze) (W H : Int) (s e : Pos) (p : List Pos) :
    MazeGenerator.findSolution m W H (some s) (some e) = some p ↔
      findSolutionAux m W H e (W.toNat * H.toNat + 2) [(s, [s])] [s] = some (some p) := by
  rw [findSolution_eq]
  rcases hr : findSolutionAux m W H e (W.toNat * H.toNat + 2) [(s, [s])] [s] with _ | r
  · exact absurd hr (findSolution_top_ne_none m W H s e)
  · simp

lemma findSolution_none_iff (m : Maze) (W H : Int) (s e : Pos) :
    MazeGenerator.findSolution m W H (some s) (some e) = none ↔
      findSolutionAux m W H e (W.toNat * H.toNat + 2) [(s, [s])] [s] = some none := by
  rw [findSolution_eq]
  rcases hr : findSolutionAux m W H e (W.toNat * H.toNat + 2) [(s, [s])] [s] with _ | r
  · exact absurd hr (findSolution_top_ne_none m W H s e)
  · rcases r with _ | p <;> simp

lemma cellAt_isSome_bounds {m : Maze} {W H : Int} (hWF : MazeWF m W H) {p : Pos} {c : Cell}
    (h : cellAt m p = some c) : 0 ≤ p.x ∧ p.x < W ∧ 0 ≤ p.y ∧ p.y < H := by
  unfold cellAt at h
  by_cases hnn : 0 ≤ p.y ∧ 0 ≤ p.x
  · rw [if_pos hnn] at h
    rcases hrow : m[p.y.toNat]? with _ | row
    · rw [hrow] at h
      simp at h
    · rw [hrow] at h
      replace h : row[p.x.toNat]? = some c := h
      have hylt : p.y.toNat < m.length := by
        by_contra hge
        rw [List.getElem?_eq_none (by omega)] at hrow
        simp at hrow
      have hxlt : p.x.toNat < row.length := by
        by_contra hge
        rw [List.getElem?_eq_none (by omega)] at h
        simp at h
      have hrowmem : row ∈ m := by
        have := List.getElem?_eq_some_iff.mp hrow
        obtain ⟨hh, hget⟩ := this
        exact hget ▸ List.getElem_mem hh
      have hrlen := hWF.2 row hrowmem
      have hmlen := hWF.1
      refine ⟨hnn.2, ?_, hnn.1, ?_⟩ <;> omega
  · rw [if_neg hnn] at h
    simp at h

lemma nonwall_pass {m : Maze} {W H : Int} {s : Pos} (hWF : MazeWF m W H)
    (huniq : ∀ p, cellAt m p = some Cell.START → p = s) {x : Pos} {c : Cell}
    (hx : cellAt m x = some c) (hc : c ≠ Cell.WALL) (hxs : x ≠ s) : PassB m W H x := by
  obtain ⟨h1, h2, h3, h4⟩ := cellAt_isSome_bounds hWF hx
  refine ⟨h1, h2, h3, h4, ?_⟩
  cases c with
  | WALL => exact absurd rfl hc
  | PATH => exact Or.inl hx
  | START => exact absurd (huniq x hx) hxs
  | END => exact Or.inr hx

lemma chain'_strengthen {R : Pos → Pos → Prop} {P : Pos → Prop} :
    ∀ (l : List Pos), List.Chain' R l → (∀ x ∈ l.tail, P x) →
      List.Chain' (fun a b => R a b ∧ P b) l := by
  intro l
  induction l with
  | nil => intro _ _; exact List.chain'_nil
  | cons a t ih =>
    intro hc hp
    cases t with
    | nil => exact List.chain'_singleton a
    | cons b t' =>
      have hc' := List.chain'_cons.mp hc
      refine List.chain'_cons.mpr ⟨⟨hc'.1, hp b (List.mem_cons_self _ _)⟩, ?_⟩
      exact ih hc'.2 (fun x hx => hp x (List.mem_cons_of_mem _ hx))

lemma nonwall_to_bwalk {m : Maze} {W H : Int} {s e : Pos} (hWF : MazeWF m W H)
    (huniq : ∀ p, cellAt m p = some Cell.START → p = s) :
    ∀ q, NonWallWalk m s e q → ∃ q', BWalk m W H s e q' ∧ q'.length ≤ q.length := by
  suffices key : ∀ (n : Nat) (q : List Pos), q.length ≤ n → NonWallWalk m s e q →
      ∃ q', BWalk m W H s e q' ∧ q'.length ≤ q.length by
    exact fun q hq => key q.length q (le_refl _) hq
  intro n
  induction n with
  | zero =>
    intro q hlen hq
    have : q = [] := List.length_eq_zero.mp (by omega)
    subst this
    simp [NonWallWalk] at hq
  | succ n ih =>
    intro q hlen hq
    obtain ⟨hh, hl, hc, hnw⟩ := hq
    by_cases hmem : s ∈ q.tail
    · obtain ⟨t1, t2, ht⟩ := List.append_of_mem hmem
      rcases q with _ | ⟨a, rest⟩
      · simp at hh
      · have hrest : rest = t1 ++ s :: t2 := ht
        have hsuffix : (s :: t2) <:+ (a :: rest) := by
          refine List.IsSuffix.trans ⟨t1, ?_⟩ (List.suffix_cons a rest)
          rw [hrest]
        have hsub : NonWallWalk m s e (s :: t2) := by
          refine ⟨rfl, ?_, hc.suffix hsuffix, ?_⟩
          · obtain ⟨pre, hpre⟩ := hsuffix
            rw [← hpre] at hl
            rwa [List.getLast?_append_of_ne_nil pre (List.cons_ne_nil s t2)] at hl
          · intro x hx
            exact hnw x (hsuffix.subset hx)
        have hshorter : (s :: t2).length ≤ n := by
          have : (a :: rest).length = t1.length + t2.length + 2 := by
            rw [hrest]
            simp
            omega
          simp only [List.length_cons] at hlen this ⊢
          omega
        obtain ⟨q', hq', hlen'⟩ := ih (s :: t2) hshorter hsub
        refine ⟨q', hq', ?_⟩
        simp only [List.length_cons] at hlen' ⊢
        have hrl : rest.length = t1.length + t2.length + 1 := by
          rw [hrest]
          simp
          omega
        omega
    · refine ⟨q, ⟨hh, hl, ?_⟩, le_refl _⟩
      apply chain'_strengthen q hc
      intro x hx
      have hxq : x ∈ q := by
        cases q with
        | nil => simp at hx
        | cons a t => exact List.mem_cons_of_mem _ hx
      obtain ⟨c, hcx, hcw⟩ := hnw x hxq
      exact nonwall_pass hWF huniq hcx hcw (fun hxs => hmem (hxs ▸ hx))

lemma bwalk_to_nonwall {m : Maze} {W H : Int} {s e : Pos}
    (hs : cellAt m s = some Cell.START) {q : List Pos} (hq : BWalk m W H s e q) :
    NonWallWalk m s e q := by
  obtain ⟨hh, hl, hc⟩ := hq
  refine ⟨hh, hl, hc.imp (fun a b h => h.1), ?_⟩
  intro x hx
  rcases chain'_head_cases q s x hc hh hx with hxs | ⟨a, _, hpass⟩
  · subst hxs
    exact ⟨Cell.START, hs, by decide⟩
  · rcases hpass.2.2.2.2 with hcell | hcell
    · exact ⟨Cell.PATH, hcell, by decide⟩
    · exact ⟨Cell.END, hcell, by decide⟩

lemma head?_get_zero {l : List Pos} {s : Pos} (h : l.head? = some s) (hl : 0 < l.length) :
    l.get ⟨0, hl⟩ = s := by
  cases l with
  | nil => simp at h
  | cons a t => simpa using h

/-- C2: whenever the BFS solver returns a path, that path is a sequence of
Manhattan-adjacent non-wall cells from start to end of minimum length
(hence minimum edge count, edges being one fewer than positions) among all
such paths; and it returns null exactly when no such path exists (the
frontier empties without reaching the end). The grid designates `s` and `e`
as its unique start and end cells. -/
theorem C2_bfs_shortest (m : Maze) (W H : Int) (s e : Pos)
    (hWF : MazeWF m W H) (hs : cellAt m s = some Cell.START)
    (_he : cellAt m e = some Cell.END)
    (huniq : ∀ p, cellAt m p = some Cell.START → p = s) :
    (∀ p, MazeGenerator.findSolution m W H (some s) (some e) = some p →
      NonWallWalk m s e p ∧ ∀ q, NonWallWalk m s e q → p.length ≤ q.length) ∧
    (MazeGenerator.findSolution m W H (some s) (some e) = none ↔
      ¬ ∃ q, NonWallWalk m s e q) := by
  constructor
  · intro p hp
    rw [findSolution_some_iff] at hp
    obtain ⟨h1, h2, h3⟩ :=
      findSolutionAux_some_props _ _ _ p (bfsInit_inv m W H s e) hp
    refine ⟨bwalk_to_nonwall hs ⟨h1, h2, h3⟩, ?_⟩
    intro q hq
    obtain ⟨q', ⟨hh', hl', hc'⟩, hlen⟩ := nonwall_to_bwalk hWF huniq q hq
    have hq'pos : 0 < q'.length := by
      cases q' with
      | nil => simp at hh'
      | cons a t => simp
    have hmin := findSolutionAux_min q' hl' hc' _ _ _ p (bfsInit_inv m W H s e)
      ⟨0, hq'pos, (s, [s]), List.mem_singleton_self _,
        (head?_get_zero hh' hq'pos).symm, by simp⟩ hp
    omega
  · rw [findSolution_none_iff]
    constructor
    · rintro hnone ⟨q, hq⟩
      obtain ⟨q', hbw, _⟩ := nonwall_to_bwalk hWF huniq q hq
      exact findSolutionAux_none_unreach _ _ _ (bfsInit_inv m W H s e) hnone
        (walk_to_reach q' s e hbw.1 hbw.2.1 hbw.2.2)
    · intro hnex
      rcases hr : findSolutionAux m W H e (W.toNat * H.toNat + 2) [(s, [s])] [s]
        with _ | r
      · exact absurd hr (findSolution_top_ne_none m W H s e)
      · rcases r with _ | p
        · rfl
        · exfalso
          obtain ⟨h1, h2, h3⟩ :=
            findSolutionAux_some_props _ _ _ p (bfsInit_inv m W H s e) hr
          exact hnex ⟨p, bwalk_to_nonwall hs ⟨h1, h2, h3⟩⟩

lemma not_mem_eraseIdx_self {l : List Pos} (hnd : l.Nodup) {j : Nat} (hj : j < l.length) :
    l.get ⟨j, hj⟩ ∉ l.eraseIdx j := by
  rw [List.eraseIdx_eq_take_drop_succ]
  intro hmem
  have hdrop : l.get ⟨j, hj⟩ :: l.drop (j + 1) = l.drop j := List.getElem_cons_drop l j hj
  have hnd' : (l.take j ++ l.drop j).Nodup := by
    rw [List.take_append_drop]
    exact hnd
  rw [List.nodup_append] at hnd'
  rcases List.mem_append.mp hmem with hmem | hmem
  · exact hnd'.2.2 hmem (by rw [← hdrop]; exact List.mem_cons_self _ _)
  · have hnc : (l.get ⟨j, hj⟩ :: l.drop (j + 1)).Nodup := by
      rw [hdrop]
      exact hnd'.2.1
    exact (List.nodup_cons.mp hnc).1 hmem

lemma mem_eraseIdx_split {l : List Pos} {j : Nat} (hj : j < l.length) {x : Pos}
    (hx : x ∈ l) : x = l.get ⟨j, hj⟩ ∨ x ∈ l.eraseIdx j := by
  rw [List.eraseIdx_eq_take_drop_succ]
  have hdrop : l.get ⟨j, hj⟩ :: l.drop (j + 1) = l.drop j := List.getElem_cons_drop l j hj
  rw [← List.take_append_drop j l] at hx
  rcases List.mem_append.mp hx with h | h
  · exact Or.inr (List.mem_append.mpr (Or.inl h))
  · rw [← hdrop] at h
    rcases List.mem_cons.mp h with h | h
    · exact Or.inl h
    · exact Or.inr (List.mem_append.mpr (Or.inr h))

lemma mem_of_mem_eraseIdx {l : List Pos} {j : Nat} {x : Pos}
    (hx : x ∈ l.eraseIdx j) : x ∈ l :=
  (List.eraseIdx_sublist l j).mem hx

lemma findLowest_spec (f : Pos → Option ℚ) :
    ∀ (l : List Pos) (i : Nat) (cur : Pos) (curIdx : Nat),
      findLowest f i cur curIdx l = (cur, curIdx) ∨
      ∃ k, ∃ hk : k < l.length, findLowest f i cur curIdx l = (l.get ⟨k, hk⟩, k + i) := by
  intro l
  induction l with
  | nil => intro i cur curIdx; exact Or.inl rfl
  | cons p rest ih =>
    intro i cur curIdx
    unfold findLowest
    by_cases h : ltF (f p) (f cur) = true
    · rw [if_pos h]
      rcases ih (i + 1) p i with h' | ⟨k, hk, h'⟩
      · right
        refine ⟨0, by simp, ?_⟩
        rw [h']
        simp only [Prod.mk.injEq]
        exact ⟨rfl, by omega⟩
      · right
        refine ⟨k + 1, by simp only [List.length_cons]; omega, ?_⟩
        rw [h']
        simp only [Prod.mk.injEq]
        exact ⟨rfl, by omega⟩
    · rw [if_neg h]
      rcases ih (i + 1) cur curIdx with h' | ⟨k, hk, h'⟩
      · exact Or.inl h'
      · right
        refine ⟨k + 1, by simp only [List.length_cons]; omega, ?_⟩
        rw [h']
        simp only [Prod.mk.injEq]
        exact ⟨rfl, by omega⟩

lemma findLowest_mem (f : Pos → Option ℚ) (h : Pos) (t : List Pos) :
    ∃ hj : (findLowest f 1 h 0 t).2 < (h :: t).length,
      (h :: t).get ⟨(findLowest f 1 h 0 t).2, hj⟩ = (findLowest f 1 h 0 t).1 := by
  rcases findLowest_spec f t 1 h 0 with heq | ⟨k, hk, heq⟩
  · rw [heq]
    exact ⟨by simp, rfl⟩
  · rw [heq]
    exact ⟨by simp only [List.length_cons]; omega, rfl⟩

lemma astarStepNeighbor_cases (hsum : ℚ → Pos → ℚ) (cur : Pos) (closed : List Pos)
    (st : AState) (n : Pos) :
    (n ∈ closed ∧ astarStepNeighbor hsum cur closed st n = st) ∨
    (n ∉ closed ∧ n ∈ st.openSet ∧ geF ((st.g cur).getD 0 + 1) (st.g n) = true ∧
      astarStepNeighbor hsum cur closed st n = st) ∨
    (n ∉ closed ∧
      ((n ∈ st.openSet ∧ geF ((st.g cur).getD 0 + 1) (st.g n) = false) ∨ n ∉ st.openSet) ∧
      astarStepNeighbor hsum cur closed st n =
        { openSet := if n ∈ st.openSet then st.openSet else st.openSet ++ [n]
          cameFrom := fun p => if p = n then some cur else st.cameFrom p
          g := fun p => if p = n then some ((st.g cur).getD 0 + 1) else st.g p
          f := fun p => if p = n then some (hsum ((st.g cur).getD 0 + 1) n) else st.f p }) := by
  unfold astarStepNeighbor
  by_cases hc : n ∈ closed
  · exact Or.inl ⟨hc, by rw [if_pos hc]⟩
  · rw [if_neg hc]
    dsimp only
    by_cases ho : n ∈ st.openSet
    · rw [if_pos ho]
      cases hg : geF ((st.g cur).getD 0 + 1) (st.g n) with
      | true =>
        rw [if_pos rfl]
        exact Or.inr (Or.inl ⟨hc, ho, rfl, rfl⟩)
      | false =>
        rw [if_neg Bool.false_ne_true]
        refine Or.inr (Or.inr ⟨hc, Or.inl ⟨ho, rfl⟩, ?_⟩)
        rw [if_pos ho]
    · rw [if_neg ho]
      refine Or.inr (Or.inr ⟨hc, Or.inr ho, ?_⟩)
      rw [if_neg ho]

lemma astarStepNeighbor_pres (hsum : ℚ → Pos → ℚ) {m : Maze} {s cur : Pos}
    {closed : List Pos} (st : AState) (n : Pos) (hcur : cur ∈ closed)
    (hadj : Adjacent cur n) (hopen : openCell m n)
    (hmid : AMid m s cur closed st) :
    AMid m s cur closed (astarStepNeighbor hsum cur closed st n) ∧
    (∀ p ∈ st.openSet, p ∈ (astarStepNeighbor hsum cur closed st n).openSet) ∧
    (n ∈ closed ∨ n ∈ (astarStepNeighbor hsum cur closed st n).openSet) := by
  rcases astarStepNeighbor_cases hsum cur closed st n with
    ⟨hc, heq⟩ | ⟨hc, ho, _, heq⟩ | ⟨hc, hcase, heq⟩
  · rw [heq]
    exact ⟨hmid, fun p hp => hp, Or.inl hc⟩
  · rw [heq]
    exact ⟨hmid, fun p hp => hp, Or.inr ho⟩
  · obtain ⟨v, hv, hv0⟩ := hmid.g_cur
    have hcurne : cur ≠ n := fun h => hc (h ▸ hcur)
    have hns : n ≠ s := by
      intro hn
      subst hn
      rcases hcase with ⟨_, hge⟩ | ho
      · rw [hmid.g_start] at hge
        rw [hv] at hge
        simp only [Option.getD_some, geF, decide_eq_false_iff_not, not_le] at hge
        linarith
      · rcases hmid.start_somewhere with h | h
        · exact hc h
        · exact ho h
    have hsn : ¬ (s = n) := fun h => hns h.symm
    have hoiff : ∀ p : Pos,
        (p ∈ (if n ∈ st.openSet then st.openSet else st.openSet ++ [n])) ↔
          (p ∈ st.openSet ∨ p = n) := by
      intro p
      by_cases ho : n ∈ st.openSet
      · rw [if_pos ho]
        constructor
        · exact fun h => Or.inl h
        · rintro (h | h)
          · exact h
          · rw [h]; exact ho
      · rw [if_neg ho]
        simp
    have hnodup : (if n ∈ st.openSet then st.openSet else st.openSet ++ [n]).Nodup := by
      by_cases ho : n ∈ st.openSet
      · rw [if_pos ho]; exact hmid.open_nodup
      · rw [if_neg ho]
        rw [List.nodup_append]
        refine ⟨hmid.open_nodup, List.nodup_singleton n, ?_⟩
        intro x hx hxn
        rw [List.mem_singleton] at hxn
        exact ho (hxn ▸ hx)
    rw [heq]
    refine ⟨⟨?_, ?_, ?_, ?_, ?_, ?_, ?_, ?_, ?_, ?_, ?_, ?_⟩, ?_, ?_⟩
    · exact hnodup
    · intro p hp
      rcases (hoiff p).mp hp with h | h
      · exact hmid.open_closed p h
      · subst h
        exact hc
    · intro p hp
      rcases (hoiff p).mp hp with h | h
      · exact hmid.open_bounds p h
      · subst h
        exact Or.inr hopen
    · intro p hp
      by_cases hpn : p = n
      · right
        dsimp only
        rw [if_pos hpn]
        exact Option.some_ne_none cur
      · rcases hmid.open_origin p (((hoiff p).mp hp).resolve_right hpn) with h | h
        · exact Or.inl h
        · right
          dsimp only
          rw [if_neg hpn]
          exact h
    · intro p hp
      by_cases hpn : p = n
      · refine ⟨(st.g cur).getD 0 + 1, ?_, ?_⟩
        · dsimp only
          rw [if_pos hpn]
        · rw [hv]
          simp only [Option.getD_some]
          linarith
      · obtain ⟨w, hw, hw0⟩ := hmid.open_g p (((hoiff p).mp hp).resolve_right hpn)
        refine ⟨w, ?_, hw0⟩
        dsimp only
        rw [if_neg hpn]
        exact hw
    · intro nn q hq
      dsimp only at hq
      by_cases hnn : nn = n
      · rw [if_pos hnn] at hq
        injection hq with hq
        subst hnn
        subst hq
        refine ⟨hadj, hopen, ?_, hcur⟩
        rcases hmid.cf_cur with h | h
        · exact Or.inl h
        · right
          dsimp only
          rw [if_neg hcurne]
          exact h
      · rw [if_neg hnn] at hq
        obtain ⟨h1, h2, h3, h4⟩ := hmid.cf_props nn q hq
        refine ⟨h1, h2, ?_, h4⟩
        rcases h3 with h | h
        · exact Or.inl h
        · right
          dsimp only
          have hqn : q ≠ n := fun hqn => hc (hqn ▸ h4)
          rw [if_neg hqn]
          exact h
    · obtain ⟨rk, hbound, hmem, hedge⟩ := hmid.cf_rank
      refine ⟨fun p => if p ∈ closed then rk p else closed.length, ?_, ?_, ?_⟩
      · intro p
        dsimp only
        by_cases hp : p ∈ closed
        · rw [if_pos hp]
          exact hbound p
        · rw [if_neg hp]
      · intro p hp
        dsimp only
        rw [if_pos hp]
        exact hmem p hp
      · intro nn q hq
        dsimp only at hq
        dsimp only
        by_cases hnn : nn = n
        · rw [if_pos hnn] at hq
          injection hq with hq
          subst hnn
          subst hq
          rw [if_pos hcur, if_neg hc]
          exact hmem cur hcur
        · rw [if_neg hnn] at hq
          have h4 : q ∈ closed := (hmid.cf_props nn q hq).2.2.2
          rw [if_pos h4]
          by_cases hnc : nn ∈ closed
          · rw [if_pos hnc]
            exact hedge nn q hq
          · rw [if_neg hnc]
            exact hmem q h4
    · dsimp only
      rw [if_neg hsn]
      exact hmid.g_start
    · dsimp only
      rw [if_neg hsn]
      exact hmid.cf_start
    · rcases hmid.start_somewhere with h | h
      · exact Or.inl h
      · right
        exact (hoiff s).mpr (Or.inl h)
    · refine ⟨v, ?_, hv0⟩
      dsimp only
      rw [if_neg hcurne]
      exact hv
    · rcases hmid.cf_cur with h | h
      · exact Or.inl h
      · right
        dsimp only
        rw [if_neg hcurne]
        exact h
    · intro p hp
      exact (hoiff p).mpr (Or.inl hp)
    · right
      exact (hoiff n).mpr (Or.inr rfl)

lemma astar_fold_pres (hsum : ℚ → Pos → ℚ) {m : Maze} {s cur : Pos}
    {closed : List Pos} (hcur : cur ∈ closed) :
    ∀ (ns : List Pos) (st : AState),
      (∀ n ∈ ns, Adjacent cur n ∧ openCell m n) →
      AMid m s cur closed st →
      AMid m s cur closed (ns.foldl (astarStepNeighbor hsum cur closed) st) ∧
      (∀ p ∈ st.openSet, p ∈ (ns.foldl (astarStepNeighbor hsum cur closed) st).openSet) ∧
      (∀ n ∈ ns, n ∈ closed ∨ n ∈ (ns.foldl (astarStepNeighbor hsum cur closed) st).openSet) := by
  intro ns
  induction ns with
  | nil =>
    intro st _ hmid
    exact ⟨hmid, fun p hp => hp, fun n hn => absurd hn (List.not_mem_nil n)⟩
  | cons n ns ih =>
    intro st hns hmid
    obtain ⟨hadj, hopen⟩ := hns n (List.mem_cons_self n ns)
    obtain ⟨hmid1, hext1, hcov1⟩ := astarStepNeighbor_pres hsum st n hcur hadj hopen hmid
    obtain ⟨hmidF, hextF, hcovF⟩ := ih (astarStepNeighbor hsum cur closed st n)
      (fun x hx => hns x (List.mem_cons_of_mem n hx)) hmid1
    rw [List.foldl_cons]
    refine ⟨hmidF, fun p hp => hextF p (hext1 p hp), ?_⟩
    intro x hx
    rcases List.mem_cons.mp hx with hx | hx
    · subst hx
      rcases hcov1 with h | h
      · exact Or.inl h
      · exact Or.inr (hextF x h)
    · exact hcovF x hx

lemma astar_outer_step (hsum : ℚ → Pos → ℚ) {m : Maze} {s e : Pos} {st : AState}
    {closed : List Pos} (hinv : AInv m s e st closed) {c : Pos} {j : Nat}
    (hj : j < st.openSet.length) (hget : st.openSet.get ⟨j, hj⟩ = c) (hne : c ≠ e) :
    AInv m s e
      ((getValidAdjacentCells c.x c.y m).foldl (astarStepNeighbor hsum c (c :: closed))
        { st with openSet := st.openSet.eraseIdx j })
      (c :: closed) := by
  have hmem : c ∈ st.openSet := hget ▸ List.get_mem st.openSet j hj
  have hnotmem : c ∉ st.openSet.eraseIdx j := by
    rw [← hget]
    exact not_mem_eraseIdx_self hinv.open_nodup hj
  have hsplit : ∀ x ∈ st.openSet, x = c ∨ x ∈ st.openSet.eraseIdx j := by
    intro x hx
    rcases mem_eraseIdx_split hj hx with h | h
    · left
      rw [h, hget]
    · exact Or.inr h
  have hcnotcl : c ∉ closed := hinv.open_closed c hmem
  have hmid : AMid m s c (c :: closed) { st with openSet := st.openSet.eraseIdx j } := by
    refine ⟨?_, ?_, ?_, ?_, ?_, ?_, ?_, ?_, ?_, ?_, ?_, ?_⟩
    · exact (List.eraseIdx_sublist st.openSet j).nodup hinv.open_nodup
    · intro p hp
      have hpo : p ∈ st.openSet := mem_of_mem_eraseIdx hp
      intro hpc
      rcases List.mem_cons.mp hpc with h | h
      · exact hnotmem (h ▸ hp)
      · exact hinv.open_closed p hpo h
    · intro p hp
      exact hinv.open_bounds p (mem_of_mem_eraseIdx hp)
    · intro p hp
      exact hinv.open_origin p (mem_of_mem_eraseIdx hp)
    · intro p hp
      exact hinv.open_g p (mem_of_mem_eraseIdx hp)
    · intro nn q hq
      obtain ⟨h1, h2, h3, h4⟩ := hinv.cf_props nn q hq
      exact ⟨h1, h2, h3, List.mem_cons_of_mem c h4⟩
    · obtain ⟨rk, hbound, hedge⟩ := hinv.cf_rank
      refine ⟨rk, ?_, ?_, hedge⟩
      · intro p
        simp only [List.length_cons]
        exact le_trans (hbound p) (Nat.le_succ _)
      · intro p _
        simp only [List.length_cons]
        exact Nat.lt_succ_of_le (hbound p)
    · exact hinv.g_start
    · exact hinv.cf_start
    · rcases hinv.start_somewhere with h | h
      · exact Or.inl (List.mem_cons_of_mem c h)
      · rcases hsplit s h with h' | h'
        · exact Or.inl (by rw [h']; exact List.mem_cons_self c closed)
        · exact Or.inr h'
    · exact hinv.open_g c hmem
    · exact hinv.open_origin c hmem
  have hvalid : ∀ n ∈ getValidAdjacentCells c.x c.y m, Adjacent c n ∧ openCell m n := by
    intro n hn
    exact (mem_getValidAdjacentCells_iff c.x c.y m n).mp hn
  obtain ⟨hmidF, hextF, hcovF⟩ := astar_fold_pres hsum (List.mem_cons_self c closed)
    (getValidAdjacentCells c.x c.y m) { st with openSet := st.openSet.eraseIdx j }
    hvalid hmid
  refine ⟨hmidF.open_nodup, hmidF.open_closed, hmidF.open_bounds, hmidF.open_origin,
    hmidF.open_g, hmidF.cf_props, ?_, hmidF.g_start, hmidF.cf_start,
    hmidF.start_somewhere, ?_, ?_, ?_, ?_⟩
  · obtain ⟨rk, hbound, _, hedge⟩ := hmidF.cf_rank
    exact ⟨rk, hbound, hedge⟩
  · exact List.nodup_cons.mpr ⟨hcnotcl, hinv.closed_nodup⟩
  · intro p hp
    rcases List.mem_cons.mp hp with h | h
    · rw [h]
      exact hinv.open_bounds c hmem
    · exact hinv.closed_bounds p h
  · intro hec
    rcases List.mem_cons.mp hec with h | h
    · exact hne h.symm
    · exact hinv.closed_e h
  · intro w hw b hstep
    rcases List.mem_cons.mp hw with h | h
    · subst h
      have hb : b ∈ getValidAdjacentCells w.x w.y m :=
        (mem_getValidAdjacentCells_iff w.x w.y m b).mpr hstep
      exact hcovF b hb
    · rcases hinv.closure w h b hstep with h' | h'
      · exact Or.inl (List.mem_cons_of_mem c h')
      · rcases hsplit b h' with h'' | h''
        · exact Or.inl (by rw [h'']; exact List.mem_cons_self c closed)
        · exact Or.inr (hextF b h'')

lemma reconstructPath_spec (cf : Pos → Option Pos) (rk : Pos → Nat)
    (hrk : ∀ n q, cf n = some q → rk q < rk n) :
    ∀ (fuel : Nat) (p : Pos), rk p < fuel →
      (reconstructPath cf fuel p).getLast? = some p ∧
      List.Chain' (fun a b => cf b = some a) (reconstructPath cf fuel p) ∧
      (∀ x ∈ reconstructPath cf fuel p, x = p ∨ ∃ nn, cf nn = some x) ∧
      ∃ z, (reconstructPath cf fuel p).head? = some z ∧ cf z = none := by
  intro fuel
  induction fuel with
  | zero =>
    intro p hp
    omega
  | succ fuel ih =>
    intro p hp
    rcases hcf : cf p with _ | q
    · have heq : reconstructPath cf (fuel + 1) p = [p] := by
        simp only [reconstructPath, hcf]
      rw [heq]
      refine ⟨rfl, List.chain'_singleton p, ?_, ⟨p, rfl, hcf⟩⟩
      intro x hx
      left
      simpa using hx
    · have hql : rk q < fuel := by
        have := hrk p q hcf
        omega
      obtain ⟨hlast, hchain, hmem, z, hz, hznone⟩ := ih q hql
      have heq : reconstructPath cf (fuel + 1) p = reconstructPath cf fuel q ++ [p] := by
        simp only [reconstructPath, hcf]
      rw [heq]
      refine ⟨List.getLast?_concat _, ?_, ?_, ⟨z, head?_append_left hz [p], hznone⟩⟩
      · rw [List.chain'_append]
        refine ⟨hchain, List.chain'_singleton p, ?_⟩
        intro a ha b hb
        have hb' : p = b := by simpa using hb
        rw [hlast] at ha
        have ha' : q = a := by simpa using ha
        rw [← hb', ← ha']
        exact hcf
      · intro x hx
        rcases List.mem_append.mp hx with h | h
        · rcases hmem x h with h' | h'
          · right
            exact ⟨p, by rw [h']; exact hcf⟩
          · exact Or.inr h'
        · left
          simpa using h

lemma closed_card_le {m : Maze} {s : Pos} {closed : List Pos} (hnd : closed.Nodup)
    (hb : ∀ p ∈ closed, p = s ∨ openCell m p) :
    closed.length ≤ (m.headD []).length * m.length + 1 := by
  have hsub : closed.toFinset ⊆
      insert s (boundsSet ((m.headD []).length : Int) (m.length : Int)) := by
    intro p hp
    rw [List.mem_toFinset] at hp
    rcases hb p hp with h | h
    · rw [h]
      exact Finset.mem_insert_self s _
    · refine Finset.mem_insert_of_mem ?_
      rw [mem_boundsSet_iff]
      exact ⟨h.1, h.2.1, h.2.2.1, h.2.2.2.1⟩
  have h1 : closed.toFinset.card = closed.length := List.toFinset_card_of_nodup hnd
  have h2 := Finset.card_le_card hsub
  have h3 := Finset.card_insert_le s
    (boundsSet ((m.headD []).length : Int) (m.length : Int))
  have h4 := boundsSet_card_le ((m.headD []).length : Int) (m.length : Int)
  have h5 : ((m.headD []).length : Int).toNat = (m.headD []).length := Int.toNat_natCast _
  have h6 : ((m.length : Int)).toNat = m.length := Int.toNat_natCast _
  rw [h5, h6] at h4
  omega

lemma findPathAux_cons (hsum : ℚ → Pos → ℚ) (m : Maze) (endPos : Pos) (fuel : Nat)
    (st : AState) (closed : List Pos) (h : Pos) (t : List Pos)
    (hopen : st.openSet = h :: t) :
    findPathAux hsum m endPos (fuel + 1) st closed =
      if (findLowest st.f 1 h 0 t).1 = endPos then
        some (some (reconstructPath st.cameFrom ((m.headD []).length * m.length + 2)
          (findLowest st.f 1 h 0 t).1))
      else
        findPathAux hsum m endPos fuel
          ((getValidAdjacentCells (findLowest st.f 1 h 0 t).1.x
              (findLowest st.f 1 h 0 t).1.y m).foldl
            (astarStepNeighbor hsum (findLowest st.f 1 h 0 t).1
              ((findLowest st.f 1 h 0 t).1 :: closed))
            { st with openSet := st.openSet.eraseIdx (findLowest st.f 1 h 0 t).2 })
          ((findLowest st.f 1 h 0 t).1 :: closed) := by
  rw [findPathAux, hopen]

lemma findLowest_mem_of_eq (f : Pos → Option ℚ) (l : List Pos) (h : Pos) (t : List Pos)
    (hl : l = h :: t) :
    ∃ hj : (findLowest f 1 h 0 t).2 < l.length,
      l.get ⟨(findLowest f 1 h 0 t).2, hj⟩ = (findLowest f 1 h 0 t).1 := by
  subst hl
  exact findLowest_mem f h t

lemma reach_mem_closed {m : Maze} {s e : Pos} {closed : List Pos} (hs : s ∈ closed)
    (hclosed : ∀ v ∈ closed, ∀ b, StepA m v b → b ∈ closed)
    (hreach : Relation.ReflTransGen (StepA m) s e) : e ∈ closed := by
  induction hreach with
  | refl => exact hs
  | tail hab hstep ih =>
    rename_i b c
    exact hclosed b ih c hstep

lemma findPathAux_some_props (hsum : ℚ → Pos → ℚ) (m : Maze) (s e : Pos) :
    ∀ (fuel : Nat) (st : AState) (closed : List Pos) (p : List Pos),
      AInv m s e st closed →
      findPathAux hsum m e fuel st closed = some (some p) →
      p.head? = some s ∧ p.getLast? = some e ∧ List.Chain' (StepA m) p := by
  intro fuel
  induction fuel with
  | zero =>
    intro st closed p _ hres
    simp [findPathAux] at hres
  | succ fuel ih =>
    intro st closed p hinv hres
    rcases hopen : st.openSet with _ | ⟨h, t⟩
    · rw [findPathAux, hopen] at hres
      simp at hres
    · obtain ⟨hjlt', hjget'⟩ := findLowest_mem_of_eq st.f st.openSet h t hopen
      rw [findPathAux_cons hsum m e fuel st closed h t hopen] at hres
      by_cases hend : (findLowest st.f 1 h 0 t).1 = e
      · rw [if_pos hend] at hres
        injection hres with hres
        injection hres with hres
        subst hres
        obtain ⟨rk, hbound, hedge⟩ := hinv.cf_rank
        have hlen := closed_card_le hinv.closed_nodup hinv.closed_bounds
        have hrkp : rk (findLowest st.f 1 h 0 t).1
            < (m.headD []).length * m.length + 2 := by
          have := hbound (findLowest st.f 1 h 0 t).1
          omega
        obtain ⟨hlast, hchain, hmembers, z, hz, hznone⟩ :=
          reconstructPath_spec st.cameFrom rk hedge _ _ hrkp
        have hcmem : (findLowest st.f 1 h 0 t).1 ∈ st.openSet := by
          rw [← hjget']
          exact List.get_mem _ _ _
        have hzmem : z ∈ reconstructPath st.cameFrom
            ((m.headD []).length * m.length + 2) (findLowest st.f 1 h 0 t).1 := by
          apply List.mem_of_mem_head?
          rw [hz]
          rfl
        have hzs : z = s := by
          rcases hmembers z hzmem with hzc | ⟨nn, hnn⟩
          · rcases hinv.open_origin _ hcmem with hss | hne2
            · rw [hzc]
              exact hss
            · rw [hzc] at hznone
              exact absurd hznone hne2
          · rcases (hinv.cf_props nn z hnn).2.2.1 with hss | hne2
            · exact hss
            · exact absurd hznone hne2
        refine ⟨?_, ?_, ?_⟩
        · rw [hz, hzs]
        · exact hlast.trans (by rw [hend])
        · exact hchain.imp
            (fun a b hab => ⟨(hinv.cf_props b a hab).1, (hinv.cf_props b a hab).2.1⟩)
      · rw [if_neg hend] at hres
        exact ih _ _ p (astar_outer_step hsum hinv hjlt' hjget' hend) hres

lemma findPathAux_none_unreach (hsum : ℚ → Pos → ℚ) (m : Maze) (s e : Pos) :
    ∀ (fuel : Nat) (st : AState) (closed : List Pos),
      AInv m s e st closed →
      findPathAux hsum m e fuel st closed = some none →
      ¬ Relation.ReflTransGen (StepA m) s e := by
  intro fuel
  induction fuel with
  | zero =>
    intro st closed _ hres
    simp [findPathAux] at hres
  | succ fuel ih =>
    intro st closed hinv hres
    rcases hopen : st.openSet with _ | ⟨h, t⟩
    · intro hreach
      have hscl : s ∈ closed := by
        rcases hinv.start_somewhere with h' | h'
        · exact h'
        · rw [hopen] at h'
          exact absurd h' (List.not_mem_nil s)
      have hclosed : ∀ v ∈ closed, ∀ b, StepA m v b → b ∈ closed := by
        intro v hv b hb
        rcases hinv.closure v hv b hb with h' | h'
        · exact h'
        · rw [hopen] at h'
          exact absurd h' (List.not_mem_nil b)
      exact hinv.closed_e (reach_mem_closed hscl hclosed hreach)
    · obtain ⟨hjlt', hjget'⟩ := findLowest_mem_of_eq st.f st.openSet h t hopen
      rw [findPathAux_cons hsum m e fuel st closed h t hopen] at hres
      by_cases hend : (findLowest st.f 1 h 0 t).1 = e
      · rw [if_pos hend] at hres
        simp at hres
      · rw [if_neg hend] at hres
        exact ih _ _ (astar_outer_step hsum hinv hjlt' hjget' hend) hres

lemma findPathAux_enough (hsum : ℚ → Pos → ℚ) (m : Maze) (s e : Pos) :
    ∀ (fuel : Nat) (st : AState) (closed : List Pos),
      AInv m s e st closed →
      (m.headD []).length * m.length + 2 - closed.length ≤ fuel →
      findPathAux hsum m e fuel st closed ≠ none := by
  intro fuel
  induction fuel with
  | zero =>
    intro st closed hinv hfuel
    exfalso
    have := closed_card_le hinv.closed_nodup hinv.closed_bounds
    omega
  | succ fuel ih =>
    intro st closed hinv hfuel
    rcases hopen : st.openSet with _ | ⟨h, t⟩
    · intro hcontra
      rw [findPathAux, hopen] at hcontra
      simp at hcontra
    · intro hcontra
      rw [findPathAux_cons hsum m e fuel st closed h t hopen] at hcontra
      by_cases hend : (findLowest st.f 1 h 0 t).1 = e
      · rw [if_pos hend] at hcontra
        simp at hcontra
      · rw [if_neg hend] at hcontra
        obtain ⟨hjlt', hjget'⟩ := findLowest_mem_of_eq st.f st.openSet h t hopen
        exact ih _ _ (astar_outer_step hsum hinv hjlt' hjget' hend)
          (by simp only [List.length_cons]; omega) hcontra

lemma astarInit_inv (hsum : ℚ → Pos → ℚ) (m : Maze) (s e : Pos) :
    AInv m s e
      { openSet := [s]
        cameFrom := fun _ => none
        g := fun p => if p = s then some 0 else none
        f := fun p => if p = s then some (hsum 0 s) else none }
      [] := by
  refine ⟨?_, ?_, ?_, ?_, ?_, ?_, ?_, ?_, ?_, ?_, ?_, ?_, ?_, ?_⟩
  · exact List.nodup_singleton s
  · intro p _
    exact List.not_mem_nil p
  · intro p hp
    left
    simpa using hp
  · intro p hp
    left
    simpa using hp
  · intro p hp
    have hps : p = s := by simpa using hp
    subst hps
    exact ⟨0, by simp, le_refl 0⟩
  · intro n q hq
    exact absurd hq (by simp)
  · exact ⟨fun _ => 0, fun p => Nat.le_refl 0, fun n q hq => absurd hq (by simp)⟩
  · simp
  · rfl
  · exact Or.inr (List.mem_singleton_self s)
  · exact List.nodup_nil
  · intro p hp
    exact absurd hp (List.not_mem_nil p)
  · exact List.not_mem_nil e
  · intro v hv
    exact absurd hv (List.not_mem_nil v)

lemma findPath_eq (hsum : ℚ → Pos → ℚ) (m : Maze) (s e : Pos) :
    MazePuzzle.findPath hsum m s e =
      (findPathAux hsum m e ((m.headD []).length * m.length + 2)
        { openSet := [s]
          cameFrom := fun _ => none
          g := fun p => if p = s then some 0 else none
          f := fun p => if p = s then some (hsum 0 s) else none } []).getD none := rfl

lemma findPath_top_ne_none (hsum : ℚ → Pos → ℚ) (m : Maze) (s e : Pos) :
    findPathAux hsum m e ((m.headD []).length * m.length + 2)
      { openSet := [s]
        cameFrom := fun _ => none
        g := fun p => if p = s then some 0 else none
        f := fun p => if p = s then some (hsum 0 s) else none } [] ≠ none :=
  findPathAux_enough hsum m s e _ _ [] (astarInit_inv hsum m s e) (by omega)

lemma findPath_some_iff (hsum : ℚ → Pos → ℚ) (m : Maze) (s e : Pos) (p : List Pos) :
    MazePuzzle.findPath hsum m s e = some p ↔
      findPathAux hsum m e ((m.headD []).length * m.length + 2)
        { openSet := [s]
          cameFrom := fun _ => none
          g := fun q => if q = s then some 0 else none
          f := fun q => if q = s then some (hsum 0 s) else none } [] = some (some p) := by
  rw [findPath_eq]
  rcases hr : findPathAux hsum m e ((m.headD []).length * m.length + 2)
      { openSet := [s]
        cameFrom := fun _ => none
        g := fun q => if q = s then some 0 else none
        f := fun q => if q = s then some (hsum 0 s) else none } [] with _ | r
  · exact absurd hr (findPath_top_ne_none hsum m s e)
  · simp

lemma findPath_none_iff_unreach (hsum : ℚ → Pos → ℚ) (m : Maze) (s e : Pos) :
    MazePuzzle.findPath hsum m s e = none ↔
      ¬ Relation.ReflTransGen (StepA m) s e := by
  rw [findPath_eq]
  rcases hr : findPathAux hsum m e ((m.headD []).length * m.length + 2)
      { openSet := [s]
        cameFrom := fun _ => none
        g := fun q => if q = s then some 0 else none
        f := fun q => if q = s then some (hsum 0 s) else none } [] with _ | r
  · exact absurd hr (findPath_top_ne_none hsum m s e)
  · rcases r with _ | q
    · simp only [Option.getD_some]
      constructor
      · intro _
        exact findPathAux_none_unreach hsum m s e _ _ _ (astarInit_inv hsum m s e) hr
      · intro _
        trivial
    · simp only [Option.getD_some]
      constructor
      · intro hcontra
        exact absurd hcontra (by simp)
      · intro hunreach
        exfalso
        obtain ⟨hh, hl, hc⟩ :=
          findPathAux_some_props hsum m s e _ _ _ q (astarInit_inv hsum m s e) hr
        exact hunreach (walk_to_reach q s e hh hl hc)

lemma findPath_nonwall {hsum : ℚ → Pos → ℚ} {m : Maze} {s e : Pos} {p : List Pos}
    (hs : cellAt m s = some Cell.START)
    (hp : MazePuzzle.findPath hsum m s e = some p) : NonWallWalk m s e p := by
  rw [findPath_some_iff] at hp
  obtain ⟨hh, hl, hc⟩ :=
    findPathAux_some_props hsum m s e _ _ _ p (astarInit_inv hsum m s e) hp
  refine ⟨hh, hl, hc.imp (fun a b hab => hab.1), ?_⟩
  intro x hx
  rcases chain'_head_cases p s x hc hh hx with h | ⟨a, ha⟩
  · subst h
    exact ⟨Cell.START, hs, by decide⟩
  · rcases ha.2.2.2.2.2 with h | h | h
    · exact ⟨Cell.PATH, h, by decide⟩
    · exact ⟨Cell.START, h, by decide⟩
    · exact ⟨Cell.END, h, by decide⟩

lemma wf_dims {m : Maze} {W H : Int} (hWF : MazeWF m W H) (hm : m ≠ []) :
    ((m.headD []).length : Int) = W ∧ ((m.length : Int)) = H := by
  refine ⟨?_, hWF.1⟩
  cases m with
  | nil => exact absurd rfl hm
  | cons r rest => exact hWF.2 r (List.mem_cons_self r rest)

lemma cellAt_maze_ne_nil {m : Maze} {p : Pos} {c : Cell}
    (h : cellAt m p = some c) : m ≠ [] := by
  intro hm
  subst hm
  unfold cellAt at h
  by_cases hnn : 0 ≤ p.y ∧ 0 ≤ p.x
  · rw [if_pos hnn] at h
    simp at h
  · rw [if_neg hnn] at h
    simp at h

lemma openCell_of_cell {m : Maze} {W H : Int} {p : Pos} (hWF : MazeWF m W H)
    (h : cellAt m p = some Cell.PATH ∨ cellAt m p = some Cell.START ∨
      cellAt m p = some Cell.END) :
    openCell m p := by
  have hsome : ∃ c, cellAt m p = some c := by
    rcases h with h | h | h
    exacts [⟨_, h⟩, ⟨_, h⟩, ⟨_, h⟩]
  obtain ⟨c, hc⟩ := hsome
  obtain ⟨hd1, hd2⟩ := wf_dims hWF (cellAt_maze_ne_nil hc)
  obtain ⟨h1, h2, h3, h4⟩ := cellAt_isSome_bounds hWF hc
  refine ⟨h1, ?_, h3, ?_, h⟩
  · rw [hd1]
    exact h2
  · rw [hd2]
    exact h4

lemma openCell_of_pass {m : Maze} {W H : Int} {p : Pos} (hWF : MazeWF m W H)
    (h : PassB m W H p) : openCell m p := by
  refine openCell_of_cell hWF ?_
  rcases h.2.2.2.2 with h' | h'
  · exact Or.inl h'
  · exact Or.inr (Or.inr h')

lemma reachA_iff_reachB {m : Maze} {W H : Int} {s e : Pos} (hWF : MazeWF m W H)
    (hs : cellAt m s = some Cell.START)
    (huniq : ∀ p, cellAt m p = some Cell.START → p = s) :
    Relation.ReflTransGen (StepA m) s e ↔
      Relation.ReflTransGen (StepB m W H) s e := by
  constructor
  · intro h
    obtain ⟨l, hh, hl, hc⟩ := reach_to_walk s e h
    have hnw : NonWallWalk m s e l := by
      refine ⟨hh, hl, hc.imp (fun a b hab => hab.1), ?_⟩
      intro x hx
      rcases chain'_head_cases l s x hc hh hx with hxs | ⟨a, ha⟩
      · subst hxs
        exact ⟨Cell.START, hs, by decide⟩
      · rcases ha.2.2.2.2.2 with h' | h' | h'
        · exact ⟨Cell.PATH, h', by decide⟩
        · exact ⟨Cell.START, h', by decide⟩
        · exact ⟨Cell.END, h', by decide⟩
    obtain ⟨q', hbw, _⟩ := nonwall_to_bwalk hWF huniq l hnw
    exact walk_to_reach q' s e hbw.1 hbw.2.1 hbw.2.2
  · intro h
    exact Relation.ReflTransGen.mono
      (fun a b hab => ⟨hab.1, openCell_of_pass hWF hab.2⟩) h

lemma findSolution_none_iff_unreach (m : Maze) (W H : Int) (s e : Pos) :
    MazeGenerator.findSolution m W H (some s) (some e) = none ↔
      ¬ Relation.ReflTransGen (StepB m W H) s e := by
  rw [findSolution_none_iff]
  constructor
  · intro hnone
    exact findSolutionAux_none_unreach _ _ _ (bfsInit_inv m W H s e) hnone
  · intro hunreach
    rcases hr : findSolutionAux m W H e (W.toNat * H.toNat + 2) [(s, [s])] [s] with _ | r
    · exact absurd hr (findSolution_top_ne_none m W H s e)
    · rcases r with _ | p
      · rfl
      · exfalso
        obtain ⟨h1, h2, h3⟩ :=
          findSolutionAux_some_props _ _ _ p (bfsInit_inv m W H s e) hr
        exact hunreach (walk_to_reach p s e h1 h2 h3)

lemma demoMaze_wf : MazeWF demoMaze 3 1 := by
  refine ⟨by decide, ?_⟩
  intro row hrow
  have hr : row = [Cell.START, Cell.PATH, Cell.END] := by
    simpa [demoMaze] using hrow
  subst hr
  decide

lemma demoMaze_uniq : ∀ p, cellAt demoMaze p = some Cell.START → p = ⟨0, 0⟩ := by
  intro p hp
  have hWF : MazeWF demoMaze 3 1 := demoMaze_wf
  obtain ⟨h1, h2, h3, h4⟩ := cellAt_isSome_bounds hWF hp
  obtain ⟨px, py⟩ := p
  dsimp only at h1 h2 h3 h4
  have hx : px = 0 ∨ px = 1 ∨ px = 2 := by omega
  have hy : py = 0 := by omega
  subst hy
  rcases hx with h | h | h <;> subst h
  · rfl
  · exact absurd hp (by decide)
  · exact absurd hp (by decide)

/-- C1: for a well-formed grid whose designated start and end carry the
`Start` and `End` cells, each solver — BFS (`MazeGenerator.findSolution`)
and A* (`MazePuzzle.findPath`, for every heuristic oracle) — returns either
null or a path whose first element is the start, whose last element is the
end, in which every consecutive pair is Manhattan-adjacent (distance
exactly 1), and which contains no position whose cell is `Wall`. -/
theorem C1_solver_path_wf (m : Maze) (W H : Int) (s e : Pos) (hsum : ℚ → Pos → ℚ)
    (_hWF : MazeWF m W H) (hs : cellAt m s = some Cell.START)
    (_he : cellAt m e = some Cell.END) :
    (∀ p, MazeGenerator.findSolution m W H (some s) (some e) = some p →
      NonWallWalk m s e p) ∧
    (∀ p, MazePuzzle.findPath hsum m s e = some p → NonWallWalk m s e p) := by
  constructor
  · intro p hp
    rw [findSolution_some_iff] at hp
    obtain ⟨h1, h2, h3⟩ :=
      findSolutionAux_some_props _ _ _ p (bfsInit_inv m W H s e) hp
    exact bwalk_to_nonwall hs ⟨h1, h2, h3⟩
  · intro p hp
    exact findPath_nonwall hs hp

theorem C1_solver_path_wf_witness :
    MazeGenerator.findSolution demoMaze 3 1 (some ⟨0, 0⟩) (some ⟨2, 0⟩)
        = some [⟨0, 0⟩, ⟨1, 0⟩, ⟨2, 0⟩] ∧
    NonWallWalk demoMaze ⟨0, 0⟩ ⟨2, 0⟩ [⟨0, 0⟩, ⟨1, 0⟩, ⟨2, 0⟩] := by
  have hbfs : MazeGenerator.findSolution demoMaze 3 1 (some ⟨0, 0⟩) (some ⟨2, 0⟩)
      = some [⟨0, 0⟩, ⟨1, 0⟩, ⟨2, 0⟩] := by decide
  refine ⟨hbfs, ?_⟩
  exact (C1_solver_path_wf demoMaze 3 1 ⟨0, 0⟩ ⟨2, 0⟩ (fun g _ => g)
    demoMaze_wf (by decide) (by decide)).1 _ hbfs

theorem C2_bfs_shortest_witness :
    NonWallWalk demoMaze ⟨0, 0⟩ ⟨2, 0⟩ [⟨0, 0⟩, ⟨1, 0⟩, ⟨2, 0⟩] ∧
    ∀ q, NonWallWalk demoMaze ⟨0, 0⟩ ⟨2, 0⟩ q → 3 ≤ q.length := by
  have h := (C2_bfs_shortest demoMaze 3 1 ⟨0, 0⟩ ⟨2, 0⟩ demoMaze_wf (by decide)
    (by decide) demoMaze_uniq).1 [⟨0, 0⟩, ⟨1, 0⟩, ⟨2, 0⟩] (by decide)
  refine ⟨h.1, ?_⟩
  intro q hq
  have := h.2 q hq
  simpa using this

/-- C3: for a well-formed grid with a unique designated `Start` cell and a
designated `End` cell, the BFS solver returns a non-null path if and only
if the A* solver (for every heuristic oracle) returns a non-null path:
both agree on reachability. -/
theorem C3_reachability_agreement (m : Maze) (W H : Int) (s e : Pos)
    (hsum : ℚ → Pos → ℚ) (hWF : MazeWF m W H)
    (hs : cellAt m s = some Cell.START) (_he : cellAt m e = some Cell.END)
    (huniq : ∀ p, cellAt m p = some Cell.START → p = s) :
    (∃ p, MazeGenerator.findSolution m W H (some s) (some e) = some p) ↔
      (∃ q, MazePuzzle.findPath hsum m s e = some q) := by
  have h1 := findSolution_none_iff_unreach m W H s e
  have h2 := findPath_none_iff_unreach hsum m s e
  have h3 : Relation.ReflTransGen (StepA m) s e ↔
      Relation.ReflTransGen (StepB m W H) s e := reachA_iff_reachB hWF hs huniq
  constructor
  · rintro ⟨p, hp⟩
    have hreachB : Relation.ReflTransGen (StepB m W H) s e := by
      by_contra hn
      rw [h1.mpr hn] at hp
      exact absurd hp (by simp)
    have hreachA : Relation.ReflTransGen (StepA m) s e := h3.mpr hreachB
    rcases hfp : MazePuzzle.findPath hsum m s e with _ | q
    · exact absurd hreachA (h2.mp hfp)
    · exact ⟨q, rfl⟩
  · rintro ⟨q, hq⟩
    have hreachA : Relation.ReflTransGen (StepA m) s e := by
      by_contra hn
      rw [h2.mpr hn] at hq
      exact absurd hq (by simp)
    have hreachB : Relation.ReflTransGen (StepB m W H) s e := h3.mp hreachA
    rcases hfs : MazeGenerator.findSolution m W H (some s) (some e) with _ | p
    · exact absurd hreachB (h1.mp hfs)
    · exact ⟨p, rfl⟩

theorem C3_reachability_agreement_witness :
    ∃ q, MazePuzzle.findPath (fun g _ => g) demoMaze ⟨0, 0⟩ ⟨2, 0⟩ = some q :=
  (C3_reachability_agreement demoMaze 3 1 ⟨0, 0⟩ ⟨2, 0⟩ (fun g _ => g)
    demoMaze_wf (by decide) (by decide) demoMaze_uniq).mp
    ⟨[⟨0, 0⟩, ⟨1, 0⟩, ⟨2, 0⟩], by decide⟩

lemma mem_of_getElem? {m : Maze} {i : Nat} {row : List Cell}
    (h : m[i]? = some row) : row ∈ m := by
  obtain ⟨hh, hget⟩ := List.getElem?_eq_some_iff.mp h
  exact hget ▸ List.getElem_mem hh

lemma cellAt_setCell_self {m : Maze} {p : Pos} {c0 : Cell}
    (h : cellAt m p = some c0) (c : Cell) : cellAt (setCell m p c) p = some c := by
  unfold cellAt setCell at *
  by_cases hnn : 0 ≤ p.y ∧ 0 ≤ p.x
  · rw [if_pos hnn] at h ⊢
    rcases hrow : m[p.y.toNat]? with _ | row
    · rw [hrow] at h
      simp at h
    · rw [hrow] at h
      replace h : row[p.x.toNat]? = some c0 := h
      have hylt : p.y.toNat < m.length := (List.getElem?_eq_some_iff.mp hrow).1
      have hxlt : p.x.toNat < row.length := (List.getElem?_eq_some_iff.mp h).1
      dsimp only
      rw [if_pos hnn, List.getElem?_set_self hylt]
      show (row.set p.x.toNat c)[p.x.toNat]? = some c
      exact List.getElem?_set_self hxlt
  · rw [if_neg hnn] at h
    simp at h

lemma cellAt_setCell_ne {m : Maze} {p q : Pos} (hne : q ≠ p) (c : Cell) :
    cellAt (setCell m p c) q = cellAt m q := by
  unfold cellAt setCell
  by_cases hp : 0 ≤ p.y ∧ 0 ≤ p.x
  · rw [if_pos hp]
    rcases hrow : m[p.y.toNat]? with _ | row
    · rfl
    · dsimp only
      by_cases hq : 0 ≤ q.y ∧ 0 ≤ q.x
      · rw [if_pos hq, if_pos hq]
        by_cases hyy : q.y.toNat = p.y.toNat
        · have hy : q.y = p.y := by omega
          have hx : q.x ≠ p.x := by
            intro hx
            apply hne
            obtain ⟨qx, qy⟩ := q
            obtain ⟨px, py⟩ := p
            dsimp only at hx hy
            rw [hx, hy]
          have hylt : p.y.toNat < m.length := (List.getElem?_eq_some_iff.mp hrow).1
          rw [hyy, List.getElem?_set_self hylt, hrow]
          show (row.set p.x.toNat c)[q.x.toNat]? = row[q.x.toNat]?
          exact List.getElem?_set_ne (by omega)
        · rw [List.getElem?_set_ne (fun hh => hyy hh.symm)]
      · rw [if_neg hq, if_neg hq]
  · rw [if_neg hp]

lemma cellAt_setCellPath_persist {m : Maze} {p w : Pos}
    (h : cellAt m p = some Cell.PATH) :
    cellAt (setCell m w Cell.PATH) p = some Cell.PATH := by
  by_cases hpw : p = w
  · subst hpw
    exact cellAt_setCell_self h Cell.PATH
  · rw [cellAt_setCell_ne hpw]
    exact h

lemma cellAt_some_of_WF {m : Maze} {W H : Int} (hWF : MazeWF m W H) {p : Pos}
    (h1 : 0 ≤ p.x) (h2 : p.x < W) (h3 : 0 ≤ p.y) (h4 : p.y < H) :
    ∃ c, cellAt m p = some c := by
  unfold cellAt
  rw [if_pos ⟨h3, h1⟩]
  have hml := hWF.1
  have hy : p.y.toNat < m.length := by omega
  rcases hrow : m[p.y.toNat]? with _ | row
  · rw [List.getElem?_eq_none_iff] at hrow
    omega
  · have hrl := hWF.2 row (mem_of_getElem? hrow)
    have hx : p.x.toNat < row.length := by omega
    rcases hcell : row[p.x.toNat]? with _ | cc
    · rw [List.getElem?_eq_none_iff] at hcell
      omega
    · exact ⟨cc, hcell⟩

lemma setCell_WF {m : Maze} {W H : Int} (hWF : MazeWF m W H) (p : Pos) (c : Cell) :
    MazeWF (setCell m p c) W H := by
  unfold setCell
  by_cases hp : 0 ≤ p.y ∧ 0 ≤ p.x
  · rw [if_pos hp]
    rcases hrow : m[p.y.toNat]? with _ | row
    · exact hWF
    · constructor
      · simp only [List.length_set]
        exact hWF.1
      · intro r hr
        rcases List.mem_or_eq_of_mem_set hr with h | h
        · exact hWF.2 r h
        · subst h
          simp only [List.length_set]
          exact hWF.2 row (mem_of_getElem? hrow)
  · rw [if_neg hp]
    exact hWF

lemma replicate_WF (W H : Int) (hW : 0 ≤ W) (hH : 0 ≤ H) :
    MazeWF (List.replicate H.toNat (List.replicate W.toNat Cell.WALL)) W H := by
  constructor
  · simp only [List.length_replicate]
    omega
  · intro row hrow
    rw [List.eq_of_mem_replicate hrow]
    simp only [List.length_replicate]
    omega

lemma cellAt_replicate {W H : Int} {p : Pos} (h1 : 0 ≤ p.x) (h2 : p.x < W)
    (h3 : 0 ≤ p.y) (h4 : p.y < H) :
    cellAt (List.replicate H.toNat (List.replicate W.toNat Cell.WALL)) p
      = some Cell.WALL := by
  unfold cellAt
  rw [if_pos ⟨h3, h1⟩]
  rw [List.getElem?_replicate, if_pos (by omega)]
  show (List.replicate W.toNat Cell.WALL)[p.x.toNat]? = some Cell.WALL
  rw [List.getElem?_replicate, if_pos (by omega)]

lemma interior_bounds {W H : Int} {p : Pos} (h : interiorP W H p) :
    0 ≤ p.x ∧ p.x < W ∧ 0 ≤ p.y ∧ p.y < H := by
  obtain ⟨a, b, c, d⟩ := h
  exact ⟨by omega, by omega, by omega, by omega⟩

lemma interior_not_border {W H : Int} {p : Pos} (h : interiorP W H p) :
    ¬ (p.x = 0 ∨ p.x = W - 1 ∨ p.y = 0 ∨ p.y = H - 1) := by
  obtain ⟨a, b, c, d⟩ := h
  rintro (hb | hb | hb | hb) <;> omega

lemma getUnvisitedNeighbors_sub {m : Maze} {W H : Int} (hWF : MazeWF m W H)
    (hm : m ≠ []) (x y : Int) :
    ∀ n ∈ getUnvisitedNeighbors x y m,
      interiorP W H n ∧ cellAt m n = some Cell.WALL ∧
      ((n.x = x ∧ (n.y = y - 2 ∨ n.y = y + 2)) ∨
       (n.y = y ∧ (n.x = x - 2 ∨ n.x = x + 2))) := by
  intro n hn
  obtain ⟨hw, hh⟩ := wf_dims hWF hm
  unfold getUnvisitedNeighbors at hn
  simp only [List.foldl_cons, List.foldl_nil] at hn
  rw [mem_condAppend, mem_condAppend, mem_condAppend, mem_condAppend] at hn
  simp only [List.not_mem_nil, false_or] at hn
  rw [hw, hh] at hn
  rcases hn with ((⟨hc, hb⟩ | ⟨hc, hb⟩) | ⟨hc, hb⟩) | ⟨hc, hb⟩ <;> subst hb <;>
    obtain ⟨h1, h2, h3, h4, h5⟩ := hc
  · exact ⟨⟨h1, h2, h3, h4⟩, h5, Or.inl ⟨by dsimp only; try omega,
      Or.inl (by dsimp only; try omega)⟩⟩
  · exact ⟨⟨h1, h2, h3, h4⟩, h5, Or.inr ⟨by dsimp only; try omega,
      Or.inr (by dsimp only; try omega)⟩⟩
  · exact ⟨⟨h1, h2, h3, h4⟩, h5, Or.inl ⟨by dsimp only; try omega,
      Or.inr (by dsimp only; try omega)⟩⟩
  · exact ⟨⟨h1, h2, h3, h4⟩, h5, Or.inr ⟨by dsimp only; try omega,
      Or.inl (by dsimp only; try omega)⟩⟩

lemma wall_interior {W H : Int} {cur n : Pos} (hcur : interiorP W H cur)
    (hint : interiorP W H n)
    (hoff : (n.x = cur.x ∧ (n.y = cur.y - 2 ∨ n.y = cur.y + 2)) ∨
            (n.y = cur.y ∧ (n.x = cur.x - 2 ∨ n.x = cur.x + 2))) :
    interiorP W H ⟨cur.x + (n.x - cur.x) / 2, cur.y + (n.y - cur.y) / 2⟩ := by
  obtain ⟨a1, a2, a3, a4⟩ := hcur
  obtain ⟨b1, b2, b3, b4⟩ := hint
  rcases hoff with ⟨hx, hy | hy⟩ | ⟨hy, hx | hx⟩
  · have e1 : (n.x - cur.x) / 2 = 0 := by rw [hx]; simp
    have e2 : (n.y - cur.y) / 2 = -1 := by
      have hd : n.y - cur.y = -2 := by omega
      rw [hd]
      decide
    rw [e1, e2]
    exact ⟨by dsimp only; omega, by dsimp only; omega, by dsimp only; omega,
      by dsimp only; omega⟩
  · have e1 : (n.x - cur.x) / 2 = 0 := by rw [hx]; simp
    have e2 : (n.y - cur.y) / 2 = 1 := by
      have hd : n.y - cur.y = 2 := by omega
      rw [hd]
      decide
    rw [e1, e2]
    exact ⟨by dsimp only; omega, by dsimp only; omega, by dsimp only; omega,
      by dsimp only; omega⟩
  · have e1 : (n.x - cur.x) / 2 = -1 := by
      have hd : n.x - cur.x = -2 := by omega
      rw [hd]
      decide
    have e2 : (n.y - cur.y) / 2 = 0 := by rw [hy]; simp
    rw [e1, e2]
    exact ⟨by dsimp only; omega, by dsimp only; omega, by dsimp only; omega,
      by dsimp only; omega⟩
  · have e1 : (n.x - cur.x) / 2 = 1 := by
      have hd : n.x - cur.x = 2 := by omega
      rw [hd]
      decide
    have e2 : (n.y - cur.y) / 2 = 0 := by rw [hy]; simp
    rw [e1, e2]
    exact ⟨by dsimp only; omega, by dsimp only; omega, by dsimp only; omega,
      by dsimp only; omega⟩

lemma genstep_inv {W H : Int} {m : Maze} (hinv : GenInv W H m) {a b : Pos}
    (ha : interiorP W H a) (hb : interiorP W H b) :
    GenInv W H (setCell (setCell m a Cell.PATH) b Cell.PATH) := by
  obtain ⟨hWF, hkinds, hborder⟩ := hinv
  refine ⟨setCell_WF (setCell_WF hWF a _) b _, ?_, ?_⟩
  · intro p c hc
    by_cases hpb : p = b
    · subst hpb
      obtain ⟨i1, i2, i3, i4⟩ := interior_bounds hb
      obtain ⟨c0, hc0⟩ := cellAt_some_of_WF (setCell_WF hWF a Cell.PATH) i1 i2 i3 i4
      rw [cellAt_setCell_self hc0] at hc
      injection hc with hc
      exact Or.inr hc.symm
    · rw [cellAt_setCell_ne hpb] at hc
      by_cases hpa : p = a
      · subst hpa
        obtain ⟨i1, i2, i3, i4⟩ := interior_bounds ha
        obtain ⟨c0, hc0⟩ := cellAt_some_of_WF hWF i1 i2 i3 i4
        rw [cellAt_setCell_self hc0] at hc
        injection hc with hc
        exact Or.inr hc.symm
      · rw [cellAt_setCell_ne hpa] at hc
        exact hkinds p c hc
  · intro p c hc hbord
    have hpb : p ≠ b := fun h => interior_not_border hb (h ▸ hbord)
    have hpa : p ≠ a := fun h => interior_not_border ha (h ▸ hbord)
    rw [cellAt_setCell_ne hpb, cellAt_setCell_ne hpa] at hc
    exact hborder p c hc hbord

lemma generateMazeAux_inv (rng : Nat → Nat) {W H : Int} :
    ∀ (fuel t : Nat) (stack : List Pos) (m : Maze),
      GenInv W H m → (∀ p ∈ stack, interiorP W H p) →
      GenInv W H (generateMazeAux rng fuel t stack m) := by
  intro fuel
  induction fuel with
  | zero =>
    intro t stack m hinv _
    exact hinv
  | succ fuel ih =>
    intro t stack m hinv hstack
    cases stack with
    | nil => exact hinv
    | cons current rest =>
      rw [generateMazeAux]
      by_cases hn : 0 < (getUnvisitedNeighbors current.x current.y m).length
      · rw [dif_pos hn]
        have hm : m ≠ [] := by
          have h1 := hinv.1.1
          obtain ⟨i1, i2, i3, i4⟩ :=
            interior_bounds (hstack current (List.mem_cons_self _ _))
          intro h
          subst h
          simp only [List.length_nil, Nat.cast_zero] at h1
          omega
        have hcur : interiorP W H current := hstack current (List.mem_cons_self _ _)
        have hmem : (getUnvisitedNeighbors current.x current.y m).get
            ⟨rng t % (getUnvisitedNeighbors current.x current.y m).length,
              Nat.mod_lt _ hn⟩ ∈ getUnvisitedNeighbors current.x current.y m :=
          List.get_mem _ _ _
        obtain ⟨hni, hnc, hnoff⟩ :=
          getUnvisitedNeighbors_sub hinv.1 hm current.x current.y _ hmem
        apply ih
        · exact genstep_inv hinv (wall_interior hcur hni hnoff) hni
        · intro p hp
          rcases List.mem_cons.mp hp with h | h
          · exact h ▸ hni
          · exact hstack p h
      · rw [dif_neg hn]
        exact ih t rest m hinv (fun p hp => hstack p (List.mem_cons_of_mem _ hp))

lemma generateMazeAux_persist (rng : Nat → Nat) :
    ∀ (fuel t : Nat) (stack : List Pos) (m : Maze) (p : Pos),
      cellAt m p = some Cell.PATH →
      cellAt (generateMazeAux rng fuel t stack m) p = some Cell.PATH := by
  intro fuel
  induction fuel with
  | zero =>
    intro t stack m p h
    exact h
  | succ fuel ih =>
    intro t stack m p h
    cases stack with
    | nil => exact h
    | cons current rest =>
      rw [generateMazeAux]
      by_cases hn : 0 < (getUnvisitedNeighbors current.x current.y m).length
      · rw [dif_pos hn]
        exact ih _ _ _ p (cellAt_setCellPath_persist (cellAt_setCellPath_persist h))
      · rw [dif_neg hn]
        exact ih _ _ _ p h

lemma cellAt_replicate_eq {W H : Int} {p : Pos} {c : Cell}
    (h : cellAt (List.replicate H.toNat (List.replicate W.toNat Cell.WALL)) p = some c) :
    c = Cell.WALL := by
  unfold cellAt at h
  by_cases hnn : 0 ≤ p.y ∧ 0 ≤ p.x
  · rw [if_pos hnn, List.getElem?_replicate] at h
    by_cases hy : p.y.toNat < H.toNat
    · rw [if_pos hy] at h
      replace h : (List.replicate W.toNat Cell.WALL)[p.x.toNat]? = some c := h
      rw [List.getElem?_replicate] at h
      by_cases hx : p.x.toNat < W.toNat
      · rw [if_pos hx] at h
        injection h with h
        exact h.symm
      · rw [if_neg hx] at h
        exact absurd h (by simp)
    · rw [if_neg hy] at h
      exact absurd h (by simp)
  · rw [if_neg hnn] at h
    exact absurd h (by simp)

lemma replicate_genInv (W H : Int) (hW : 0 ≤ W) (hH : 0 ≤ H) :
    GenInv W H (List.replicate H.toNat (List.replicate W.toNat Cell.WALL)) := by
  refine ⟨replicate_WF W H hW hH, ?_, ?_⟩
  · intro p c hc
    exact Or.inl (cellAt_replicate_eq hc)
  · intro p c hc _
    exact cellAt_replicate_eq hc

lemma genstep1_inv {W H : Int} {m : Maze} (hinv : GenInv W H m) {b : Pos}
    (hb : interiorP W H b) : GenInv W H (setCell m b Cell.PATH) := by
  obtain ⟨hWF, hkinds, hborder⟩ := hinv
  refine ⟨setCell_WF hWF b _, ?_, ?_⟩
  · intro p c hc
    by_cases hpb : p = b
    · subst hpb
      obtain ⟨i1, i2, i3, i4⟩ := interior_bounds hb
      obtain ⟨c0, hc0⟩ := cellAt_some_of_WF hWF i1 i2 i3 i4
      rw [cellAt_setCell_self hc0] at hc
      injection hc with hc
      exact Or.inr hc.symm
    · rw [cellAt_setCell_ne hpb] at hc
      exact hkinds p c hc
  · intro p c hc hbord
    have hpb : p ≠ b := fun h => interior_not_border hb (h ▸ hbord)
    rw [cellAt_setCell_ne hpb] at hc
    exact hborder p c hc hbord

lemma carve_then (rng : Nat → Nat) {W H : Int} (fuel t : Nat) {m1 : Maze} {cur : Pos}
    (hinv1 : GenInv W H m1) (hcur : interiorP W H cur) (rest : List Pos)
    (hrest : ∀ p ∈ rest, interiorP W H p)
    (hn : 0 < (getUnvisitedNeighbors cur.x cur.y m1).length)
    (hm1ne : m1 ≠ []) :
    GenInv W H (generateMazeAux rng (fuel + 1) t (cur :: rest) m1) ∧
    (∀ p, cellAt m1 p = some Cell.PATH →
      cellAt (generateMazeAux rng (fuel + 1) t (cur :: rest) m1) p = some Cell.PATH) ∧
    ∃ q, cellAt m1 q = some Cell.WALL ∧
      cellAt (generateMazeAux rng (fuel + 1) t (cur :: rest) m1) q = some Cell.PATH := by
  rw [generateMazeAux, dif_pos hn]
  set n := (getUnvisitedNeighbors cur.x cur.y m1).get
    ⟨rng t % (getUnvisitedNeighbors cur.x cur.y m1).length, Nat.mod_lt _ hn⟩ with hndef
  have hmem : n ∈ getUnvisitedNeighbors cur.x cur.y m1 := by
    rw [hndef]
    exact List.get_mem _ _ _
  obtain ⟨hni, hnc, hnoff⟩ := getUnvisitedNeighbors_sub hinv1.1 hm1ne cur.x cur.y n hmem
  have hsome2 : ∃ c0, cellAt (setCell m1
      ⟨cur.x + (n.x - cur.x) / 2, cur.y + (n.y - cur.y) / 2⟩ Cell.PATH) n = some c0 := by
    by_cases hnw : n = (⟨cur.x + (n.x - cur.x) / 2, cur.y + (n.y - cur.y) / 2⟩ : Pos)
    · refine ⟨Cell.PATH, ?_⟩
      rw [← hnw]
      exact cellAt_setCell_self hnc Cell.PATH
    · rw [cellAt_setCell_ne hnw]
      exact ⟨Cell.WALL, hnc⟩
  obtain ⟨c0, hc0⟩ := hsome2
  refine ⟨?_, ?_, ⟨n, hnc, ?_⟩⟩
  · apply generateMazeAux_inv
    · exact genstep_inv hinv1 (wall_interior hcur hni hnoff) hni
    · intro p hp
      rcases List.mem_cons.mp hp with h | h
      · exact h ▸ hni
      · rcases List.mem_cons.mp h with h2 | h2
        · exact h2 ▸ hcur
        · exact hrest p h2
  · intro p hp
    apply generateMazeAux_persist
    exact cellAt_setCellPath_persist (cellAt_setCellPath_persist hp)
  · apply generateMazeAux_persist
    exact cellAt_setCell_self hc0 Cell.PATH

lemma generateMaze_paths (rng : Nat → Nat) (W H : Int) (hW : 5 ≤ W) (hH : 5 ≤ H) :
    GenInv W H (generateMaze rng W H) ∧
    cellAt (generateMaze rng W H) ⟨1, 1⟩ = some Cell.PATH ∧
    ∃ q, q ≠ ⟨1, 1⟩ ∧ cellAt (generateMaze rng W H) q = some Cell.PATH := by
  have h11int : interiorP W H ⟨1, 1⟩ := by
    refine ⟨?_, ?_, ?_, ?_⟩ <;> dsimp only <;> omega
  have hinv0 : GenInv W H (List.replicate H.toNat (List.replicate W.toNat Cell.WALL)) :=
    replicate_genInv W H (by omega) (by omega)
  have h11r : cellAt (List.replicate H.toNat (List.replicate W.toNat Cell.WALL)) ⟨1, 1⟩
      = some Cell.WALL := by
    refine cellAt_replicate ?_ ?_ ?_ ?_ <;> dsimp only <;> omega
  have hinv1 : GenInv W H
      (setCell (List.replicate H.toNat (List.replicate W.toNat Cell.WALL)) ⟨1, 1⟩
        Cell.PATH) := genstep1_inv hinv0 h11int
  have hm1ne : setCell (List.replicate H.toNat (List.replicate W.toNat Cell.WALL)) ⟨1, 1⟩
      Cell.PATH ≠ [] := by
    intro h
    have h1 := hinv1.1.1
    rw [h] at h1
    simp only [List.length_nil, Nat.cast_zero] at h1
    omega
  obtain ⟨hw, hh⟩ := wf_dims hinv1.1 hm1ne
  have f1 : cellAt (setCell (List.replicate H.toNat (List.replicate W.toNat Cell.WALL))
      ⟨1, 1⟩ Cell.PATH) ⟨1, 1⟩ = some Cell.PATH := cellAt_setCell_self h11r _
  have f2 : cellAt (setCell (List.replicate H.toNat (List.replicate W.toNat Cell.WALL))
      ⟨1, 1⟩ Cell.PATH) ⟨3, 1⟩ = some Cell.WALL := by
    rw [cellAt_setCell_ne (by decide)]
    refine cellAt_replicate ?_ ?_ ?_ ?_ <;> dsimp only <;> omega
  have hne31 : (⟨3, 1⟩ : Pos) ∈ getUnvisitedNeighbors 1 1
      (setCell (List.replicate H.toNat (List.replicate W.toNat Cell.WALL)) ⟨1, 1⟩
        Cell.PATH) := by
    unfold getUnvisitedNeighbors
    simp only [List.foldl_cons, List.foldl_nil]
    rw [mem_condAppend, mem_condAppend, mem_condAppend, mem_condAppend]
    refine Or.inl (Or.inl (Or.inr ⟨⟨?_, ?_, ?_, ?_, ?_⟩, by decide⟩))
    · dsimp only
      omega
    · dsimp only
      rw [hw]
      omega
    · dsimp only
      omega
    · dsimp only
      rw [hh]
      omega
    · have he : (⟨1 + 2, 1 + 0⟩ : Pos) = ⟨3, 1⟩ := by decide
      rw [he]
      exact f2
  have hlen : 0 < (getUnvisitedNeighbors 1 1
      (setCell (List.replicate H.toNat (List.replicate W.toNat Cell.WALL)) ⟨1, 1⟩
        Cell.PATH)).length := List.length_pos_of_mem hne31
  have hfuel : 2 * W.toNat * H.toNat + 4 = (2 * W.toNat * H.toNat + 3) + 1 := by omega
  unfold generateMaze
  rw [hfuel]
  obtain ⟨hI, hP, q, hqW, hqP⟩ := carve_then rng (2 * W.toNat * H.toNat + 3) 0 hinv1
    h11int [] (fun p hp => absurd hp (List.not_mem_nil p)) hlen hm1ne
  refine ⟨hI, hP _ f1, q, ?_, hqP⟩
  intro h
  rw [h, f1] at hqW
  exact absurd hqW (by decide)

lemma mgGetUnvisitedNeighbors_sub (x y W H : Int) (visited : List Pos) :
    ∀ n ∈ MazeGenerator.getUnvisitedNeighbors x y W H visited,
      interiorP W H n ∧ n ∉ visited ∧
      ((n.x = x ∧ (n.y = y - 2 ∨ n.y = y + 2)) ∨
       (n.y = y ∧ (n.x = x - 2 ∨ n.x = x + 2))) := by
  intro n hn
  unfold MazeGenerator.getUnvisitedNeighbors at hn
  simp only [List.foldl_cons, List.foldl_nil] at hn
  rw [mem_condAppend, mem_condAppend, mem_condAppend, mem_condAppend] at hn
  simp only [List.not_mem_nil, false_or] at hn
  rcases hn with ((⟨hc, hb⟩ | ⟨hc, hb⟩) | ⟨hc, hb⟩) | ⟨hc, hb⟩ <;> subst hb <;>
    obtain ⟨h1, h2, h3, h4, h5⟩ := hc
  · exact ⟨⟨h1, h2, h3, h4⟩, h5, Or.inl ⟨by dsimp only; try omega,
      Or.inl (by dsimp only; try omega)⟩⟩
  · exact ⟨⟨h1, h2, h3, h4⟩, h5, Or.inr ⟨by dsimp only; try omega,
      Or.inr (by dsimp only; try omega)⟩⟩
  · exact ⟨⟨h1, h2, h3, h4⟩, h5, Or.inl ⟨by dsimp only; try omega,
      Or.inr (by dsimp only; try omega)⟩⟩
  · exact ⟨⟨h1, h2, h3, h4⟩, h5, Or.inr ⟨by dsimp only; try omega,
      Or.inl (by dsimp only; try omega)⟩⟩

lemma recursiveBacktrackingAux_inv (rng : Nat → Nat) {W H : Int} :
    ∀ (fuel t : Nat) (current : Pos) (stack visited : List Pos) (m : Maze),
      GenInv W H m → interiorP W H current → (∀ p ∈ stack, interiorP W H p) →
      GenInv W H (recursiveBacktrackingAux rng W H fuel t current stack visited m) := by
  intro fuel
  induction fuel with
  | zero =>
    intro t current stack visited m hinv _ _
    exact hinv
  | succ fuel ih =>
    intro t current stack visited m hinv hcur hstack
    cases stack with
    | nil => exact hinv
    | cons top rest =>
      rw [recursiveBacktrackingAux]
      by_cases hn : 0 < (MazeGenerator.getUnvisitedNeighbors current.x current.y W H
          visited).length
      · rw [dif_pos hn]
        have hmem : (MazeGenerator.getUnvisitedNeighbors current.x current.y W H
            visited).get
            ⟨rng t % (MazeGenerator.getUnvisitedNeighbors current.x current.y W H
                visited).length, Nat.mod_lt _ hn⟩
            ∈ MazeGenerator.getUnvisitedNeighbors current.x current.y W H visited :=
          List.get_mem _ _ _
        obtain ⟨hni, _, hnoff⟩ :=
          mgGetUnvisitedNeighbors_sub current.x current.y W H visited _ hmem
        apply ih
        · exact genstep_inv hinv (wall_interior hcur hni hnoff) hni
        · exact hni
        · intro p hp
          rcases List.mem_cons.mp hp with h | h
          · exact h ▸ hni
          · rcases List.mem_cons.mp h with h2 | h2
            · exact h2 ▸ hstack top (List.mem_cons_self _ _)
            · exact hstack p (List.mem_cons_of_mem _ h2)
      · rw [dif_neg hn]
        exact ih t top rest visited m hinv (hstack top (List.mem_cons_self _ _))
          (fun p hp => hstack p (List.mem_cons_of_mem _ hp))

lemma recursiveBacktrackingAux_persist (rng : Nat → Nat) (W H : Int) :
    ∀ (fuel t : Nat) (current : Pos) (stack visited : List Pos) (m : Maze) (p : Pos),
      cellAt m p = some Cell.PATH →
      cellAt (recursiveBacktrackingAux rng W H fuel t current stack visited m) p
        = some Cell.PATH := by
  intro fuel
  induction fuel with
  | zero =>
    intro t current stack visited m p h
    exact h
  | succ fuel ih =>
    intro t current stack visited m p h
    cases stack with
    | nil => exact h
    | cons top rest =>
      rw [recursiveBacktrackingAux]
      by_cases hn : 0 < (MazeGenerator.getUnvisitedNeighbors current.x current.y W H
          visited).length
      · rw [dif_pos hn]
        exact ih _ _ _ _ _ p (cellAt_setCellPath_persist (cellAt_setCellPath_persist h))
      · rw [dif_neg hn]
        exact ih _ _ _ _ _ p h

lemma mg_carve_then (rng : Nat → Nat) {W H : Int} (fuel t : Nat) {m1 : Maze} {cur : Pos}
    (hinv1 : GenInv W H m1) (hcur : interiorP W H cur) (top : Pos) (rest : List Pos)
    (hrest : ∀ p ∈ top :: rest, interiorP W H p) (visited : List Pos)
    (hn : 0 < (MazeGenerator.getUnvisitedNeighbors cur.x cur.y W H visited).length) :
    GenInv W H (recursiveBacktrackingAux rng W H (fuel + 1) t cur (top :: rest)
      visited m1) ∧
    (∀ p, cellAt m1 p = some Cell.PATH →
      cellAt (recursiveBacktrackingAux rng W H (fuel + 1) t cur (top :: rest) visited m1)
        p = some Cell.PATH) ∧
    ∃ q, q ∉ visited ∧
      cellAt (recursiveBacktrackingAux rng W H (fuel + 1) t cur (top :: rest) visited m1)
        q = some Cell.PATH := by
  rw [recursiveBacktrackingAux, dif_pos hn]
  set n := (MazeGenerator.getUnvisitedNeighbors cur.x cur.y W H visited).get
    ⟨rng t % (MazeGenerator.getUnvisitedNeighbors cur.x cur.y W H visited).length,
      Nat.mod_lt _ hn⟩ with hndef
  have hmem : n ∈ MazeGenerator.getUnvisitedNeighbors cur.x cur.y W H visited := by
    rw [hndef]
    exact List.get_mem _ _ _
  obtain ⟨hni, hnvis, hnoff⟩ := mgGetUnvisitedNeighbors_sub cur.x cur.y W H visited n hmem
  have hwint : interiorP W H
      (⟨cur.x + (n.x - cur.x) / 2, cur.y + (n.y - cur.y) / 2⟩ : Pos) :=
    wall_interior hcur hni hnoff
  obtain ⟨i1, i2, i3, i4⟩ := interior_bounds hni
  obtain ⟨c0, hc0⟩ := cellAt_some_of_WF
    (setCell_WF hinv1.1 ⟨cur.x + (n.x - cur.x) / 2, cur.y + (n.y - cur.y) / 2⟩ Cell.PATH)
    i1 i2 i3 i4
  refine ⟨?_, ?_, ⟨n, hnvis, ?_⟩⟩
  · apply recursiveBacktrackingAux_inv
    · exact genstep_inv hinv1 hwint hni
    · exact hni
    · intro p hp
      rcases List.mem_cons.mp hp with h | h
      · exact h ▸ hni
      · exact hrest p h
  · intro p hp
    apply recursiveBacktrackingAux_persist
    exact cellAt_setCellPath_persist (cellAt_setCellPath_persist hp)
  · apply recursiveBacktrackingAux_persist
    exact cellAt_setCell_self hc0 Cell.PATH

lemma recursiveBacktracking_paths (rng : Nat → Nat) (W H : Int) (hW : 5 ≤ W)
    (hH : 5 ≤ H) (m : Maze) (hinv : GenInv W H m) :
    GenInv W H (MazeGenerator.recursiveBacktracking rng W H m) ∧
    cellAt (MazeGenerator.recursiveBacktracking rng W H m) ⟨1, 1⟩ = some Cell.PATH ∧
    ∃ q, q ≠ ⟨1, 1⟩ ∧
      cellAt (MazeGenerator.recursiveBacktracking rng W H m) q = some Cell.PATH := by
  have h11int : interiorP W H ⟨1, 1⟩ := by
    refine ⟨?_, ?_, ?_, ?_⟩ <;> dsimp only <;> omega
  obtain ⟨i1, i2, i3, i4⟩ := interior_bounds h11int
  obtain ⟨c0, hc0⟩ := cellAt_some_of_WF hinv.1 i1 i2 i3 i4
  have hinv1 : GenInv W H (setCell m ⟨1, 1⟩ Cell.PATH) := genstep1_inv hinv h11int
  have f1 : cellAt (setCell m ⟨1, 1⟩ Cell.PATH) ⟨1, 1⟩ = some Cell.PATH :=
    cellAt_setCell_self hc0 _
  have hne31 : (⟨3, 1⟩ : Pos) ∈ MazeGenerator.getUnvisitedNeighbors 1 1 W H
      [(⟨1, 1⟩ : Pos)] := by
    unfold MazeGenerator.getUnvisitedNeighbors
    simp only [List.foldl_cons, List.foldl_nil]
    rw [mem_condAppend, mem_condAppend, mem_condAppend, mem_condAppend]
    refine Or.inl (Or.inl (Or.inr ⟨⟨?_, ?_, ?_, ?_, ?_⟩, by decide⟩))
    · dsimp only
      omega
    · dsimp only
      omega
    · dsimp only
      omega
    · dsimp only
      omega
    · decide
  have hlen : 0 < (MazeGenerator.getUnvisitedNeighbors 1 1 W H
      [(⟨1, 1⟩ : Pos)]).length := List.length_pos_of_mem hne31
  have hfuel : 2 * W.toNat * H.toNat + 4 = (2 * W.toNat * H.toNat + 3) + 1 := by omega
  unfold MazeGenerator.recursiveBacktracking
  rw [hfuel]
  obtain ⟨hI, hP, q, hqv, hqP⟩ := mg_carve_then rng (2 * W.toNat * H.toNat + 3) 0 hinv1
    h11int ⟨1, 1⟩ []
    (fun p hp => by
      rcases List.mem_cons.mp hp with h | h
      · exact h ▸ h11int
      · exact absurd h (List.not_mem_nil p))
    [(⟨1, 1⟩ : Pos)] hlen
  refine ⟨hI, hP _ f1, q, ?_, hqP⟩
  intro h
  exact hqv (by rw [h]; exact List.mem_singleton_self _)

lemma mem_pathCellsOf {m : Maze} {p : Pos} :
    p ∈ pathCellsOf m ↔ cellAt m p = some Cell.PATH := by
  unfold pathCellsOf
  rw [List.mem_flatten]
  constructor
  · rintro ⟨l, hl, hpl⟩
    rw [List.mem_map] at hl
    obtain ⟨ry, hry, hfl⟩ := hl
    subst hfl
    rw [List.mem_filterMap] at hpl
    obtain ⟨xc, hxc, hxceq⟩ := hpl
    by_cases hc : xc.2 = Cell.PATH
    · rw [if_pos hc] at hxceq
      injection hxceq with hxceq
      subst hxceq
      obtain ⟨yi, row⟩ := ry
      obtain ⟨xi, cc⟩ := xc
      dsimp only at hc hxc ⊢
      subst hc
      have h1 : m[yi]? = some row := List.mk_mem_enum_iff_getElem?.mp hry
      have h2 : row[xi]? = some Cell.PATH := List.mk_mem_enum_iff_getElem?.mp hxc
      unfold cellAt
      rw [if_pos ⟨Int.natCast_nonneg yi, Int.natCast_nonneg xi⟩]
      dsimp only
      rw [Int.toNat_natCast, Int.toNat_natCast, h1]
      exact h2
    · rw [if_neg hc] at hxceq
      exact absurd hxceq (by simp)
  · intro hp
    unfold cellAt at hp
    by_cases hnn : 0 ≤ p.y ∧ 0 ≤ p.x
    · rw [if_pos hnn] at hp
      rcases hrow : m[p.y.toNat]? with _ | row
      · rw [hrow] at hp
        simp at hp
      · rw [hrow] at hp
        replace hp : row[p.x.toNat]? = some Cell.PATH := hp
        refine ⟨row.enum.filterMap (fun xc =>
          if xc.2 = Cell.PATH then some (⟨(xc.1 : Int), (p.y.toNat : Int)⟩ : Pos)
          else none), ?_, ?_⟩
        · rw [List.mem_map]
          exact ⟨(p.y.toNat, row), List.mk_mem_enum_iff_getElem?.mpr hrow, rfl⟩
        · rw [List.mem_filterMap]
          refine ⟨(p.x.toNat, Cell.PATH), List.mk_mem_enum_iff_getElem?.mpr hp, ?_⟩
          rw [if_pos rfl]
          have hx : ((p.x.toNat : Int)) = p.x := Int.toNat_of_nonneg hnn.2
          have hy : ((p.y.toNat : Int)) = p.y := Int.toNat_of_nonneg hnn.1
          dsimp only
          rw [hx, hy]
    · rw [if_neg hnn] at hp
      exact absurd hp (by simp)

lemma getDistanceSq_pos_of_ne {a b : Pos} (h : b ≠ a) : 0 < getDistanceSq a b := by
  unfold getDistanceSq
  obtain ⟨ax, ay⟩ := a
  obtain ⟨bx, by'⟩ := b
  dsimp only
  have hne : ax ≠ bx ∨ ay ≠ by' := by
    by_contra hcon
    push_neg at hcon
    exact h (by rw [hcon.1, hcon.2])
  rcases hne with h' | h'
  · have h1 : 0 < (ax - bx) * (ax - bx) := mul_self_pos.mpr (sub_ne_zero.mpr h')
    have h2 : 0 ≤ (ay - by') * (ay - by') := mul_self_nonneg _
    omega
  · have h1 : 0 ≤ (ax - bx) * (ax - bx) := mul_self_nonneg _
    have h2 : 0 < (ay - by') * (ay - by') := mul_self_pos.mpr (sub_ne_zero.mpr h')
    omega

lemma getDistanceSq_self (a : Pos) : getDistanceSq a a = 0 := by
  unfold getDistanceSq
  ring

lemma manhattanDistance_eq_zero_iff {a b : Pos} : manhattanDistance a b = 0 ↔ a = b := by
  unfold manhattanDistance
  obtain ⟨ax, ay⟩ := a
  obtain ⟨bx, by'⟩ := b
  dsimp only
  rw [Int.abs_eq_natAbs, Int.abs_eq_natAbs]
  constructor
  · intro h
    have hx : ax = bx := by omega
    have hy : ay = by' := by omega
    rw [hx, hy]
  · intro h
    injection h with h1 h2
    rw [h1, h2]
    omega

lemma marked_spec {W H : Int} {g : Maze} (hinv : GenInv W H g) {s e : Pos}
    (hse : s ≠ e) (hs : cellAt g s = some Cell.PATH)
    (he : cellAt g e = some Cell.PATH) :
    (∀ p, cellAt (setCell (setCell g s Cell.START) e Cell.END) p = some Cell.START ↔
      p = s) ∧
    (∀ p, cellAt (setCell (setCell g s Cell.START) e Cell.END) p = some Cell.END ↔
      p = e) ∧
    (∀ p c, cellAt (setCell (setCell g s Cell.START) e Cell.END) p = some c →
      (p.x = 0 ∨ p.x = W - 1 ∨ p.y = 0 ∨ p.y = H - 1) → c = Cell.WALL) := by
  obtain ⟨hWF, hkinds, hborder⟩ := hinv
  have hes : e ≠ s := fun h => hse h.symm
  have hsS2 : cellAt (setCell (setCell g s Cell.START) e Cell.END) s
      = some Cell.START := by
    rw [cellAt_setCell_ne hse]
    exact cellAt_setCell_self hs _
  have heE : cellAt (setCell (setCell g s Cell.START) e Cell.END) e
      = some Cell.END := by
    have hmid : cellAt (setCell g s Cell.START) e = some Cell.PATH := by
      rw [cellAt_setCell_ne hes]
      exact he
    exact cellAt_setCell_self hmid _
  refine ⟨?_, ?_, ?_⟩
  · intro p
    constructor
    · intro hp
      by_contra hps
      by_cases hpe : p = e
      · rw [hpe, heE] at hp
        exact absurd hp (by decide)
      · rw [cellAt_setCell_ne hpe, cellAt_setCell_ne hps] at hp
        rcases hkinds p _ hp with h | h
        · exact absurd h (by decide)
        · exact absurd h (by decide)
    · intro hp
      rw [hp]
      exact hsS2
  · intro p
    constructor
    · intro hp
      by_contra hpe
      by_cases hps : p = s
      · rw [hps, hsS2] at hp
        exact absurd hp (by decide)
      · rw [cellAt_setCell_ne hpe, cellAt_setCell_ne hps] at hp
        rcases hkinds p _ hp with h | h
        · exact absurd h (by decide)
        · exact absurd h (by decide)
    · intro hp
      rw [hp]
      exact heE
  · intro p c hp hbord
    have hps : p ≠ s := by
      intro h
      subst h
      exact absurd (hborder p Cell.PATH hs hbord) (by decide)
    have hpe : p ≠ e := by
      intro h
      subst h
      exact absurd (hborder p Cell.PATH he hbord) (by decide)
    rw [cellAt_setCell_ne hpe, cellAt_setCell_ne hps] at hp
    exact hborder p c hp hbord

lemma two_mem_two_le_length {l : List Pos} {a b : Pos} (ha : a ∈ l) (hb : b ∈ l)
    (hne : a ≠ b) : 2 ≤ l.length := by
  cases l with
  | nil => exact absurd ha (List.not_mem_nil a)
  | cons x t =>
    cases t with
    | nil =>
      have h1 : a = x := by simpa using ha
      have h2 : b = x := by simpa using hb
      exact absurd (h1.trans h2.symm) hne
    | cons y u =>
      simp only [List.length_cons]
      omega

lemma wallCard_carve {W H : Int} {m : Maze} (hWF : MazeWF m W H) {nxt wall : Pos}
    (hni : interiorP W H nxt) (hwi : interiorP W H wall)
    (hnc : cellAt m nxt = some Cell.WALL) :
    wallCard W H (setCell (setCell m wall Cell.PATH) nxt Cell.PATH) + 1
      ≤ wallCard W H m := by
  unfold wallCard
  have hnb : nxt ∈ boundsSet W H := by
    rw [mem_boundsSet_iff]
    exact interior_bounds hni
  have hnxt_mem : nxt ∈ (boundsSet W H).filter (fun p => cellAt m p = some Cell.WALL) :=
    Finset.mem_filter.mpr ⟨hnb, hnc⟩
  have hnew_path : cellAt (setCell (setCell m wall Cell.PATH) nxt Cell.PATH) nxt
      = some Cell.PATH := by
    have hsome : ∃ c0, cellAt (setCell m wall Cell.PATH) nxt = some c0 := by
      by_cases hnw : nxt = wall
      · rw [← hnw]
        exact ⟨Cell.PATH, cellAt_setCell_self hnc Cell.PATH⟩
      · rw [cellAt_setCell_ne hnw]
        exact ⟨_, hnc⟩
    obtain ⟨c0, hc0⟩ := hsome
    exact cellAt_setCell_self hc0 _
  have hsub : (boundsSet W H).filter
      (fun p => cellAt (setCell (setCell m wall Cell.PATH) nxt Cell.PATH) p
        = some Cell.WALL)
      ⊆ ((boundsSet W H).filter (fun p => cellAt m p = some Cell.WALL)).erase nxt := by
    intro p hp
    obtain ⟨hpb, hpw⟩ := Finset.mem_filter.mp hp
    have hpn : p ≠ nxt := by
      intro h
      rw [h, hnew_path] at hpw
      exact absurd hpw (by decide)
    refine Finset.mem_erase.mpr ⟨hpn, Finset.mem_filter.mpr ⟨hpb, ?_⟩⟩
    rw [cellAt_setCell_ne hpn] at hpw
    by_cases hpw2 : p = wall
    · exfalso
      obtain ⟨i1, i2, i3, i4⟩ := interior_bounds hwi
      obtain ⟨c0, hc0⟩ := cellAt_some_of_WF hWF i1 i2 i3 i4
      rw [hpw2, cellAt_setCell_self hc0] at hpw
      exact absurd hpw (by decide)
    · rw [cellAt_setCell_ne hpw2] at hpw
      exact hpw
  have h1 := Finset.card_le_card hsub
  have h2 := Finset.card_erase_of_mem hnxt_mem
  have h3 : 0 < ((boundsSet W H).filter
      (fun p => cellAt m p = some Cell.WALL)).card :=
    Finset.card_pos.mpr ⟨nxt, hnxt_mem⟩
  omega

lemma generateMazeAux_enough (rng : Nat → Nat) {W H : Int} :
    ∀ (fuel t : Nat) (stack : List Pos) (m : Maze),
      GenInv W H m → (∀ p ∈ stack, interiorP W H p) →
      2 * wallCard W H m + stack.length ≤ fuel →
      generateMazeAux rng (fuel + 1) t stack m
        = generateMazeAux rng fuel t stack m := by
  intro fuel
  induction fuel with
  | zero =>
    intro t stack m _ _ hfuel
    cases stack with
    | nil => rfl
    | cons current rest =>
      simp only [List.length_cons] at hfuel
      omega
  | succ fuel ih =>
    intro t stack m hinv hstack hfuel
    cases stack with
    | nil => rfl
    | cons current rest =>
      conv_lhs => rw [generateMazeAux]
      conv_rhs => rw [generateMazeAux]
      by_cases hn : 0 < (getUnvisitedNeighbors current.x current.y m).length
      · rw [dif_pos hn, dif_pos hn]
        have hm : m ≠ [] := by
          have h1 := hinv.1.1
          obtain ⟨i1, i2, i3, i4⟩ :=
            interior_bounds (hstack current (List.mem_cons_self _ _))
          intro h
          subst h
          simp only [List.length_nil, Nat.cast_zero] at h1
          omega
        have hcur : interiorP W H current := hstack current (List.mem_cons_self _ _)
        have hmem : (getUnvisitedNeighbors current.x current.y m).get
            ⟨rng t % (getUnvisitedNeighbors current.x current.y m).length,
              Nat.mod_lt _ hn⟩ ∈ getUnvisitedNeighbors current.x current.y m :=
          List.get_mem _ _ _
        obtain ⟨hni, hnc, hnoff⟩ :=
          getUnvisitedNeighbors_sub hinv.1 hm current.x current.y _ hmem
        have hwc := wallCard_carve hinv.1 hni (wall_interior hcur hni hnoff) hnc
        apply ih
        · exact genstep_inv hinv (wall_interior hcur hni hnoff) hni
        · intro p hp
          rcases List.mem_cons.mp hp with h | h
          · exact h ▸ hni
          · exact hstack p h
        · simp only [List.length_cons] at hfuel ⊢
          omega
      · rw [dif_neg hn, dif_neg hn]
        apply ih
        · exact hinv
        · exact fun p hp => hstack p (List.mem_cons_of_mem _ hp)
        · simp only [List.length_cons] at hfuel
          omega

lemma wallCard_le (W H : Int) (m : Maze) :
    wallCard W H m ≤ W.toNat * H.toNat :=
  le_trans (Finset.card_filter_le _ _) (boundsSet_card_le W H)

lemma generateMaze_fuel_stable (rng : Nat → Nat) (W H : Int) (hW : 5 ≤ W)
    (hH : 5 ≤ H) (k : Nat) :
    generateMazeAux rng (2 * W.toNat * H.toNat + 4 + k) 0 [⟨1, 1⟩]
      (setCell (List.replicate H.toNat (List.replicate W.toNat Cell.WALL)) ⟨1, 1⟩
        Cell.PATH)
      = generateMaze rng W H := by
  induction k with
  | zero => rfl
  | succ k ih =>
    rw [← ih]
    have hstep : 2 * W.toNat * H.toNat + 4 + (k + 1)
        = (2 * W.toNat * H.toNat + 4 + k) + 1 := by omega
    rw [hstep]
    apply generateMazeAux_enough
    · exact genstep1_inv (replicate_genInv W H (by omega) (by omega))
        ⟨by dsimp only; omega, by dsimp only; omega, by dsimp only; omega,
          by dsimp only; omega⟩
    · intro p hp
      have hp1 : p = ⟨1, 1⟩ := by simpa using hp
      subst hp1
      exact ⟨by dsimp only; omega, by dsimp only; omega, by dsimp only; omega,
        by dsimp only; omega⟩
    · have := wallCard_le W H
        (setCell (List.replicate H.toNat (List.replicate W.toNat Cell.WALL)) ⟨1, 1⟩
          Cell.PATH)
      have h2 : 2 * W.toNat * H.toNat = 2 * (W.toNat * H.toNat) := by ring
      simp only [List.length_singleton]
      omega

lemma freeCard_carve {W H : Int} {visited : List Pos} {nxt : Pos}
    (hni : interiorP W H nxt) (hnv : nxt ∉ visited) :
    freeCard W H (nxt :: visited) + 1 ≤ freeCard W H visited := by
  unfold freeCard
  have hnb : nxt ∈ boundsSet W H := by
    rw [mem_boundsSet_iff]
    exact interior_bounds hni
  have hnxt_mem : nxt ∈ (boundsSet W H).filter (fun p => p ∉ visited) :=
    Finset.mem_filter.mpr ⟨hnb, hnv⟩
  have hsub : (boundsSet W H).filter (fun p => p ∉ nxt :: visited)
      ⊆ ((boundsSet W H).filter (fun p => p ∉ visited)).erase nxt := by
    intro p hp
    obtain ⟨hpb, hpv⟩ := Finset.mem_filter.mp hp
    refine Finset.mem_erase.mpr ⟨?_, Finset.mem_filter.mpr ⟨hpb, ?_⟩⟩
    · intro h
      exact hpv (h ▸ List.mem_cons_self nxt visited)
    · intro h
      exact hpv (List.mem_cons_of_mem nxt h)
  have h1 := Finset.card_le_card hsub
  have h2 := Finset.card_erase_of_mem hnxt_mem
  have h3 : 0 < ((boundsSet W H).filter (fun p => p ∉ visited)).card :=
    Finset.card_pos.mpr ⟨nxt, hnxt_mem⟩
  omega

lemma recursiveBacktrackingAux_enough (rng : Nat → Nat) {W H : Int} :
    ∀ (fuel t : Nat) (current : Pos) (stack visited : List Pos) (m : Maze),
      2 * freeCard W H visited + stack.length ≤ fuel →
      recursiveBacktrackingAux rng W H (fuel + 1) t current stack visited m
        = recursiveBacktrackingAux rng W H fuel t current stack visited m := by
  intro fuel
  induction fuel with
  | zero =>
    intro t current stack visited m hfuel
    cases stack with
    | nil => rfl
    | cons top rest =>
      simp only [List.length_cons] at hfuel
      omega
  | succ fuel ih =>
    intro t current stack visited m hfuel
    cases stack with
    | nil => rfl
    | cons top rest =>
      conv_lhs => rw [recursiveBacktrackingAux]
      conv_rhs => rw [recursiveBacktrackingAux]
      by_cases hn : 0 < (MazeGenerator.getUnvisitedNeighbors current.x current.y W H
          visited).length
      · rw [dif_pos hn, dif_pos hn]
        have hmem : (MazeGenerator.getUnvisitedNeighbors current.x current.y W H
            visited).get
            ⟨rng t % (MazeGenerator.getUnvisitedNeighbors current.x current.y W H
                visited).length, Nat.mod_lt _ hn⟩
            ∈ MazeGenerator.getUnvisitedNeighbors current.x current.y W H visited :=
          List.get_mem _ _ _
        obtain ⟨hni, hnv, _⟩ :=
          mgGetUnvisitedNeighbors_sub current.x current.y W H visited _ hmem
        have hfc := freeCard_carve hni hnv
        apply ih
        simp only [List.length_cons] at hfuel ⊢
        omega
      · rw [dif_neg hn, dif_neg hn]
        apply ih
        simp only [List.length_cons] at hfuel
        omega

lemma freeCard_le (W H : Int) (visited : List Pos) :
    freeCard W H visited ≤ W.toNat * H.toNat :=
  le_trans (Finset.card_filter_le _ _) (boundsSet_card_le W H)

lemma recursiveBacktracking_fuel_stable (rng : Nat → Nat) (W H : Int) (m : Maze)
    (k : Nat) :
    recursiveBacktrackingAux rng W H (2 * W.toNat * H.toNat + 4 + k) 0 ⟨1, 1⟩
      [⟨1, 1⟩] [⟨1, 1⟩] (setCell m ⟨1, 1⟩ Cell.PATH)
      = MazeGenerator.recursiveBacktracking rng W H m := by
  induction k with
  | zero => rfl
  | succ k ih =>
    rw [← ih]
    have hstep : 2 * W.toNat * H.toNat + 4 + (k + 1)
        = (2 * W.toNat * H.toNat + 4 + k) + 1 := by omega
    rw [hstep]
    apply recursiveBacktrackingAux_enough
    have := freeCard_le W H [⟨1, 1⟩]
    have h2 : 2 * W.toNat * H.toNat = 2 * (W.toNat * H.toNat) := by ring
    simp only [List.length_singleton]
    omega

/-- C4: for every odd width and height at least 5 and every randomness
oracle, after maze generation followed by start/end placement — in both
pipelines: `generateMaze` followed by `placeStartAndEnd` (`utils.js`), and
`MazeGenerator.recursiveBacktracking` on the all-`Wall` matrix followed by
`MazeGenerator.placeStartAndEnd` (`part_000`) — the resulting grid
contains exactly one `Start` cell and exactly one `End` cell, and every
border cell (`x = 0`, `x = width-1`, `y = 0` or `y = height-1`) is
`Wall`. -/
theorem C4_generation_invariants (rng rng2 : Nat → Nat) (t : Nat) (W H : Int)
    (_hoW : Odd W) (_hoH : Odd H) (hW : 5 ≤ W) (hH : 5 ≤ H) :
    (∃ s e m', placeStartAndEnd rng2 t (generateMaze rng W H) = some (s, e, m') ∧
      (∀ p, cellAt m' p = some Cell.START ↔ p = s) ∧
      (∀ p, cellAt m' p = some Cell.END ↔ p = e) ∧
      (∀ p c, cellAt m' p = some c →
        (p.x = 0 ∨ p.x = W - 1 ∨ p.y = 0 ∨ p.y = H - 1) → c = Cell.WALL)) ∧
    (∃ s e, (MazeGenerator.placeStartAndEnd rng2 t
        ⟨MazeGenerator.recursiveBacktracking rng W H
            (List.replicate H.toNat (List.replicate W.toNat Cell.WALL)), W, H,
          none, none⟩).startPos = some s ∧
      (MazeGenerator.placeStartAndEnd rng2 t
        ⟨MazeGenerator.recursiveBacktracking rng W H
            (List.replicate H.toNat (List.replicate W.toNat Cell.WALL)), W, H,
          none, none⟩).endPos = some e ∧
      (∀ p, cellAt (MazeGenerator.placeStartAndEnd rng2 t
          ⟨MazeGenerator.recursiveBacktracking rng W H
              (List.replicate H.toNat (List.replicate W.toNat Cell.WALL)), W, H,
            none, none⟩).maze p = some Cell.START ↔ p = s) ∧
      (∀ p, cellAt (MazeGenerator.placeStartAndEnd rng2 t
          ⟨MazeGenerator.recursiveBacktracking rng W H
              (List.replicate H.toNat (List.replicate W.toNat Cell.WALL)), W, H,
            none, none⟩).maze p = some Cell.END ↔ p = e) ∧
      (∀ p c, cellAt (MazeGenerator.placeStartAndEnd rng2 t
          ⟨MazeGenerator.recursiveBacktracking rng W H
              (List.replicate H.toNat (List.replicate W.toNat Cell.WALL)), W, H,
            none, none⟩).maze p = some c →
        (p.x = 0 ∨ p.x = W - 1 ∨ p.y = 0 ∨ p.y = H - 1) → c = Cell.WALL)) := by
  constructor
  · obtain ⟨hginv, h11, q, hq1, hq2⟩ := generateMaze_paths rng W H hW hH
    have h11mem : (⟨1, 1⟩ : Pos) ∈ pathCellsOf (generateMaze rng W H) :=
      mem_pathCellsOf.mpr h11
    have hqmem : q ∈ pathCellsOf (generateMaze rng W H) := mem_pathCellsOf.mpr hq2
    have hne : 0 < (pathCellsOf (generateMaze rng W H)).length :=
      List.length_pos_of_mem h11mem
    have hs0mem : (pathCellsOf (generateMaze rng W H)).get
        ⟨rng2 t % (pathCellsOf (generateMaze rng W H)).length, Nat.mod_lt _ hne⟩
        ∈ pathCellsOf (generateMaze rng W H) := List.get_mem _ _ _
    have hex : ∃ c ∈ pathCellsOf (generateMaze rng W H),
        0 < getDistanceSq ((pathCellsOf (generateMaze rng W H)).get
          ⟨rng2 t % (pathCellsOf (generateMaze rng W H)).length, Nat.mod_lt _ hne⟩)
          c := by
      by_cases hs0 : (pathCellsOf (generateMaze rng W H)).get
          ⟨rng2 t % (pathCellsOf (generateMaze rng W H)).length, Nat.mod_lt _ hne⟩
          = ⟨1, 1⟩
      · refine ⟨q, hqmem, getDistanceSq_pos_of_ne ?_⟩
        rw [hs0]
        exact hq1
      · exact ⟨⟨1, 1⟩, h11mem, getDistanceSq_pos_of_ne (fun h => hs0 h.symm)⟩
    obtain ⟨e, heq, hemem, hepos, _⟩ :=
      place_spec rng2 t (generateMaze rng W H) _ hne rfl hex
    have hse : (pathCellsOf (generateMaze rng W H)).get
        ⟨rng2 t % (pathCellsOf (generateMaze rng W H)).length, Nat.mod_lt _ hne⟩
        ≠ e := by
      intro h
      rw [← h, getDistanceSq_self] at hepos
      exact lt_irrefl 0 hepos
    obtain ⟨hA, hB, hC⟩ := marked_spec hginv hse (mem_pathCellsOf.mp hs0mem)
      (mem_pathCellsOf.mp hemem)
    exact ⟨_, e, _, heq, hA, hB, hC⟩
  · have hinv0 : GenInv W H (List.replicate H.toNat (List.replicate W.toNat Cell.WALL)) :=
      replicate_genInv W H (by omega) (by omega)
    obtain ⟨hginv2, h11b, q2, hq1b, hq2b⟩ :=
      recursiveBacktracking_paths rng W H hW hH _ hinv0
    have h11mem : (⟨1, 1⟩ : Pos) ∈ pathCellsOf (MazeGenerator.recursiveBacktracking rng
        W H (List.replicate H.toNat (List.replicate W.toNat Cell.WALL))) :=
      mem_pathCellsOf.mpr h11b
    have hqmem : q2 ∈ pathCellsOf (MazeGenerator.recursiveBacktracking rng W H
        (List.replicate H.toNat (List.replicate W.toNat Cell.WALL))) :=
      mem_pathCellsOf.mpr hq2b
    have hlen2 : ¬ (pathCellsOf (MazeGenerator.recursiveBacktracking rng W H
        (List.replicate H.toNat (List.replicate W.toNat Cell.WALL)))).length < 2 := by
      have := two_mem_two_le_length hqmem h11mem hq1b
      omega
    obtain ⟨s, e, hsteq, hsmem, hemem, pre, suf, hsplit2, hpre2, hall2⟩ :=
      mgPlace_spec rng2 t
        ⟨MazeGenerator.recursiveBacktracking rng W H
            (List.replicate H.toNat (List.replicate W.toNat Cell.WALL)), W, H,
          none, none⟩ hlen2
    have hes : e ≠ s := by
      have hc0 : ∃ c0 ∈ pathCellsOf (MazeGenerator.recursiveBacktracking rng W H
          (List.replicate H.toNat (List.replicate W.toNat Cell.WALL))), c0 ≠ s := by
        by_cases hs : s = ⟨1, 1⟩
        · refine ⟨q2, hqmem, ?_⟩
          rw [hs]
          exact hq1b
        · exact ⟨⟨1, 1⟩, h11mem, fun h => hs (h.symm)⟩
      obtain ⟨c0, hc0mem, hc0ne⟩ := hc0
      have hd1 : manhattanDistance c0 s ≠ 0 :=
        fun h => hc0ne (manhattanDistance_eq_zero_iff.mp h)
      have hd2 := manhattanDistance_nonneg c0 s
      have hd3 := hall2 c0 hc0mem
      intro h
      have hd4 : manhattanDistance e s = 0 :=
        manhattanDistance_eq_zero_iff.mpr h
      omega
    have hse : s ≠ e := fun h => hes h.symm
    obtain ⟨hA, hB, hC⟩ := marked_spec hginv2 hse (mem_pathCellsOf.mp hsmem)
      (mem_pathCellsOf.mp hemem)
    refine ⟨s, e, ?_, ?_, ?_, ?_, ?_⟩
    · rw [hsteq]
    · rw [hsteq]
    · rw [hsteq]
      exact hA
    · rw [hsteq]
      exact hB
    · rw [hsteq]
      exact hC

theorem C4_generation_invariants_witness :
    ∃ s e m', placeStartAndEnd (fun _ => 0) 0 (generateMaze (fun _ => 0) 5 5)
        = some (s, e, m') ∧
      (∀ p, cellAt m' p = some Cell.START ↔ p = s) ∧
      (∀ p, cellAt m' p = some Cell.END ↔ p = e) ∧
      (∀ p c, cellAt m' p = some c →
        (p.x = 0 ∨ p.x = (5 : Int) - 1 ∨ p.y = 0 ∨ p.y = (5 : Int) - 1) →
        c = Cell.WALL) :=
  (C4_generation_invariants (fun _ => 0) (fun _ => 0) 0 5 5 ⟨2, by norm_num⟩
    ⟨2, by norm_num⟩ (by norm_num) (by norm_num)).1

lemma step2_odd {cur n : Pos} (h : oddCell cur) (hoff : step2 cur n) : oddCell n := by
  obtain ⟨h1, h2⟩ := h
  rcases hoff with ⟨hx, hy | hy⟩ | ⟨hy, hx | hx⟩ <;> exact ⟨by omega, by omega⟩

lemma wall_not_odd {cur n : Pos} (hcurodd : oddCell cur) (hoff : step2 cur n) :
    ¬ oddCell (⟨cur.x + (n.x - cur.x) / 2, cur.y + (n.y - cur.y) / 2⟩ : Pos) := by
  obtain ⟨ho1, ho2⟩ := hcurodd
  rcases hoff with ⟨hx, hy | hy⟩ | ⟨hy, hx | hx⟩
  · have e1 : (n.x - cur.x) / 2 = 0 := by rw [hx]; simp
    have e2 : (n.y - cur.y) / 2 = -1 := by
      have hd : n.y - cur.y = -2 := by omega
      rw [hd]
      decide
    rw [e1, e2]
    rintro ⟨g1, g2⟩
    dsimp only at g1 g2
    omega
  · have e1 : (n.x - cur.x) / 2 = 0 := by rw [hx]; simp
    have e2 : (n.y - cur.y) / 2 = 1 := by
      have hd : n.y - cur.y = 2 := by omega
      rw [hd]
      decide
    rw [e1, e2]
    rintro ⟨g1, g2⟩
    dsimp only at g1 g2
    omega
  · have e1 : (n.x - cur.x) / 2 = -1 := by
      have hd : n.x - cur.x = -2 := by omega
      rw [hd]
      decide
    have e2 : (n.y - cur.y) / 2 = 0 := by rw [hy]; simp
    rw [e1, e2]
    rintro ⟨g1, g2⟩
    dsimp only at g1 g2
    omega
  · have e1 : (n.x - cur.x) / 2 = 1 := by
      have hd : n.x - cur.x = 2 := by omega
      rw [hd]
      decide
    have e2 : (n.y - cur.y) / 2 = 0 := by rw [hy]; simp
    rw [e1, e2]
    rintro ⟨g1, g2⟩
    dsimp only at g1 g2
    omega

lemma mem_getUnvisitedNeighbors_of {m : Maze} {W H : Int} (hWF : MazeWF m W H)
    (hm : m ≠ []) (x y : Int) {q : Pos} (hstep : step2 ⟨x, y⟩ q)
    (hqi : interiorP W H q) (hqw : cellAt m q = some Cell.WALL) :
    q ∈ getUnvisitedNeighbors x y m := by
  obtain ⟨hw, hh⟩ := wf_dims hWF hm
  obtain ⟨qx, qy⟩ := q
  obtain ⟨hi1, hi2, hi3, hi4⟩ := hqi
  dsimp only at hi1 hi2 hi3 hi4
  rcases hstep with ⟨hx, hy | hy⟩ | ⟨hy, hx | hx⟩ <;> dsimp only at hx hy
  · unfold getUnvisitedNeighbors
    simp only [List.foldl_cons, List.foldl_nil]
    rw [mem_condAppend, mem_condAppend, mem_condAppend, mem_condAppend]
    simp only [List.not_mem_nil, false_or]
    refine Or.inl (Or.inl (Or.inl ⟨⟨?_, ?_, ?_, ?_, ?_⟩, ?_⟩))
    · dsimp only
      omega
    · dsimp only
      rw [hw]
      omega
    · dsimp only
      omega
    · dsimp only
      rw [hh]
      omega
    · have heq2 : (⟨x + 0, y + (-2 : Int)⟩ : Pos) = ⟨qx, qy⟩ := by
        simp only [Pos.mk.injEq]
        omega
      rw [heq2]
      exact hqw
    · simp only [Pos.mk.injEq]
      omega
  · unfold getUnvisitedNeighbors
    simp only [List.foldl_cons, List.foldl_nil]
    rw [mem_condAppend, mem_condAppend, mem_condAppend, mem_condAppend]
    simp only [List.not_mem_nil, false_or]
    refine Or.inl (Or.inr ⟨⟨?_, ?_, ?_, ?_, ?_⟩, ?_⟩)
    · dsimp only
      omega
    · dsimp only
      rw [hw]
      omega
    · dsimp only
      omega
    · dsimp only
      rw [hh]
      omega
    · have heq2 : (⟨x + 0, y + (2 : Int)⟩ : Pos) = ⟨qx, qy⟩ := by
        simp only [Pos.mk.injEq]
        omega
      rw [heq2]
      exact hqw
    · simp only [Pos.mk.injEq]
      omega
  · unfold getUnvisitedNeighbors
    simp only [List.foldl_cons, List.foldl_nil]
    rw [mem_condAppend, mem_condAppend, mem_condAppend, mem_condAppend]
    simp only [List.not_mem_nil, false_or]
    refine Or.inr ⟨⟨?_, ?_, ?_, ?_, ?_⟩, ?_⟩
    · dsimp only
      omega
    · dsimp only
      rw [hw]
      omega
    · dsimp only
      omega
    · dsimp only
      rw [hh]
      omega
    · have heq2 : (⟨x + (-2 : Int), y + 0⟩ : Pos) = ⟨qx, qy⟩ := by
        simp only [Pos.mk.injEq]
        omega
      rw [heq2]
      exact hqw
    · simp only [Pos.mk.injEq]
      omega
  · unfold getUnvisitedNeighbors
    simp only [List.foldl_cons, List.foldl_nil]
    rw [mem_condAppend, mem_condAppend, mem_condAppend, mem_condAppend]
    simp only [List.not_mem_nil, false_or]
    refine Or.inl (Or.inl (Or.inr ⟨⟨?_, ?_, ?_, ?_, ?_⟩, ?_⟩))
    · dsimp only
      omega
    · dsimp only
      rw [hw]
      omega
    · dsimp only
      omega
    · dsimp only
      rw [hh]
      omega
    · have heq2 : (⟨x + (2 : Int), y + 0⟩ : Pos) = ⟨qx, qy⟩ := by
        simp only [Pos.mk.injEq]
        omega
      rw [heq2]
      exact hqw
    · simp only [Pos.mk.injEq]
      omega

lemma pathCells_interior {W H : Int} {g : Maze} (hginv : GenInv W H g) :
    ∀ c ∈ pathCellsOf g, 1 ≤ c.x ∧ c.x ≤ W - 2 ∧ 1 ≤ c.y ∧ c.y ≤ H - 2 := by
  intro c hc
  have hpath := mem_pathCellsOf.mp hc
  obtain ⟨h1, h2, h3, h4⟩ := cellAt_isSome_bounds hginv.1 hpath
  have hnb : ¬ (c.x = 0 ∨ c.x = W - 1 ∨ c.y = 0 ∨ c.y = H - 1) := by
    intro hb
    exact absurd (hginv.2.2 c Cell.PATH hpath hb) (by decide)
  push_neg at hnb
  obtain ⟨hb1, hb2, hb3, hb4⟩ := hnb
  exact ⟨by omega, by omega, by omega, by omega⟩

lemma abs_sq_le {a A : Int} (h : |a| ≤ A) : a * a ≤ A * A := by
  calc a * a = |a| * |a| := (abs_mul_abs_self a).symm
    _ ≤ A * A := mul_self_le_mul_self (abs_nonneg a) h

lemma abs_eq_of_sq_eq {a A : Int} (hA : 0 ≤ A) (h : a * a = A * A) : |a| = A := by
  have h2 : |a| * |a| = A * A := by
    rw [abs_mul_abs_self]
    exact h
  exact (mul_self_inj (abs_nonneg a) hA).mp h2

lemma generateMazeAux_oddClosed (rng : Nat → Nat) {W H : Int} :
    ∀ (fuel t : Nat) (stack : List Pos) (m : Maze),
      GenInv W H m →
      (∀ p ∈ stack, interiorP W H p ∧ oddCell p) →
      (∀ p, oddCell p → interiorP W H p → cellAt m p = some Cell.PATH →
        p ∈ stack ∨ ∀ q, step2 p q → interiorP W H q → cellAt m q ≠ some Cell.WALL) →
      2 * wallCard W H m + stack.length ≤ fuel →
      ∀ p, oddCell p → interiorP W H p →
        cellAt (generateMazeAux rng fuel t stack m) p = some Cell.PATH →
        ∀ q, step2 p q → interiorP W H q →
          cellAt (generateMazeAux rng fuel t stack m) q ≠ some Cell.WALL := by
  intro fuel
  induction fuel with
  | zero =>
    intro t stack m _ _ hb hfuel
    cases stack with
    | nil =>
      intro p hpodd hpint hppath q hq hqi
      rcases hb p hpodd hpint hppath with hin | hexp
      · exact absurd hin (List.not_mem_nil p)
      · exact hexp q hq hqi
    | cons current rest =>
      simp only [List.length_cons] at hfuel
      omega
  | succ fuel ih =>
    intro t stack m hinv hstack hb hfuel
    cases stack with
    | nil =>
      intro p hpodd hpint hppath q hq hqi
      rcases hb p hpodd hpint hppath with hin | hexp
      · exact absurd hin (List.not_mem_nil p)
      · exact hexp q hq hqi
    | cons current rest =>
      have hm : m ≠ [] := by
        have h1 := hinv.1.1
        obtain ⟨i1, i2, i3, i4⟩ :=
          interior_bounds (hstack current (List.mem_cons_self _ _)).1
        intro h
        subst h
        simp only [List.length_nil, Nat.cast_zero] at h1
        omega
      have hcur : interiorP W H current := (hstack current (List.mem_cons_self _ _)).1
      have hcurodd : oddCell current := (hstack current (List.mem_cons_self _ _)).2
      rw [generateMazeAux]
      by_cases hn : 0 < (getUnvisitedNeighbors current.x current.y m).length
      · rw [dif_pos hn]
        have hmem : (getUnvisitedNeighbors current.x current.y m).get
            ⟨rng t % (getUnvisitedNeighbors current.x current.y m).length,
              Nat.mod_lt _ hn⟩ ∈ getUnvisitedNeighbors current.x current.y m :=
          List.get_mem _ _ _
        obtain ⟨hni, hnc, hnoff⟩ :=
          getUnvisitedNeighbors_sub hinv.1 hm current.x current.y _ hmem
        have hwint := wall_interior hcur hni hnoff
        have hnodd : oddCell ((getUnvisitedNeighbors current.x current.y m).get
            ⟨rng t % (getUnvisitedNeighbors current.x current.y m).length,
              Nat.mod_lt _ hn⟩) := step2_odd hcurodd hnoff
        have hwnotodd := wall_not_odd hcurodd hnoff
        obtain ⟨i1, i2, i3, i4⟩ := interior_bounds hwint
        obtain ⟨cw, hcw⟩ := cellAt_some_of_WF hinv.1 i1 i2 i3 i4
        have hnextPATH : cellAt
            (setCell
              (setCell m
                ⟨current.x + (((getUnvisitedNeighbors current.x current.y m).get
                    ⟨rng t % (getUnvisitedNeighbors current.x current.y m).length,
                      Nat.mod_lt _ hn⟩).x - current.x) / 2,
                  current.y + (((getUnvisitedNeighbors current.x current.y m).get
                    ⟨rng t % (getUnvisitedNeighbors current.x current.y m).length,
                      Nat.mod_lt _ hn⟩).y - current.y) / 2⟩
                Cell.PATH)
              ((getUnvisitedNeighbors current.x current.y m).get
                ⟨rng t % (getUnvisitedNeighbors current.x current.y m).length,
                  Nat.mod_lt _ hn⟩)
              Cell.PATH)
            ((getUnvisitedNeighbors current.x current.y m).get
              ⟨rng t % (getUnvisitedNeighbors current.x current.y m).length,
                Nat.mod_lt _ hn⟩) = some Cell.PATH := by
          have hsome : ∃ c0, cellAt
              (setCell m
                ⟨current.x + (((getUnvisitedNeighbors current.x current.y m).get
                    ⟨rng t % (getUnvisitedNeighbors current.x current.y m).length,
                      Nat.mod_lt _ hn⟩).x - current.x) / 2,
                  current.y + (((getUnvisitedNeighbors current.x current.y m).get
                    ⟨rng t % (getUnvisitedNeighbors current.x current.y m).length,
                      Nat.mod_lt _ hn⟩).y - current.y) / 2⟩
                Cell.PATH)
              ((getUnvisitedNeighbors current.x current.y m).get
                ⟨rng t % (getUnvisitedNeighbors current.x current.y m).length,
                  Nat.mod_lt _ hn⟩) = some c0 := by
            by_cases hnw : (getUnvisitedNeighbors current.x current.y m).get
                ⟨rng t % (getUnvisitedNeighbors current.x current.y m).length,
                  Nat.mod_lt _ hn⟩
                = (⟨current.x + (((getUnvisitedNeighbors current.x current.y m).get
                    ⟨rng t % (getUnvisitedNeighbors current.x current.y m).length,
                      Nat.mod_lt _ hn⟩).x - current.x) / 2,
                  current.y + (((getUnvisitedNeighbors current.x current.y m).get
                    ⟨rng t % (getUnvisitedNeighbors current.x current.y m).length,
                      Nat.mod_lt _ hn⟩).y - current.y) / 2⟩ : Pos)
            · rw [← hnw]
              exact ⟨Cell.PATH, cellAt_setCell_self hnc Cell.PATH⟩
            · rw [cellAt_setCell_ne hnw]
              exact ⟨_, hnc⟩
          obtain ⟨c0, hc0⟩ := hsome
          exact cellAt_setCell_self hc0 _
        have hwallPATH : cellAt
            (setCell
              (setCell m
                ⟨current.x + (((getUnvisitedNeighbors current.x current.y m).get
                    ⟨rng t % (getUnvisitedNeighbors current.x current.y m).length,
                      Nat.mod_lt _ hn⟩).x - current.x) / 2,
                  current.y + (((getUnvisitedNeighbors current.x current.y m).get
                    ⟨rng t % (getUnvisitedNeighbors current.x current.y m).length,
                      Nat.mod_lt _ hn⟩).y - current.y) / 2⟩
                Cell.PATH)
              ((getUnvisitedNeighbors current.x current.y m).get
                ⟨rng t % (getUnvisitedNeighbors current.x current.y m).length,
                  Nat.mod_lt _ hn⟩)
              Cell.PATH)
            (⟨current.x + (((getUnvisitedNeighbors current.x current.y m).get
                ⟨rng t % (getUnvisitedNeighbors current.x current.y m).length,
                  Nat.mod_lt _ hn⟩).x - current.x) / 2,
              current.y + (((getUnvisitedNeighbors current.x current.y m).get
                ⟨rng t % (getUnvisitedNeighbors current.x current.y m).length,
                  Nat.mod_lt _ hn⟩).y - current.y) / 2⟩ : Pos)
            = some Cell.PATH := by
          by_cases hwn : (⟨current.x + (((getUnvisitedNeighbors current.x current.y m).get
                ⟨rng t % (getUnvisitedNeighbors current.x current.y m).length,
                  Nat.mod_lt _ hn⟩).x - current.x) / 2,
              current.y + (((getUnvisitedNeighbors current.x current.y m).get
                ⟨rng t % (getUnvisitedNeighbors current.x current.y m).length,
                  Nat.mod_lt _ hn⟩).y - current.y) / 2⟩ : Pos)
              = (getUnvisitedNeighbors current.x current.y m).get
                ⟨rng t % (getUnvisitedNeighbors current.x current.y m).length,
                  Nat.mod_lt _ hn⟩
          · rw [hwn]
            exact cellAt_setCell_self (cellAt_setCell_self hnc Cell.PATH) Cell.PATH
          · rw [cellAt_setCell_ne hwn]
            exact cellAt_setCell_self hcw _
        apply ih
        · exact genstep_inv hinv hwint hni
        · intro p hp
          rcases List.mem_cons.mp hp with h | h
          · exact h ▸ ⟨hni, hnodd⟩
          · exact hstack p h
        · intro p hpodd hpint hppath
          by_cases hpn : p = (getUnvisitedNeighbors current.x current.y m).get
              ⟨rng t % (getUnvisitedNeighbors current.x current.y m).length,
                Nat.mod_lt _ hn⟩
          · left
            rw [hpn]
            exact List.mem_cons_self _ _
          · by_cases hpw : p = (⟨current.x +
                (((getUnvisitedNeighbors current.x current.y m).get
                  ⟨rng t % (getUnvisitedNeighbors current.x current.y m).length,
                    Nat.mod_lt _ hn⟩).x - current.x) / 2,
                current.y + (((getUnvisitedNeighbors current.x current.y m).get
                  ⟨rng t % (getUnvisitedNeighbors current.x current.y m).length,
                    Nat.mod_lt _ hn⟩).y - current.y) / 2⟩ : Pos)
            · exact absurd (hpw ▸ hpodd) hwnotodd
            · rw [cellAt_setCell_ne hpn, cellAt_setCell_ne hpw] at hppath
              rcases hb p hpodd hpint hppath with hin | hexp
              · left
                exact List.mem_cons_of_mem _ hin
              · right
                intro q hq hqi
                by_cases hqn : q = (getUnvisitedNeighbors current.x current.y m).get
                    ⟨rng t % (getUnvisitedNeighbors current.x current.y m).length,
                      Nat.mod_lt _ hn⟩
                · rw [hqn, hnextPATH]
                  exact fun h => absurd h (by decide)
                · by_cases hqw : q = (⟨current.x +
                      (((getUnvisitedNeighbors current.x current.y m).get
                        ⟨rng t % (getUnvisitedNeighbors current.x current.y m).length,
                          Nat.mod_lt _ hn⟩).x - current.x) / 2,
                      current.y + (((getUnvisitedNeighbors current.x current.y m).get
                        ⟨rng t % (getUnvisitedNeighbors current.x current.y m).length,
                          Nat.mod_lt _ hn⟩).y - current.y) / 2⟩ : Pos)
                  · rw [hqw, hwallPATH]
                    exact fun h => absurd h (by decide)
                  · rw [cellAt_setCell_ne hqn, cellAt_setCell_ne hqw]
                    exact hexp q hq hqi
        · have hwc := wallCard_carve hinv.1 hni hwint hnc
          simp only [List.length_cons] at hfuel ⊢
          omega
      · rw [dif_neg hn]
        apply ih
        · exact hinv
        · exact fun p hp => hstack p (List.mem_cons_of_mem _ hp)
        · intro p hpodd hpint hppath
          rcases hb p hpodd hpint hppath with hin | hexp
          · rcases List.mem_cons.mp hin with hpc | hpr
            · right
              intro q hq hqi hqw
              apply hn
              apply List.length_pos_of_mem
              exact mem_getUnvisitedNeighbors_of hinv.1 hm current.x current.y
                (hpc ▸ hq) hqi hqw
            · left
              exact hpr
          · right
            exact hexp
        · simp only [List.length_cons] at hfuel
          omega

lemma generateMaze_odd_complete (rng : Nat → Nat) (W H : Int) (_hoW : Odd W)
    (_hoH : Odd H) (hW : 5 ≤ W) (hH : 5 ≤ H) :
    ∀ p, oddCell p → interiorP W H p →
      cellAt (generateMaze rng W H) p = some Cell.PATH := by
  obtain ⟨hginv, h11, _⟩ := generateMaze_paths rng W H hW hH
  have h11int : interiorP W H ⟨1, 1⟩ := by
    refine ⟨?_, ?_, ?_, ?_⟩ <;> dsimp only <;> omega
  have h11r : cellAt (List.replicate H.toNat (List.replicate W.toNat Cell.WALL)) ⟨1, 1⟩
      = some Cell.WALL := by
    refine cellAt_replicate ?_ ?_ ?_ ?_ <;> dsimp only <;> omega
  have hinv1 : GenInv W H
      (setCell (List.replicate H.toNat (List.replicate W.toNat Cell.WALL)) ⟨1, 1⟩
        Cell.PATH) :=
    genstep1_inv (replicate_genInv W H (by omega) (by omega)) h11int
  have hclosed : ∀ p, oddCell p → interiorP W H p →
      cellAt (generateMaze rng W H) p = some Cell.PATH →
      ∀ q, step2 p q → interiorP W H q →
        cellAt (generateMaze rng W H) q ≠ some Cell.WALL := by
    unfold generateMaze
    apply generateMazeAux_oddClosed
    · exact hinv1
    · intro p hp
      have hp1 : p = ⟨1, 1⟩ := by simpa using hp
      subst hp1
      exact ⟨h11int, by decide, by decide⟩
    · intro p hpodd hpint hppath
      left
      by_cases hp1 : p = ⟨1, 1⟩
      · rw [hp1]
        exact List.mem_singleton_self _
      · exfalso
        rw [cellAt_setCell_ne hp1] at hppath
        exact absurd (cellAt_replicate_eq hppath) (by decide)
    · have hwcle := wallCard_le W H
        (setCell (List.replicate H.toNat (List.replicate W.toNat Cell.WALL)) ⟨1, 1⟩
          Cell.PATH)
      have h2 : 2 * W.toNat * H.toNat = 2 * (W.toNat * H.toNat) := by ring
      simp only [List.length_singleton]
      omega
  suffices h : ∀ n : Nat, ∀ p, oddCell p → interiorP W H p →
      (p.x - 1).toNat + (p.y - 1).toNat = n →
      cellAt (generateMaze rng W H) p = some Cell.PATH by
    intro p hpodd hpint
    exact h _ p hpodd hpint rfl
  intro n
  induction n using Nat.strong_induction_on with
  | _ n ih =>
    intro p hpodd hpint hn
    by_cases hp1 : p = ⟨1, 1⟩
    · rw [hp1]
      exact h11
    · have hxy : 3 ≤ p.x ∨ 3 ≤ p.y := by
        by_contra hcon
        push_neg at hcon
        apply hp1
        obtain ⟨hpo1, hpo2⟩ := hpodd
        obtain ⟨hpi1, hpi2, hpi3, hpi4⟩ := hpint
        obtain ⟨hc1, hc2⟩ := hcon
        obtain ⟨px, py⟩ := p
        simp only [Pos.mk.injEq]
        dsimp only at hpo1 hpo2 hpi1 hpi2 hpi3 hpi4 hc1 hc2
        constructor <;> omega
      have toPath : ∀ r : Pos, interiorP W H r →
          cellAt (generateMaze rng W H) r ≠ some Cell.WALL →
          cellAt (generateMaze rng W H) r = some Cell.PATH := by
        intro r hri hrnw
        obtain ⟨i1, i2, i3, i4⟩ := interior_bounds hri
        obtain ⟨c, hc⟩ := cellAt_some_of_WF hginv.1 i1 i2 i3 i4
        rcases hginv.2.1 r c hc with hcW | hcP
        · rw [hcW] at hc
          exact absurd hc hrnw
        · rw [hcP] at hc
          exact hc
      rcases hxy with hx3 | hy3
      · have hp'odd : oddCell (⟨p.x - 2, p.y⟩ : Pos) := by
          obtain ⟨h1, h2⟩ := hpodd
          exact ⟨by dsimp only; omega, by dsimp only; omega⟩
        have hp'int : interiorP W H (⟨p.x - 2, p.y⟩ : Pos) := by
          obtain ⟨h1, h2, h3, h4⟩ := hpint
          exact ⟨by dsimp only; omega, by dsimp only; omega, by dsimp only; omega,
            by dsimp only; omega⟩
        have hmeas : ((⟨p.x - 2, p.y⟩ : Pos).x - 1).toNat
            + ((⟨p.x - 2, p.y⟩ : Pos).y - 1).toNat < n := by
          obtain ⟨h1, h2, h3, h4⟩ := hpint
          dsimp only
          omega
        have hp'path := ih _ hmeas _ hp'odd hp'int rfl
        have hstep : step2 (⟨p.x - 2, p.y⟩ : Pos) p := by
          right
          refine ⟨rfl, Or.inr ?_⟩
          dsimp only
          omega
        exact toPath p hpint (hclosed _ hp'odd hp'int hp'path p hstep hpint)
      · have hp'odd : oddCell (⟨p.x, p.y - 2⟩ : Pos) := by
          obtain ⟨h1, h2⟩ := hpodd
          exact ⟨by dsimp only; omega, by dsimp only; omega⟩
        have hp'int : interiorP W H (⟨p.x, p.y - 2⟩ : Pos) := by
          obtain ⟨h1, h2, h3, h4⟩ := hpint
          exact ⟨by dsimp only; omega, by dsimp only; omega, by dsimp only; omega,
            by dsimp only; omega⟩
        have hmeas : ((⟨p.x, p.y - 2⟩ : Pos).x - 1).toNat
            + ((⟨p.x, p.y - 2⟩ : Pos).y - 1).toNat < n := by
          obtain ⟨h1, h2, h3, h4⟩ := hpint
          dsimp only
          omega
        have hp'path := ih _ hmeas _ hp'odd hp'int rfl
        have hstep : step2 (⟨p.x, p.y - 2⟩ : Pos) p := by
          left
          refine ⟨rfl, Or.inr ?_⟩
          dsimp only
          omega
        exact toPath p hpint (hclosed _ hp'odd hp'int hp'path p hstep hpint)

lemma first_max_coincide {s : Pos} {P : List Pos} {X Y : Int} {e : Pos}
    {pre suf : List Pos}
    (hbound : ∀ c ∈ P, |c.x - s.x| ≤ X ∧ |c.y - s.y| ≤ Y)
    (hattain : ∃ cs ∈ P, |cs.x - s.x| = X ∧ |cs.y - s.y| = Y)
    (hsplit : P = pre ++ e :: suf)
    (hpre : ∀ c ∈ pre, getDistanceSq s c < getDistanceSq s e)
    (hall : ∀ c ∈ P, getDistanceSq s c ≤ getDistanceSq s e) :
    (∀ c ∈ pre, manhattanDistance c s < manhattanDistance e s) ∧
    (∀ c ∈ P, manhattanDistance c s ≤ manhattanDistance e s) := by
  obtain ⟨cs, hcsP, hcsx, hcsy⟩ := hattain
  have hX0 : 0 ≤ X := hcsx ▸ abs_nonneg _
  have hY0 : 0 ≤ Y := hcsy ▸ abs_nonneg _
  have hemem : e ∈ P := by
    rw [hsplit]
    exact List.mem_append.mpr (Or.inr (List.mem_cons_self _ _))
  have hdform : ∀ c : Pos, getDistanceSq s c
      = |c.x - s.x| * |c.x - s.x| + |c.y - s.y| * |c.y - s.y| := by
    intro c
    unfold getDistanceSq
    rw [abs_mul_abs_self, abs_mul_abs_self]
    ring
  have hdcs : getDistanceSq s cs = X * X + Y * Y := by
    rw [hdform, hcsx, hcsy]
  have hdemax : getDistanceSq s e = X * X + Y * Y := by
    have h1 := hall cs hcsP
    obtain ⟨hex, hey⟩ := hbound e hemem
    have hax := mul_self_le_mul_self (abs_nonneg (e.x - s.x)) hex
    have hay := mul_self_le_mul_self (abs_nonneg (e.y - s.y)) hey
    rw [hdcs, hdform] at h1
    rw [hdform]
    omega
  have heXY : |e.x - s.x| = X ∧ |e.y - s.y| = Y := by
    obtain ⟨hex, hey⟩ := hbound e hemem
    have hax := mul_self_le_mul_self (abs_nonneg (e.x - s.x)) hex
    have hay := mul_self_le_mul_self (abs_nonneg (e.y - s.y)) hey
    rw [hdform] at hdemax
    have hxeq : |e.x - s.x| * |e.x - s.x| = X * X := by omega
    have hyeq : |e.y - s.y| * |e.y - s.y| = Y * Y := by omega
    exact ⟨(mul_self_inj (abs_nonneg _) hX0).mp hxeq,
      (mul_self_inj (abs_nonneg _) hY0).mp hyeq⟩
  have hmane : manhattanDistance e s = X + Y := by
    unfold manhattanDistance
    rw [heXY.1, heXY.2]
  constructor
  · intro c hcpre
    have hcP : c ∈ P := by
      rw [hsplit]
      exact List.mem_append.mpr (Or.inl hcpre)
    obtain ⟨hcx, hcy⟩ := hbound c hcP
    have hlt := hpre c hcpre
    rw [hdemax, hdform] at hlt
    have hnot : ¬ (|c.x - s.x| = X ∧ |c.y - s.y| = Y) := by
      rintro ⟨h1, h2⟩
      rw [h1, h2] at hlt
      omega
    rw [hmane]
    unfold manhattanDistance
    by_cases h1 : |c.x - s.x| = X
    · have h2 : |c.y - s.y| ≠ Y := fun h => hnot ⟨h1, h⟩
      omega
    · omega
  · intro c hcP
    obtain ⟨hcx, hcy⟩ := hbound c hcP
    rw [hmane]
    unfold manhattanDistance
    omega

/-- C6: on every generated grid (odd width and height at least 5, any
randomness oracle) with its chosen start, the end-selection step of both
placement variants scans the Path cells in row-major scan order and
selects as end the first cell of maximal Manhattan distance from the
start — a running maximum under a strict comparison, so ties keep the
first maximal cell encountered (deterministic, not randomized). For the
`utils.js` variant, which compares (squared) Euclidean distances, this
holds because on generated grids the Euclidean and Manhattan maximizer
sets coincide: the odd interior lattice is fully carved, so a corner path
cell dominates every path cell in both coordinate offsets. -/
theorem C6_end_selection (rng rng2 : Nat → Nat) (t : Nat) (W H : Int)
    (hoW : Odd W) (hoH : Odd H) (hW : 5 ≤ W) (hH : 5 ≤ H) :
    (∀ s e m2, placeStartAndEnd rng2 t (generateMaze rng W H) = some (s, e, m2) →
      ∃ pre suf, pathCellsOf (generateMaze rng W H) = pre ++ e :: suf ∧
        (∀ c ∈ pre, manhattanDistance c s < manhattanDistance e s) ∧
        (∀ c ∈ pathCellsOf (generateMaze rng W H),
          manhattanDistance c s ≤ manhattanDistance e s)) ∧
    (∃ s e, (MazeGenerator.placeStartAndEnd rng2 t
        ⟨MazeGenerator.recursiveBacktracking rng W H
            (List.replicate H.toNat (List.replicate W.toNat Cell.WALL)), W, H,
          none, none⟩).startPos = some s ∧
      (MazeGenerator.placeStartAndEnd rng2 t
        ⟨MazeGenerator.recursiveBacktracking rng W H
            (List.replicate H.toNat (List.replicate W.toNat Cell.WALL)), W, H,
          none, none⟩).endPos = some e ∧
      ∃ pre suf, pathCellsOf (MazeGenerator.recursiveBacktracking rng W H
          (List.replicate H.toNat (List.replicate W.toNat Cell.WALL)))
            = pre ++ e :: suf ∧
        (∀ c ∈ pre, manhattanDistance c s < manhattanDistance e s) ∧
        (∀ c ∈ pathCellsOf (MazeGenerator.recursiveBacktracking rng W H
            (List.replicate H.toNat (List.replicate W.toNat Cell.WALL))),
          manhattanDistance c s ≤ manhattanDistance e s)) := by
  constructor
  · intro s e m2 hp
    obtain ⟨hginv, _, _⟩ := generateMaze_paths rng W H hW hH
    obtain ⟨hsmem, pre, suf, hsplit, hpre, hall⟩ :=
      place_some_spec rng2 t (generateMaze rng W H) s e m2 hp
    have hPb := pathCells_interior hginv
    obtain ⟨hs1, hs2, hs3, hs4⟩ := hPb s hsmem
    obtain ⟨kW, hkW⟩ := hoW
    obtain ⟨kH, hkH⟩ := hoH
    have hcsodd : oddCell (⟨if W - 2 - s.x ≤ s.x - 1 then 1 else W - 2,
        if H - 2 - s.y ≤ s.y - 1 then 1 else H - 2⟩ : Pos) := by
      constructor
      · dsimp only
        by_cases hc : W - 2 - s.x ≤ s.x - 1
        · rw [if_pos hc]
          decide
        · rw [if_neg hc]
          omega
      · dsimp only
        by_cases hc : H - 2 - s.y ≤ s.y - 1
        · rw [if_pos hc]
          decide
        · rw [if_neg hc]
          omega
    have hcsint : interiorP W H (⟨if W - 2 - s.x ≤ s.x - 1 then 1 else W - 2,
        if H - 2 - s.y ≤ s.y - 1 then 1 else H - 2⟩ : Pos) := by
      refine ⟨?_, ?_, ?_, ?_⟩ <;> dsimp only <;>
        [skip; skip; skip; skip] <;> split <;> omega
    have hcsmem : (⟨if W - 2 - s.x ≤ s.x - 1 then 1 else W - 2,
        if H - 2 - s.y ≤ s.y - 1 then 1 else H - 2⟩ : Pos)
        ∈ pathCellsOf (generateMaze rng W H) :=
      mem_pathCellsOf.mpr
        (generateMaze_odd_complete rng W H ⟨kW, hkW⟩ ⟨kH, hkH⟩ hW hH _ hcsodd hcsint)
    have hbound : ∀ c ∈ pathCellsOf (generateMaze rng W H),
        |c.x - s.x| ≤ max (s.x - 1) (W - 2 - s.x) ∧
        |c.y - s.y| ≤ max (s.y - 1) (H - 2 - s.y) := by
      intro c hc
      obtain ⟨hc1, hc2, hc3, hc4⟩ := hPb c hc
      constructor <;> rw [Int.abs_eq_natAbs] <;> omega
    have hattain : ∃ cs ∈ pathCellsOf (generateMaze rng W H),
        |cs.x - s.x| = max (s.x - 1) (W - 2 - s.x) ∧
        |cs.y - s.y| = max (s.y - 1) (H - 2 - s.y) := by
      refine ⟨_, hcsmem, ?_, ?_⟩
      · dsimp only
        by_cases hc : W - 2 - s.x ≤ s.x - 1
        · rw [if_pos hc, Int.abs_eq_natAbs]
          omega
        · rw [if_neg hc, Int.abs_eq_natAbs]
          omega
      · dsimp only
        by_cases hc : H - 2 - s.y ≤ s.y - 1
        · rw [if_pos hc, Int.abs_eq_natAbs]
          omega
        · rw [if_neg hc, Int.abs_eq_natAbs]
          omega
    obtain ⟨hpre2, hall2⟩ := first_max_coincide hbound hattain hsplit hpre hall
    exact ⟨pre, suf, hsplit, hpre2, hall2⟩
  · have hinv0 : GenInv W H
        (List.replicate H.toNat (List.replicate W.toNat Cell.WALL)) :=
      replicate_genInv W H (by omega) (by omega)
    obtain ⟨hginv2, h11b, q2, hq1b, hq2b⟩ :=
      recursiveBacktracking_paths rng W H hW hH _ hinv0
    have h11mem : (⟨1, 1⟩ : Pos) ∈ pathCellsOf (MazeGenerator.recursiveBacktracking
        rng W H (List.replicate H.toNat (List.replicate W.toNat Cell.WALL))) :=
      mem_pathCellsOf.mpr h11b
    have hqmem : q2 ∈ pathCellsOf (MazeGenerator.recursiveBacktracking rng W H
        (List.replicate H.toNat (List.replicate W.toNat Cell.WALL))) :=
      mem_pathCellsOf.mpr hq2b
    have hlen2 : ¬ (pathCellsOf (MazeGenerator.recursiveBacktracking rng W H
        (List.replicate H.toNat (List.replicate W.toNat Cell.WALL)))).length < 2 := by
      have := two_mem_two_le_length hqmem h11mem hq1b
      omega
    obtain ⟨s, e, hsteq, _, _, pre, suf, hsplit2, hpre2, hall2⟩ :=
      mgPlace_spec rng2 t
        ⟨MazeGenerator.recursiveBacktracking rng W H
            (List.replicate H.toNat (List.replicate W.toNat Cell.WALL)), W, H,
          none, none⟩ hlen2
    refine ⟨s, e, ?_, ?_, pre, suf, hsplit2, hpre2, hall2⟩
    · rw [hsteq]
    · rw [hsteq]

theorem C6_end_selection_witness :
    ∃ s e, (MazeGenerator.placeStartAndEnd (fun _ => 0) 0
        ⟨MazeGenerator.recursiveBacktracking (fun _ => 0) 5 5
            (List.replicate (5 : Int).toNat (List.replicate (5 : Int).toNat Cell.WALL)),
          5, 5, none, none⟩).startPos = some s ∧
      (MazeGenerator.placeStartAndEnd (fun _ => 0) 0
        ⟨MazeGenerator.recursiveBacktracking (fun _ => 0) 5 5
            (List.replicate (5 : Int).toNat (List.replicate (5 : Int).toNat Cell.WALL)),
          5, 5, none, none⟩).endPos = some e ∧
      ∃ pre suf, pathCellsOf (MazeGenerator.recursiveBacktracking (fun _ => 0) 5 5
          (List.replicate (5 : Int).toNat (List.replicate (5 : Int).toNat Cell.WALL)))
            = pre ++ e :: suf ∧
        (∀ c ∈ pre, manhattanDistance c s < manhattanDistance e s) ∧
        (∀ c ∈ pathCellsOf (MazeGenerator.recursiveBacktracking (fun _ => 0) 5 5
            (List.replicate (5 : Int).toNat
              (List.replicate (5 : Int).toNat Cell.WALL))),
          manhattanDistance c s ≤ manhattanDistance e s) :=
  (C6_end_selection (fun _ => 0) (fun _ => 0) 0 5 5 ⟨2, by norm_num⟩ ⟨2, by norm_num⟩
    (by norm_num) (by norm_num)).2

end Puzzle
